import Mathlib

/-!
Verification of the pylasdev LAS (Log ASCII Standard) reader/writer.

The development shallowly embeds the Python sources of the repository
(`src/pylasdev/data_reader.py`, `src/pylasdev/parser.py`,
`src/pylasdev/writer.py`, `src/pylasdev/models.py`) as executable Lean
definitions and proves the specification claims about them.

Modelling conventions:
* Python strings are Lean `String`s, manipulated through their `List Char`
  representation.
* Python floats are modelled as exact rationals `ℚ`; `float(str)` becomes
  `parseFloat : String → Option ℚ` covering the plain decimal and scientific
  literal forms (the `inf`/`nan`/underscore forms accepted by Python never
  arise in this code's inputs and are not modelled).
* Code that can raise an uncaught exception is embedded as an
  `Option`-valued function, `none` being the raised exception.
* `warnings.warn` calls are modelled by accumulating values of the
  inductive type `Warning`.
-/

namespace Pylas

attribute [local semireducible] Rat.add Rat.mul Rat.sub Rat.inv Rat.ofScientific

/-- Whitespace predicate: the ASCII whitespace characters recognised by
Python's `str.split()`, `str.strip()` and the regex class `\s`. -/
def isWs (c : Char) : Bool :=
  c == ' ' || c == '\t' || c == '\n' || c == '\r' || c == '\x0b' || c == '\x0c'

/-- Python `str.lstrip()` on a character list. -/
def stripL (l : List Char) : List Char := l.dropWhile isWs

/-- Python `str.rstrip()` on a character list. -/
def stripR (l : List Char) : List Char := (l.reverse.dropWhile isWs).reverse

/-- Python `str.strip()` on a character list. -/
def stripB (l : List Char) : List Char := stripR (stripL l)

/-- Python `str.strip()`. -/
def pyStrip (s : String) : String := ⟨stripB s.data⟩

/-- Python `str.rstrip()`. -/
def pyRstrip (s : String) : String := ⟨stripR s.data⟩

/-- Python `str.upper()` (ASCII; the mnemonics and section letters this
code handles are ASCII). -/
def pyUpper (s : String) : String := ⟨s.data.map Char.toUpper⟩

/-- Python `s.startswith(p)`. -/
def pyStarts (s p : String) : Bool := p.data.isPrefixOf s.data

/-- Head of `List.dropWhile` never satisfies the predicate. -/
theorem dropWhile_head_false {α : Type} {p : α → Bool} :
    ∀ (l : List α) (c : α) (cs : List α), l.dropWhile p = c :: cs → p c = false := by
  intro l
  induction l with
  | nil => intro c cs h; simp [List.dropWhile] at h
  | cons a t ih =>
    intro c cs h
    rw [List.dropWhile_cons] at h
    by_cases hp : p a
    · simp [hp] at h; exact ih c cs h
    · simp [hp] at h; simp [← h.1]; simpa using hp

/-- `List.dropWhile` never lengthens a list. -/
theorem dropWhile_length_le {α : Type} (p : α → Bool) :
    ∀ l : List α, (l.dropWhile p).length ≤ l.length := by
  intro l
  induction l with
  | nil => simp [List.dropWhile]
  | cons a t ih =>
    rw [List.dropWhile_cons]
    by_cases hp : p a
    · simp only [hp, if_true]; exact Nat.le_succ_of_le ih
    · simp [hp]

/-- Fuel-driven body of Python `str.split()`; the fuel is only a
structural-recursion device and `splitWsL` always supplies enough. -/
def splitWsF : Nat → List Char → List (List Char)
  | 0, _ => []
  | fuel + 1, l =>
    let d := l.dropWhile isWs
    if d.isEmpty then []
    else (d.takeWhile (fun c => !isWs c)) :: splitWsF fuel (d.dropWhile (fun c => !isWs c))

/-- Python `str.split()` (split on runs of whitespace, dropping empty
tokens) on a character list. -/
def splitWsL (l : List Char) : List (List Char) := splitWsF (l.length + 1) l

/-- After dropping leading whitespace, dropping the leading non-whitespace
run shortens a nonempty remainder. -/
theorem splitWs_step_lt (l : List Char) (h : (l.dropWhile isWs).isEmpty = false) :
    ((l.dropWhile isWs).dropWhile (fun c => !isWs c)).length < l.length := by
  match hdw : l.dropWhile isWs with
  | [] => rw [hdw] at h; simp at h
  | c :: cs =>
    have hc : isWs c = false := dropWhile_head_false l c cs hdw
    have h1 : (c :: cs).length ≤ l.length := by
      rw [← hdw]; exact dropWhile_length_le _ l
    have h2 : ((c :: cs).dropWhile (fun d => !isWs d)) = cs.dropWhile (fun d => !isWs d) := by
      rw [List.dropWhile_cons]; simp [hc]
    rw [h2]
    have := dropWhile_length_le (fun d => !isWs d) cs
    simp only [List.length_cons] at h1
    omega

/-- `splitWsF` is fuel-irrelevant once the fuel exceeds the length. -/
theorem splitWsF_fuel (fuel fuel' : Nat) (l : List Char)
    (h : l.length < fuel) (h' : l.length < fuel') :
    splitWsF fuel l = splitWsF fuel' l := by
  induction fuel generalizing fuel' l with
  | zero => omega
  | succ n ih =>
    match fuel', h' with
    | m + 1, h' =>
      simp only [splitWsF]
      by_cases hd : (l.dropWhile isWs).isEmpty
      · simp [hd]
      · simp only [Bool.not_eq_true] at hd
        simp only [hd, Bool.false_eq_true, if_false]
        have hlt := splitWs_step_lt l hd
        rw [ih m ((l.dropWhile isWs).dropWhile (fun c => !isWs c)) (by omega) (by omega)]

/-- Unfolding rule for `splitWsL` in its intended reading. -/
theorem splitWsL_eq (l : List Char) :
    splitWsL l =
      (if (l.dropWhile isWs).isEmpty then []
       else ((l.dropWhile isWs).takeWhile (fun c => !isWs c)) ::
         splitWsL ((l.dropWhile isWs).dropWhile (fun c => !isWs c))) := by
  show splitWsF (l.length + 1) l = _
  simp only [splitWsF]
  by_cases hd : (l.dropWhile isWs).isEmpty
  · simp [hd]
  · simp only [Bool.not_eq_true] at hd
    simp only [hd, Bool.false_eq_true, if_false]
    have hlt := splitWs_step_lt l hd
    rw [splitWsF_fuel l.length (((l.dropWhile isWs).dropWhile (fun c => !isWs c)).length + 1)
      ((l.dropWhile isWs).dropWhile (fun c => !isWs c)) (by omega) (by omega)]
    rfl

def pySplit (s : String) : List String := (splitWsL s.data).map String.mk

/-- Split a character list at newline characters (auxiliary for
`pySplitlines`). -/
def splitNlL : List Char → List (List Char)
  | [] => [[]]
  | c :: cs =>
    if c == '\n' then [] :: splitNlL cs
    else
      match splitNlL cs with
      | [] => [[c]]
      | h :: t => (c :: h) :: t

/-- Python `str.splitlines()` restricted to the `'\n'` line terminator
(the only terminator produced and consumed by this code). -/
def pySplitlines (s : String) : List String :=
  if s.data.isEmpty then []
  else
    let parts := splitNlL s.data
    let parts := if parts.getLast? = some [] then parts.dropLast else parts
    parts.map String.mk

/-- Python `"\n".join(lines)`-style joining used by the writer. -/
def joinSep (sep : String) (ls : List String) : String :=
  String.mk (List.intercalate sep.data (ls.map String.data))

/-- Decimal digit value of a character. -/
def digVal (c : Char) : Nat := c.toNat - '0'.toNat

/-- Value of a big-endian list of decimal digit characters. -/
def digitsVal (l : List Char) : Nat := l.foldl (fun a c => 10 * a + digVal c) 0

/-- Python `float(s)` on the plain decimal / scientific literal forms:
optional sign, digits with an optional decimal point (at least one digit
overall), optional exponent part.  Returns `none` exactly when Python's
`float` raises `ValueError` on such inputs. -/
def parseFloat (s : String) : Option ℚ :=
  let cs := stripB s.data
  let (sgn, cs) : ℚ × List Char :=
    match cs with
    | c :: t => if c == '-' then (-1, t) else if c == '+' then (1, t) else (1, c :: t)
    | [] => (1, [])
  let intDs := cs.takeWhile Char.isDigit
  let cs := cs.dropWhile Char.isDigit
  let (fracDs, cs) : List Char × List Char :=
    match cs with
    | c :: t =>
      if c == '.' then (t.takeWhile Char.isDigit, t.dropWhile Char.isDigit)
      else ([], c :: t)
    | [] => ([], [])
  if intDs.isEmpty && fracDs.isEmpty then none
  else
    let mant : ℚ := sgn * (digitsVal (intDs ++ fracDs) : ℚ)
    match cs with
    | [] => some (mant * (10 : ℚ) ^ (-(fracDs.length : ℤ)))
    | e :: t =>
      if e == 'e' || e == 'E' then
        let (esgn, t) : ℤ × List Char :=
          match t with
          | '-' :: u => (-1, u)
          | '+' :: u => (1, u)
          | u => (1, u)
        let expDs := t.takeWhile Char.isDigit
        let rest := t.dropWhile Char.isDigit
        if expDs.isEmpty then none
        else if rest.isEmpty then
          some (mant * (10 : ℚ) ^ (esgn * (digitsVal expDs : ℤ) - (fracDs.length : ℤ)))
        else none
      else none

/-- Fuel-driven body of the decimal-digit expansion. -/
def natDigitsF : Nat → Nat → List Char
  | 0, _ => []
  | fuel + 1, n =>
    if n < 10 then [Char.ofNat (48 + n)]
    else natDigitsF fuel (n / 10) ++ [Char.ofNat (48 + n % 10)]

/-- Decimal digit characters of a natural number, most significant first
(the digits of Python's `str(n)` for `n ≥ 0`). -/
def natDigits (n : Nat) : List Char := natDigitsF (n + 1) n

/-- `natDigitsF` is fuel-irrelevant once the fuel exceeds the number. -/
theorem natDigitsF_fuel (fuel fuel' n : Nat) (h : n < fuel) (h' : n < fuel') :
    natDigitsF fuel n = natDigitsF fuel' n := by
  induction fuel generalizing fuel' n with
  | zero => omega
  | succ m ih =>
    match fuel' with
    | 0 => omega
    | k + 1 =>
      simp only [natDigitsF]
      by_cases hn : n < 10
      · simp [hn]
      · simp only [hn, if_false]
        have hd : n / 10 < n := Nat.div_lt_self (by omega) (by norm_num)
        rw [ih k (n / 10) (by omega) (by omega)]

/-- Unfolding rule for `natDigits`. -/
theorem natDigits_eq (n : Nat) :
    natDigits n =
      if n < 10 then [Char.ofNat (48 + n)]
      else natDigits (n / 10) ++ [Char.ofNat (48 + n % 10)] := by
  show natDigitsF (n + 1) n = _
  simp only [natDigitsF]
  by_cases hn : n < 10
  · simp [hn]
  · simp only [hn, if_false]
    have hd : n / 10 < n := Nat.div_lt_self (by omega) (by norm_num)
    rw [natDigitsF_fuel n (n / 10 + 1) (n / 10) (by omega) (by omega)]
    rfl

/-- Pad a digit list on the left with `'0'` up to length `k`. -/
def padZeros (k : Nat) (ds : List Char) : List Char :=
  List.replicate (k - ds.length) '0' ++ ds

/-- Python's `f"{v:.4f}"` fixed-point formatting, on exact rationals.
Rounding ties are resolved upward rather than to even; both resolutions
land within half an ulp of the value, which is all the round-trip claim
uses. -/
def fmt4 (q : ℚ) : String :=
  let n : ℤ := round (q * 10000)
  let m := n.natAbs
  String.mk ((if n < 0 then ['-'] else []) ++
    natDigits (m / 10000) ++ '.' :: padZeros 4 (natDigits (m % 10000)))

/-! ### Insertion-ordered dictionaries

Python `dict`s preserve insertion order; they are modelled as association
lists where assignment replaces the first matching key in place and
otherwise appends. -/

/-- Association-list model of a Python `dict`. -/
abbrev Dict (α : Type) : Type := List (String × α)

/-- Python `d[k]` / `d.get(k)` lookup. -/
def dget? {α : Type} : Dict α → String → Option α
  | [], _ => none
  | (k', v) :: t, k => if k' = k then some v else dget? t k

/-- Python `d.get(k, default)`. -/
def dgetD {α : Type} (d : Dict α) (k : String) (dflt : α) : α := (dget? d k).getD dflt

/-- Python `k in d`. -/
def dmem {α : Type} (d : Dict α) (k : String) : Bool := (dget? d k).isSome

/-- Python `d[k] = v`: replace in place, else append (insertion order). -/
def dinsert {α : Type} : Dict α → String → α → Dict α
  | [], k, v => [(k, v)]
  | (k', v') :: t, k, v => if k' = k then (k, v) :: t else (k', v') :: dinsert t k v

theorem dget?_dinsert_self {α : Type} (d : Dict α) (k : String) (v : α) :
    dget? (dinsert d k v) k = some v := by
  induction d with
  | nil => simp [dinsert, dget?]
  | cons p t ih =>
    obtain ⟨k', v'⟩ := p
    by_cases hk : k' = k
    · simp [dinsert, dget?, hk]
    · simp [dinsert, dget?, hk, ih]

theorem dget?_dinsert_ne {α : Type} (d : Dict α) (k k' : String) (v : α) (h : k ≠ k') :
    dget? (dinsert d k v) k' = dget? d k' := by
  induction d with
  | nil => simp [dinsert, dget?, h]
  | cons p t ih =>
    obtain ⟨k₀, v₀⟩ := p
    by_cases hk : k₀ = k
    · subst hk; simp [dinsert, dget?, h]
    · simp only [dinsert, hk, if_false]
      by_cases hk' : k₀ = k'
      · simp [dget?, hk']
      · simp [dget?, hk', ih]

/-- Every value of `dinsert d k v` is `v` or a value of `d`. -/
theorem dinsert_mem {α : Type} (d : Dict α) (k : String) (v : α) :
    ∀ p ∈ dinsert d k v, p.2 = v ∨ p ∈ d := by
  induction d with
  | nil => intro p hp; simp [dinsert] at hp; simp [hp]
  | cons q t ih =>
    intro p hp
    by_cases hk : q.1 = k
    · simp only [dinsert, hk, if_true, List.mem_cons] at hp
      rcases hp with hp | hp
      · left; rw [hp]
      · right; exact List.mem_cons_of_mem _ hp
    · simp only [dinsert, hk, if_false, List.mem_cons] at hp
      rcases hp with hp | hp
      · right; rw [hp]; exact List.mem_cons_self _ _
      · rcases ih p hp with h | h
        · left; exact h
        · right; exact List.mem_cons_of_mem _ h

/-! ### Data model (`models.py`) -/

/-- `VersionSection` of `models.py`. -/
structure VersionSection where
  vers : String := "2.0"
  wrap : String := "NO"
  dlm : String := "SPACE"
deriving Repr, DecidableEq

/-- `VersionSection.is_las30`. -/
def VersionSection.isLas30 (v : VersionSection) : Bool := pyStarts v.vers "3"

/-- `VersionSection.delimiter_char`. -/
def VersionSection.delimiterChar (v : VersionSection) : String :=
  if pyUpper v.dlm = "SPACE" then " "
  else if pyUpper v.dlm = "TAB" then "\t"
  else if pyUpper v.dlm = "COMMA" then "," else " "

/-- `ArrayElementInfo` of `models.py`. -/
structure ArrayElementInfo where
  baseName : String := ""
  index : Nat := 0
  timeOffset : Option ℚ := none
deriving Repr, DecidableEq

/-- `CurveDefinition` of `models.py`. -/
structure CurveDefinition where
  mnemonic : String
  unit : String := ""
  apiCode : String := ""
  description : String := ""
  originalMnemonic : String := ""
  dataFormat : String := ""
  arrayInfo : Option ArrayElementInfo := none
deriving Repr, DecidableEq

/-- `ParameterZone` of `models.py`. -/
structure ParameterZone where
  zoneName : String := ""
  zoneIndex : Option Nat := none
deriving Repr, DecidableEq

/-- `ParameterEntry` of `models.py`. -/
structure ParameterEntry where
  mnemonic : String
  unit : String := ""
  value : String := ""
  description : String := ""
  arrayIndex : Option Nat := none
  zone : Option ParameterZone := none
deriving Repr, DecidableEq

/-- `DataSection` of `models.py` (LAS 3.0 `~A` block). -/
structure DataSection where
  name : String := ""
  curvesOrder : List String := []
  data : Dict (List ℚ) := []
deriving Repr, DecidableEq

/-- `LASFile` of `models.py`.  Numeric arrays are lists of exact
rationals, string arrays lists of strings. -/
structure LASFile where
  version : VersionSection := {}
  well : Dict String := []
  curves : List CurveDefinition := []
  parameters : List ParameterEntry := []
  other : String := ""
  logs : Dict (List ℚ) := []
  curvesOrder : List String := []
  dataSections : List DataSection := []
  stringData : Dict (List String) := []
deriving Repr, DecidableEq

/-- `LASFile.is_las30`. -/
def LASFile.isLas30 (f : LASFile) : Bool := f.version.isLas30

/-- Diagnostics emitted through `warnings.warn`, abstracted from their
message text to their kind and arguments. -/
inductive Warning where
  | duplicateCurve (original renamed : String)
  | depthLineExtra (valueCount : Nat)
  | wrappedPad (curve : String) (got expected : Nat)
deriving Repr, DecidableEq

/-! ### ASCII data reader (`data_reader.py`)

The imperative loops are embedded as explicit state-passing recursions;
mutation of `las_file` becomes functional record update, and statements
that can raise an uncaught exception make the function `Option`-valued. -/

/-- Loop body of `_detect_actual_wrap`: scan for the first line after a
`~A` marker that is not blank, not a comment and not itself a `~A` line,
and compare its token count with the curve count; default `true` when no
such line exists. -/
def detectLoop : List String → Bool → Nat → Bool
  | [], _, _ => true
  | line :: rest, inAscii, cc =>
    let s := pyStrip line
    if pyStarts s "~A" then detectLoop rest true cc
    else if !inAscii || s = "" || pyStarts s "#" then detectLoop rest inAscii cc
    else decide ((pySplit s).length < cc)

/-- `_detect_actual_wrap` of `data_reader.py`. -/
def detectActualWrap (lines : List String) (curveCount : Nat) : Bool :=
  detectLoop lines false curveCount

/-- In-place update of `curves[idx]` performed by `_deduplicate_curves`
(the `idx < len(curves)` guard corresponds to `List.set` being the
identity out of range). -/
def updCurve (cs : List CurveDefinition) (idx : Nat) (name newName : String) :
    List CurveDefinition :=
  match cs.get? idx with
  | none => cs
  | some c =>
    cs.set idx { c with
      mnemonic := newName,
      originalMnemonic := if c.originalMnemonic = "" then name else c.originalMnemonic }

/-- Loop of `_deduplicate_curves`, threading the `seen` dictionary. -/
def dedupGo : List String → Nat → Dict Nat → List CurveDefinition →
    (List String × List CurveDefinition × List Warning)
  | [], _, _, cs => ([], cs, [])
  | name :: rest, idx, seen, cs =>
    match dget? seen name with
    | some k =>
      let newName := name ++ "_" ++ toString (k + 1)
      let cs' := updCurve cs idx name newName
      let (ord, cs'', ws) := dedupGo rest (idx + 1) (dinsert seen name (k + 1)) cs'
      (newName :: ord, cs'', Warning.duplicateCurve name newName :: ws)
    | none =>
      let (ord, cs'', ws) := dedupGo rest (idx + 1) (dinsert seen name 1) cs
      (name :: ord, cs'', ws)

/-- `_deduplicate_curves` of `data_reader.py`: returns the new
`curves_order`, the updated curve definitions and the warnings raised. -/
def dedupCurves (order : List String) (cs : List CurveDefinition) :
    (List String × List CurveDefinition × List Warning) :=
  dedupGo order 0 [] cs

/-- One array-cell assignment `logs[name][i] = q`; `none` models the
uncaught `KeyError`/`IndexError`. -/
def storeCell (logs : Dict (List ℚ)) (name : String) (i : Nat) (q : ℚ) :
    Option (Dict (List ℚ)) :=
  match dget? logs name with
  | none => none
  | some arr => if i < arr.length then some (dinsert logs name (arr.set i q)) else none

/-- The guarded assignment of `_read_normal` (lines 140–144):
`try: logs[name][cl] = float(tok) except (ValueError, IndexError):
logs[name][cl] = null_value`.  A failed store raises again inside the
`except` branch, so an out-of-range row index is an uncaught error either
way. -/
def storeTok (logs : Dict (List ℚ)) (name : String) (cl : Nat) (tok : String)
    (nullV : ℚ) : Option (Dict (List ℚ)) :=
  match parseFloat tok with
  | some v => storeCell logs name cl v
  | none => storeCell logs name cl nullV

/-- First loop of a `_read_normal` row: positions `range(min(len(values),
curve_count))` store the parsed token (or the null value). -/
def storeParsedIdx (order : List String) (cl : Nat) (vals : List String) (nullV : ℚ) :
    Dict (List ℚ) → List Nat → Option (Dict (List ℚ))
  | logs, [] => some logs
  | logs, i :: is =>
    match storeTok logs (order.getD i "") cl (vals.getD i "") nullV with
    | none => none
    | some logs' => storeParsedIdx order cl vals nullV logs' is

/-- Second loop of a `_read_normal` row: positions `range(len(values),
curve_count)` are filled with the null value. -/
def storeNullIdx (order : List String) (cl : Nat) (nullV : ℚ) :
    Dict (List ℚ) → List Nat → Option (Dict (List ℚ))
  | logs, [] => some logs
  | logs, i :: is =>
    match storeCell logs (order.getD i "") cl nullV with
    | none => none
    | some logs' => storeNullIdx order cl nullV logs' is

/-- Processing of one data row in `_read_normal`. -/
def storeRow (logs : Dict (List ℚ)) (order : List String) (cc cl : Nat)
    (vals : List String) (nullV : ℚ) : Option (Dict (List ℚ)) :=
  match storeParsedIdx order cl vals nullV logs (List.range (min vals.length cc)) with
  | none => none
  | some logs' => storeNullIdx order cl nullV logs' (List.range' vals.length (cc - vals.length))

/-- Line loop of `_read_normal`: `in_ascii` flag, `current_line` counter,
`break` on a non-`~A` section line seen while inside the data section. -/
def normalLoop : List String → Bool → Nat → Dict (List ℚ) → List String → Nat → ℚ →
    Option (Dict (List ℚ))
  | [], _, _, logs, _, _, _ => some logs
  | line :: rest, inAscii, cl, logs, order, cc, nullV =>
    let s := pyStrip line
    if pyStarts s "~" then
      if pyStarts s "~A" then normalLoop rest true cl logs order cc nullV
      else if inAscii then some logs
      else normalLoop rest inAscii cl logs order cc nullV
    else if !inAscii || s = "" || pyStarts s "#" then
      normalLoop rest inAscii cl logs order cc nullV
    else
      match storeRow logs order cc cl (pySplit s) nullV with
      | none => none
      | some logs' => normalLoop rest inAscii (cl + 1) logs' order cc nullV

/-- `_read_normal` of `data_reader.py`. -/
def readNormal (lines : List String) (las : LASFile) (dataLineCount : Nat) :
    Option (LASFile × List Warning) :=
  let (order, curves, ws) := dedupCurves las.curvesOrder las.curves
  let las := { las with curvesOrder := order, curves := curves }
  let cc := order.length
  let logs0 := order.foldl
    (fun lg name => dinsert lg name (List.replicate dataLineCount (0 : ℚ))) las.logs
  match parseFloat (dgetD las.well "NULL" "-999.25") with
  | none => none
  | some nullV =>
    match normalLoop lines false 0 logs0 order cc nullV with
    | none => none
    | some logs => some ({ las with logs := logs }, ws)

/-- `data_lists[i].append(v)`; `none` models the uncaught `IndexError`. -/
def appendAt (ls : List (List ℚ)) (i : Nat) (v : ℚ) : Option (List (List ℚ)) :=
  match ls.get? i with
  | some l => some (ls.set i (l ++ [v]))
  | none => none

/-- One token of a wrapped-mode value line (`_read_wrapped` lines
212–218): the `try` appends the parsed value, the `except` appends the
null value only when `counter < curve_count`. -/
def wrapTok (ls : List (List ℚ)) (counter : Nat) (tok : String) (nullV : ℚ) (cc : Nat) :
    Option (List (List ℚ)) :=
  match parseFloat tok with
  | some v =>
    match appendAt ls counter v with
    | some ls' => some ls'
    | none => if counter < cc then none else some ls
  | none => if counter < cc then appendAt ls counter nullV else some ls

/-- Token loop of a wrapped-mode value line, with the step-completion
check `counter >= curve_count - 1` resetting the counter and arming the
depth-line flag. -/
def wrapValsLoop : List String → List (List ℚ) → Nat → Bool → ℚ → Nat →
    Option (List (List ℚ) × Nat × Bool)
  | [], ls, counter, dl, _, _ => some (ls, counter, dl)
  | tok :: rest, ls, counter, dl, nullV, cc =>
    match wrapTok ls (counter + 1) tok nullV cc with
    | none => none
    | some ls' =>
      if counter + 1 ≥ cc - 1 then wrapValsLoop rest ls' 0 true nullV cc
      else wrapValsLoop rest ls' (counter + 1) dl nullV cc

/-- A wrapped-mode depth line (`_read_wrapped` lines 196–209): warn on
extra tokens, append `float(values[0])` (or the null value) to the first
curve's list. -/
def depthLineStep (ls : List (List ℚ)) (vals : List String) (nullV : ℚ) :
    Option (List (List ℚ)) :=
  match vals.head? with
  | some t =>
    match parseFloat t with
    | some v => appendAt ls 0 v
    | none => appendAt ls 0 nullV
  | none => appendAt ls 0 nullV

/-- Line loop of `_read_wrapped`: `in_ascii` / `depth_line` flags plus
the running fill counter. -/
def wrappedLoop : List String → Bool → Bool → Nat → List (List ℚ) → ℚ → Nat →
    List Warning → Option (List (List ℚ) × List Warning)
  | [], _, _, _, ls, _, _, ws => some (ls, ws)
  | line :: rest, inAscii, dl, counter, ls, nullV, cc, ws =>
    let s := pyStrip line
    if pyStarts s "~" then
      if pyStarts s "~A" then wrappedLoop rest true dl counter ls nullV cc ws
      else if inAscii then some (ls, ws)
      else wrappedLoop rest inAscii dl counter ls nullV cc ws
    else if !inAscii || s = "" || pyStarts s "#" then
      wrappedLoop rest inAscii dl counter ls nullV cc ws
    else
      let vals := pySplit s
      if dl then
        let ws' := if vals.length > 1 then ws ++ [Warning.depthLineExtra vals.length] else ws
        match depthLineStep ls vals nullV with
        | none => none
        | some ls' => wrappedLoop rest inAscii false 0 ls' nullV cc ws'
      else
        match wrapValsLoop vals ls counter dl nullV cc with
        | none => none
        | some (ls', counter', dl') => wrappedLoop rest inAscii dl' counter' ls' nullV cc ws

/-- `max((len(dl) for dl in data_lists), default=0)`. -/
def maxLen (ls : List (List ℚ)) : Nat := ls.foldl (fun a l => max a l.length) 0

/-- Padding pass of `_read_wrapped` (lines 225–234): extend every list
shorter than the maximum with the null value, warning per curve. -/
def padGo : List (List ℚ) → Nat → Nat → List String → ℚ →
    (List (List ℚ) × List Warning)
  | [], _, _, _, _ => ([], [])
  | l :: t, i, m, order, nullV =>
    let (t', ws) := padGo t (i + 1) m order nullV
    if l.length < m then
      ((l ++ List.replicate (m - l.length) nullV) :: t',
        Warning.wrappedPad (order.getD i "") l.length m :: ws)
    else (l :: t', ws)

/-- `_read_wrapped` of `data_reader.py`. -/
def readWrapped (lines : List String) (las : LASFile) : Option (LASFile × List Warning) :=
  let (order, curves, ws) := dedupCurves las.curvesOrder las.curves
  let las := { las with curvesOrder := order, curves := curves }
  let cc := order.length
  match parseFloat (dgetD las.well "NULL" "-999.25") with
  | none => none
  | some nullV =>
    match wrappedLoop lines false true 0 (List.replicate cc []) nullV cc [] with
    | none => none
    | some (ls, ws2) =>
      let m := maxLen ls
      let (ls', ws3) := padGo ls 0 m order nullV
      let logs := (List.zip order ls').foldl (fun lg p => dinsert lg p.1 p.2) las.logs
      some ({ las with logs := logs }, ws ++ ws2 ++ ws3)

/-- `read_ascii_data` of `data_reader.py`: the entry point, with the
wrap-mode arbitration between the two reading algorithms. -/
def readAsciiData (content : String) (las : LASFile) (dataLineCount : Nat) :
    Option (LASFile × List Warning) :=
  let cc := las.curvesOrder.length
  if cc = 0 then some (las, [])
  else
    let lines := pySplitlines content
    if pyUpper las.version.wrap = "YES" then
      if detectActualWrap lines cc then readWrapped lines las
      else readNormal lines las dataLineCount
    else readNormal lines las dataLineCount

/-! ### Header-line regexes (`parser.py`)

The regexes of `parser.py` are embedded as deterministic scanners.  Each
doc comment records the regex and why the scanner computes the same
match: greedy character-class runs never backtrack successfully here
because adjacent character classes are disjoint, and the lazy groups
(`[^:]*?`, `.*?`) resolve to "strip the surrounding whitespace" because
they sit between greedy `\s` runs and an anchor.  Python's `\w` is
modelled over ASCII (letters, digits, underscore); the non-Latin
mnemonics it would additionally admit play no role in the claims. -/

/-- Python regex `\w` (ASCII fragment). -/
def isWordChar (c : Char) : Bool := c.isAlphanum || c == '_'

/-- Character class `[\w\-]` of the mnemonic group. -/
def isMnemChar (c : Char) : Bool := isWordChar c || c == '-'

/-- Character class of the unit group: word characters, hyphen, slash. -/
def isUnitChar (c : Char) : Bool := isWordChar c || c == '-' || c == '/'

/-- `SECTION_PATTERN = ^~([A-Za-z])(.*)`: anchored at the very first
character (no leading whitespace is allowed). -/
def sectionMatch (line : String) : Option (Char × String) :=
  match line.data with
  | t :: c :: rest => if t == '~' && c.isAlpha then some (c, String.mk rest) else none
  | _ => none

/-- `COMMENT_PATTERN = ^\s*#`. -/
def isCommentLine (line : String) : Bool :=
  match stripL line.data with
  | c :: _ => c == '#'
  | [] => false

/-- `EMPTY_PATTERN = ^\s*$`. -/
def isEmptyLine (line : String) : Bool := (stripL line.data).isEmpty

/-- Result of a header-line match.  The `value` and `description` groups
are returned already whitespace-stripped: as matched, `value` (lazy
`[^:]*?` between greedy `\s+` and `\s*:`) is the inter-delimiter segment
with surrounding whitespace stripped, except that a whitespace-only
`.+?` value-only group may match a single whitespace character — and
every caller in `parser.py` applies `.strip()` to the group, which this
normalisation commutes with.  `desc` is `none` when the match came from
`VALUE_ONLY_PATTERN`, which has no description group. -/
structure HeaderMatch where
  mnemonic : String
  unit : String
  value : String
  desc : Option String
deriving Repr, DecidableEq

/-- Shared prefix `^\s*(?P<mnemonic>[\w\-]+(?:\[\d+\])?)\s*\.` of both
header patterns: returns the mnemonic text and the characters after the
dot.  If a `[` follows the mnemonic run, only the bracketed alternative
can succeed (the no-bracket alternative would need `\s*\.` to match at
`[`), so a malformed bracket fails the whole pattern. -/
def matchMnemDot (cs : List Char) : Option (String × List Char) :=
  let cs := stripL cs
  let run := cs.takeWhile isMnemChar
  let cs1 := cs.dropWhile isMnemChar
  if run.isEmpty then none
  else
    match cs1 with
    | b :: t =>
      if b == '[' then
        let ds := t.takeWhile Char.isDigit
        let t1 := t.dropWhile Char.isDigit
        if ds.isEmpty then none
        else
          match t1 with
          | b2 :: t2 =>
            if b2 == ']' then
              (match stripL t2 with
               | b3 :: t3 => if b3 == '.' then some (String.mk (run ++ '[' :: (ds ++ [']'])), t3) else none
               | [] => none)
            else none
          | [] => none
      else
        match stripL (b :: t) with
        | b3 :: t3 => if b3 == '.' then some (String.mk run, t3) else none
        | [] => none
    | [] =>
      match stripL ([] : List Char) with
      | b3 :: t3 => if b3 == '.' then some (String.mk run, t3) else none
      | [] => none

/-- `DATA_LINE_PATTERN`: mnemonic, dot, unit run, then `\s+` followed by
the value (everything before the first colon, stripped) and the
description (everything after it, stripped).  The first colon after the
unit is necessarily the matched one since neither `\s` nor `[^:]*?` can
cross a colon; `\s+` failing cannot be repaired by shrinking the greedy
unit run because unit characters are never whitespace. -/
def dataLineMatch (line : String) : Option HeaderMatch :=
  match matchMnemDot line.data with
  | none => none
  | some (mnem, t3) =>
    let unit := t3.takeWhile isUnitChar
    let rest := t3.dropWhile isUnitChar
    let seg := rest.takeWhile (fun c => c != ':')
    match rest.dropWhile (fun c => c != ':') with
    | b :: rtail =>
      if b == ':' then
        (match seg with
         | c :: _ =>
           if isWs c then
             some ⟨mnem, String.mk unit, String.mk (stripB seg), some (String.mk (stripB rtail))⟩
           else none
         | [] => none)
      else none
    | [] => none

/-- `VALUE_ONLY_PATTERN`: like `DATA_LINE_PATTERN` but the value is
`\s+(?P<value>.+?)\s*$`; it matches iff at least one whitespace character
and one further character follow the unit. -/
def valueOnlyMatch (line : String) : Option HeaderMatch :=
  match matchMnemDot line.data with
  | none => none
  | some (mnem, t3) =>
    let unit := t3.takeWhile isUnitChar
    let rest := t3.dropWhile isUnitChar
    match rest with
    | c :: _ :: _ =>
      if isWs c then some ⟨mnem, String.mk unit, String.mk (stripB rest), none⟩ else none
    | _ => none

/-- `LASParser._match_data_line`: try the with-description pattern, then
the value-only pattern. -/
def matchDataLine (line : String) : Option HeaderMatch :=
  match dataLineMatch line with
  | some m => some m
  | none => valueOnlyMatch line

/-- `FORMAT_SPEC_PATTERN = \{(?P<format>[FESA]):?(?P<offset>[\d.]*)\s*\}`
tried at one position: returns the format letter, the offset digits and
the characters after the closing brace. -/
def fmtSpecHere (cs : List Char) : Option (Char × List Char × List Char) :=
  match cs with
  | a :: f :: t =>
    if a == '\x7b' && (f == 'F' || f == 'E' || f == 'S' || f == 'A') then
      let t1 : List Char := match t with
        | c :: u => if c == ':' then u else c :: u
        | [] => []
      let off := t1.takeWhile (fun c => c.isDigit || c == '.')
      let t2 := t1.dropWhile (fun c => c.isDigit || c == '.')
      match (t2.dropWhile isWs) with
      | r :: rest => if r == '\x7d' then some (f, off, rest) else none
      | [] => none
    else none
  | _ => none

/-- `FORMAT_SPEC_PATTERN.search`: leftmost match. -/
def fmtSearch : List Char → Option (Char × List Char)
  | [] => none
  | c :: cs =>
    match fmtSpecHere (c :: cs) with
    | some (f, off, _) => some (f, off)
    | none => fmtSearch cs

/-- A successful `fmtSpecHere` consumes at least the braces and format
letter, so the remainder is strictly shorter. -/
theorem fmtSpecHere_length {cs : List Char} {f : Char} {off rest : List Char}
    (h : fmtSpecHere cs = some (f, off, rest)) : rest.length < cs.length := by
  match cs with
  | [] => simp [fmtSpecHere] at h
  | [c] => simp [fmtSpecHere] at h
  | a :: b :: t =>
    simp only [fmtSpecHere] at h
    split at h
    case isFalse => exact absurd h (by simp)
    case isTrue =>
      set t1 := (match t with
        | c :: u => if c == ':' then u else c :: u
        | [] => ([] : List Char)) with ht1
      have ht1len : t1.length ≤ t.length := by
        rw [ht1]
        match t with
        | [] => exact Nat.le_refl _
        | c :: u =>
          simp only
          split
          · simp
          · exact Nat.le_refl _
      set t2 := t1.dropWhile (fun c => c.isDigit || c == '.') with ht2
      have ht2len : t2.length ≤ t1.length := dropWhile_length_le _ t1
      have ht3len : (t2.dropWhile isWs).length ≤ t2.length := dropWhile_length_le _ t2
      split at h
      next r rs heq =>
        split at h
        · simp only [Option.some.injEq, Prod.mk.injEq] at h
          have hrest : rs = rest := h.2.2
          have hchain : rs.length + 1 ≤ t2.length := by
            have h1 := heq ▸ ht3len
            simpa using h1
          rw [← hrest]
          simp only [List.length_cons]
          omega
        · exact absurd h (by simp)
      next heq => exact absurd h (by simp)

/-- Fuel-driven body of `FORMAT_SPEC_PATTERN.sub`. -/
def fmtSubF : Nat → List Char → List Char
  | 0, _ => []
  | fuel + 1, cs =>
    match cs with
    | [] => []
    | c :: rest =>
      match fmtSpecHere (c :: rest) with
      | some (_, _, after) => fmtSubF fuel after
      | none => c :: fmtSubF fuel rest

/-- `FORMAT_SPEC_PATTERN.sub("", s)`: remove every non-overlapping match,
scanning left to right. -/
def fmtSub (cs : List Char) : List Char := fmtSubF (cs.length + 1) cs

/-- `fmtSubF` is fuel-irrelevant once the fuel exceeds the length. -/
theorem fmtSubF_fuel (fuel fuel' : Nat) (cs : List Char)
    (h : cs.length < fuel) (h' : cs.length < fuel') :
    fmtSubF fuel cs = fmtSubF fuel' cs := by
  induction fuel generalizing fuel' cs with
  | zero => omega
  | succ m ih =>
    match fuel' with
    | 0 => omega
    | k + 1 =>
      simp only [fmtSubF]
      match cs with
      | [] => rfl
      | c :: rest =>
        dsimp only
        match hspec : fmtSpecHere (c :: rest) with
        | some (f, off, after) =>
          have hlt := fmtSpecHere_length hspec
          simp only [List.length_cons] at h h' hlt
          dsimp only
          rw [ih k after (by omega) (by omega)]
        | none =>
          simp only [List.length_cons] at h h'
          dsimp only
          rw [ih k rest (by omega) (by omega)]

/-- Unfolding rule for `fmtSub`. -/
theorem fmtSub_eq (cs : List Char) :
    fmtSub cs =
      match cs with
      | [] => []
      | c :: rest =>
        match fmtSpecHere (c :: rest) with
        | some (_, _, after) => fmtSub after
        | none => c :: fmtSub rest := by
  show fmtSubF (cs.length + 1) cs = _
  simp only [fmtSubF]
  match cs with
  | [] => rfl
  | c :: rest =>
    dsimp only
    match hspec : fmtSpecHere (c :: rest) with
    | some (f, off, after) =>
      have hlt := fmtSpecHere_length hspec
      simp only [List.length_cons] at hlt
      dsimp only
      exact fmtSubF_fuel (rest.length + 1) (after.length + 1) after (by omega) (by omega)
    | none =>
      dsimp only
      rfl

/-- `ARRAY_MNEMONIC_PATTERN = ^(?P<base>[\w\-]+)\[(?P<index>\d+)\]$`,
fully anchored. -/
def arrayMnemMatch (s : String) : Option (String × Nat) :=
  let cs := s.data
  let base := cs.takeWhile isMnemChar
  let rest := cs.dropWhile isMnemChar
  if base.isEmpty then none
  else
    match rest with
    | '[' :: t =>
      let ds := t.takeWhile Char.isDigit
      let t1 := t.dropWhile Char.isDigit
      if ds.isEmpty then none
      else
        match t1 with
        | [']'] => some (String.mk base, digitsVal ds)
        | _ => none
    | _ => none

/-- `ZONE_ASSOC_PATTERN = \|\s*(?P<zone>[\w\-]+)(?:\[(?P<index>\d+)\])?$`
tried at one position; the `$` anchor means the whole remaining suffix
must be consumed. -/
def zoneHere (cs : List Char) : Option (String × Option Nat) :=
  match cs with
  | '|' :: t =>
    let t1 := t.dropWhile isWs
    let z := t1.takeWhile isMnemChar
    let t2 := t1.dropWhile isMnemChar
    if z.isEmpty then none
    else
      match t2 with
      | [] => some (String.mk z, none)
      | '[' :: u =>
        let ds := u.takeWhile Char.isDigit
        let u1 := u.dropWhile Char.isDigit
        if ds.isEmpty then none
        else
          match u1 with
          | [']'] => some (String.mk z, some (digitsVal ds))
          | _ => none
      | _ => none
  | _ => none

/-- `ZONE_ASSOC_PATTERN.search` combined with
`ZONE_ASSOC_PATTERN.sub("", s)`: the leftmost (and, being `$`-anchored,
only) match together with the text before it. -/
def zoneScan : List Char → Option (String × Option Nat × List Char)
  | [] => none
  | c :: cs =>
    match zoneHere (c :: cs) with
    | some (z, idx) => some (z, idx, [])
    | none =>
      match zoneScan cs with
      | some (z, idx, pre) => some (z, idx, c :: pre)
      | none => none

/-! ### Section assembler (`parser.py`, class `LASParser`) -/

/-- Parser state (`LASParser` instance attributes after `_reset`). -/
structure PState where
  file : LASFile := {}
  currentSection : Option String := none
  currentSectionName : String := ""
  wrapMode : Bool := false
  dataLineCount : Nat := 0
  asciiDataLines : List String := []
  dataSectionIdx : Nat := 0
deriving Repr, DecidableEq

/-- `LASParser._pre_scan` loop. -/
def preScanLoop : List String → Bool → Nat → Nat
  | [], _, n => n
  | line :: rest, inAscii, n =>
    match sectionMatch line with
    | some (c, _) => preScanLoop rest (c.toUpper == 'A') n
    | none =>
      if inAscii && !isCommentLine line && !isEmptyLine line then
        preScanLoop rest inAscii (n + 1)
      else preScanLoop rest inAscii n

/-- `LASParser._pre_scan`: count of data lines following `~A` markers. -/
def preScan (lines : List String) : Nat := preScanLoop lines false 0

/-- `LASParser._parse_version`. -/
def parseVersionLine (f : LASFile) (wrapMode : Bool) (line : String) : LASFile × Bool :=
  match matchDataLine line with
  | none => (f, wrapMode)
  | some m =>
    let mnem := pyStrip (pyUpper m.mnemonic)
    let value := pyStrip m.value
    if mnem = "VERS" then ({ f with version := { f.version with vers := value } }, wrapMode)
    else if mnem = "WRAP" then
      ({ f with version := { f.version with wrap := pyUpper value } }, pyUpper value = "YES")
    else if mnem = "DLM" then ({ f with version := { f.version with dlm := value } }, wrapMode)
    else (f, wrapMode)

/-- `LASParser._parse_well`. -/
def parseWellLine (f : LASFile) (line : String) : LASFile :=
  match matchDataLine line with
  | none => f
  | some m =>
    { f with well := dinsert f.well (pyStrip (pyUpper m.mnemonic)) (pyStrip m.value) }

/-- `LASParser._parse_curve`; `none` models the uncaught `ValueError`
from `float(offset)` on a malformed `{A:...}` offset. -/
def parseCurveLine (mb : Dict String) (f : LASFile) (line : String) : Option LASFile :=
  match matchDataLine line with
  | none => some f
  | some m =>
    let rawMnem := pyStrip (pyUpper m.mnemonic)
    let unit := m.unit
    let apiCode := pyStrip m.value
    let description := (m.desc).getD ""
    let fmtRes : Option (String × Option String × String) :=
      match fmtSearch description.data with
      | some (fch, offDs) =>
        if fch == 'A' && !offDs.isEmpty then
          match parseFloat (String.mk offDs) with
          | some _ => some (String.mk [fch], some (String.mk offDs),
              String.mk (stripB (fmtSub description.data)))
          | none => none
        else
          some (String.mk [fch], none, String.mk (stripB (fmtSub description.data)))
      | none => some ("", none, description)
    match fmtRes with
    | none => none
    | some (dataFormat, offStr, description) =>
      let offVal : Option ℚ := offStr.bind (fun s => parseFloat s)
      let arrayInfo : Option ArrayElementInfo :=
        match arrayMnemMatch rawMnem with
        | some (base, idx) => some ⟨pyUpper base, idx, offVal⟩
        | none => none
      let normalized := dgetD mb rawMnem rawMnem
      let curve : CurveDefinition :=
        ⟨normalized, unit, apiCode, description,
          if rawMnem ≠ normalized then rawMnem else "", dataFormat, arrayInfo⟩
      some { f with
        curves := f.curves ++ [curve],
        curvesOrder := f.curvesOrder ++ [normalized] }

/-- `LASParser._parse_parameter`. -/
def parseParamLine (f : LASFile) (line : String) : LASFile :=
  match matchDataLine line with
  | none => f
  | some m =>
    let rawMnem := pyStrip (pyUpper m.mnemonic)
    let unit := m.unit
    let value := pyStrip m.value
    let description := (m.desc).getD ""
    let (zone, description) :=
      match zoneScan description.data with
      | some (z, idx, pre) =>
        (some (ParameterZone.mk (pyUpper z) idx), String.mk (stripB pre))
      | none => (none, description)
    let arrayIndex : Option Nat :=
      match arrayMnemMatch rawMnem with
      | some (_, idx) => some idx
      | none => none
    { f with parameters := f.parameters ++
        [⟨rawMnem, unit, value, description, arrayIndex, zone⟩] }

/-- Split at every occurrence of a separator character, keeping empty
pieces: Python `str.split(sep)` for a one-character separator. -/
def splitOnChar (sep : Char) : List Char → List (List Char)
  | [] => [[]]
  | c :: cs =>
    if c == sep then [] :: splitOnChar sep cs
    else
      match splitOnChar sep cs with
      | [] => [[c]]
      | h :: t => (c :: h) :: t

/-- Python `str(float)` for the finite-decimal values this code feeds it
(the parsed `NULL` sentinel): sign, integer part, fractional part with
trailing zeros removed, `.0` for integers.  Values without a finite
decimal expansion (which cannot arise from `parseFloat`) fall back to
four-decimal formatting. -/
def pyStrFloat (q : ℚ) : String :=
  let sign := if q < 0 then "-" else ""
  let a := |q|
  match (List.range 18).find? (fun k => (a * 10 ^ k).den = 1) with
  | some k =>
    let n := (a * 10 ^ k).num.toNat
    if k = 0 then sign ++ String.mk (natDigits n) ++ ".0"
    else
      let ip := n / 10 ^ k
      let fp := n % 10 ^ k
      let stripped := ((padZeros k (natDigits fp)).reverse.dropWhile (fun c => c == '0')).reverse
      let frac := if stripped.isEmpty then ['0'] else stripped
      sign ++ String.mk (natDigits ip) ++ "." ++ String.mk frac
  | none => fmt4 q

/-- `LASParser._process_ascii_data`: turn the collected `~A` lines into a
`DataSection` (and `logs` / `string_data` entries); `none` models the
uncaught `ValueError` from an unparseable `NULL` entry. -/
def processAsciiData (st : PState) : Option PState :=
  if st.asciiDataLines.isEmpty then some st
  else
    let delim := st.file.version.delimiterChar
    let curves := st.file.curves
    if curves.isEmpty then some st
    else
      match parseFloat (dgetD st.file.well "NULL" "-999.25") with
      | none => none
      | some nullV =>
        let numCurves := curves.length
        let stringCurve : Nat → Bool :=
          fun i => ((curves.get? i).map (fun c => c.dataFormat == "S")).getD false
        let rows := (st.asciiDataLines.filter (fun l => !isCommentLine l)).map
          (fun line =>
            let values := if delim = " " then pySplit line
              else (splitOnChar (delim.data.headD ' ') line.data).map String.mk
            values ++ List.replicate (numCurves - values.length) (pyStrFloat nullV))
        let step := fun (acc : Dict (List ℚ) × Dict (List String) × Dict (List ℚ)) (i : Nat) =>
          let (logs, sdata, secdata) := acc
          let mnem := ((curves.get? i).map (fun c => c.mnemonic)).getD ""
          let col := rows.map (fun vs => pyStrip (vs.getD i ""))
          if stringCurve i then
            (logs, dinsert sdata mnem col,
              dinsert secdata mnem (List.replicate col.length (0 : ℚ)))
          else
            let nums := col.map (fun s => if s = "" then nullV else (parseFloat s).getD nullV)
            (dinsert logs mnem nums, sdata, dinsert secdata mnem nums)
        let res := (List.range numCurves).foldl step (st.file.logs, st.file.stringData, [])
        let sec : DataSection :=
          { name := if st.currentSectionName ≠ "" then st.currentSectionName
              else "Section_" ++ toString st.dataSectionIdx,
            curvesOrder := curves.map (fun c => c.mnemonic),
            data := res.2.2 }
        some { st with file := { st.file with
          logs := res.1,
          stringData := res.2.1,
          dataSections := st.file.dataSections ++ [sec] } }

/-- `LASParser._parse_line`: route one line.  A `~A` section start while
already inside `~A` first flushes the collected data
(`_process_ascii_data`). -/
def parseLine (mb : Dict String) (st : PState) (line : String) : Option PState :=
  match sectionMatch line with
  | some (letter, rest) =>
    let newSection := String.mk [letter.toUpper]
    let flushed : Option PState :=
      if newSection = "A" ∧ st.currentSection = some "A" then
        (processAsciiData st).map
          (fun st' => { st' with
            asciiDataLines := [],
            dataSectionIdx := st'.dataSectionIdx + 1 })
      else some st
    flushed.map (fun st' => { st' with
      currentSection := some newSection,
      currentSectionName := pyStrip rest })
  | none =>
    if isCommentLine line ∨ isEmptyLine line then some st
    else
      match st.currentSection with
      | none => some st
      | some sec =>
        if sec = "V" then
          let r := parseVersionLine st.file st.wrapMode line
          some { st with file := r.1, wrapMode := r.2 }
        else if sec = "W" then some { st with file := parseWellLine st.file line }
        else if sec = "C" then
          (parseCurveLine mb st.file line).map (fun f => { st with file := f })
        else if sec = "P" then some { st with file := parseParamLine st.file line }
        else if sec = "O" then
          some { st with file := { st.file with other := st.file.other ++ line ++ "\n" } }
        else if sec = "A" then
          some { st with asciiDataLines := st.asciiDataLines ++ [line] }
        else some st

/-- `LASParser.parse`: reset, pre-scan, line loop, and the LAS 3.0 final
data processing. -/
def parse (mb : Dict String) (content : String) : Option PState :=
  let lines := pySplitlines content
  let st0 : PState := { dataLineCount := preScan lines }
  match lines.foldlM (fun st line => parseLine mb st line) st0 with
  | none => none
  | some st => if st.file.isLas30 then processAsciiData st else some st

/-- The content-processing pipeline of `reader.read_las_file` (after file
access and encoding detection): parse the header sections, then run the
1.2/2.0 ASCII data reader unless the document is LAS 3.0. -/
def readContent (content : String) : Option (LASFile × List Warning) :=
  match parse [] content with
  | none => none
  | some st =>
    if st.file.isLas30 then some (st.file, [])
    else readAsciiData content st.file st.dataLineCount

/-! ### Writer (`writer.py`, `_generate_las_content`) -/

/-- One value of a legacy (non-3.0) data row (`writer.py` lines
156–162): string data first, then the formatted log value, then the
formatted null value. -/
def legacyCell (las : LASFile) (nullV : ℚ) (i : Nat) (name : String) : String :=
  if (match dget? las.stringData name with
      | some a => decide (i < a.length)
      | none => false) then
    ((dget? las.stringData name).getD []).getD i ""
  else if (match dget? las.logs name with
      | some a => decide (i < a.length)
      | none => false) then
    fmt4 (((dget? las.logs name).getD []).getD i 0)
  else fmt4 nullV

/-- One value of a LAS 3.0 data-section row (`writer.py` lines 137–143),
reading numeric values from the section's own mapping. -/
def sectionCell (las : LASFile) (sec : DataSection) (nullV : ℚ) (i : Nat)
    (name : String) : String :=
  if (match dget? las.stringData name with
      | some a => decide (i < a.length)
      | none => false) then
    ((dget? las.stringData name).getD []).getD i ""
  else if (match dget? sec.data name with
      | some a => decide (i < a.length)
      | none => false) then
    fmt4 (((dget? sec.data name).getD []).getD i 0)
  else fmt4 nullV

/-- Lines of one LAS 3.0 `~A` block (`writer.py` lines 125–144). -/
def writeDataSection3 (las : LASFile) (sec : DataSection) : Option (List String) :=
  let header := "~A" ++ (if sec.name ≠ "" then " " ++ sec.name else "")
  match sec.curvesOrder with
  | [] => some [header]
  | n0 :: _ =>
    match dget? sec.data n0 with
    | none => some [header]
    | some arr0 =>
      match parseFloat (dgetD las.well "NULL" "-999.25") with
      | none => none
      | some nullV =>
        let delim := las.version.delimiterChar
        some (header :: (List.range arr0.length).map (fun i =>
          joinSep delim (sec.curvesOrder.map (sectionCell las sec nullV i))))

/-- Lines of the legacy single data section (`writer.py` lines
146–163). -/
def writeDataLegacy (las : LASFile) : Option (List String) :=
  match las.curvesOrder with
  | [] => some []
  | n0 :: _ =>
    if dmem las.logs n0 then
      match parseFloat (dgetD las.well "NULL" "-999.25") with
      | none => none
      | some nullV =>
        let numRows := ((dget? las.logs n0).getD []).length
        let delim := las.version.delimiterChar
        some (("~A  " ++ joinSep "  " las.curvesOrder) ::
          (List.range numRows).map (fun i =>
            joinSep delim (las.curvesOrder.map (legacyCell las nullV i))))
    else some []

/-- The line list built by `_generate_las_content`; `none` models the
uncaught `ValueError` from `float(well.get("NULL", "-999.25"))` on a
non-numeric `NULL` entry. -/
def generateLines (las : LASFile) : Option (List String) :=
  let isLas30 := las.isLas30
  let versDesc := if isLas30 then "CWLS LOG ASCII STANDARD -VERSION 3.0"
    else "CWLS LOG ASCII STANDARD"
  let vLines := ["~VERSION INFORMATION",
    " VERS.   " ++ las.version.vers ++ "  : " ++ versDesc,
    " WRAP.   NO  : ONE LINE PER DEPTH STEP"] ++
    (if isLas30 then
      [" DLM .                        " ++ las.version.dlm ++
        " : DELIMITING CHARACTER BETWEEN DATA COLUMNS"]
    else []) ++ [""]
  let wLines := "~WELL INFORMATION" ::
    las.well.map (fun p => " " ++ p.1 ++ ".   " ++ p.2 ++ "  :") ++ [""]
  let cLines := "~CURVE INFORMATION" ::
    las.curves.map (fun c =>
      let desc :=
        if isLas30 ∧ c.dataFormat ≠ "" then
          c.description ++ "  " ++ ("\x7b" ++ c.dataFormat ++
            (match c.arrayInfo with
             | some ai =>
               (match ai.timeOffset with
                | some off => ":" ++ pyStrFloat off
                | none => "")
             | none => "") ++ "\x7d")
        else c.description
      let api := if c.apiCode ≠ "" then "  " ++ c.apiCode else ""
      " " ++ c.mnemonic ++ "." ++ c.unit ++ api ++ "  : " ++ desc) ++ [""]
  let pLines := if las.parameters.isEmpty then [] else
    "~PARAMETER INFORMATION" ::
      las.parameters.map (fun p =>
        let desc :=
          if isLas30 ∧ p.zone.isSome then
            match p.zone with
            | some z => p.description ++ " | " ++ z.zoneName ++
                (match z.zoneIndex with
                 | some i => "[" ++ toString i ++ "]"
                 | none => "")
            | none => p.description
          else p.description
        " " ++ p.mnemonic ++ "." ++ p.unit ++ "  " ++ p.value ++ "  : " ++ desc) ++ [""]
  let oLines := if las.other ≠ "" ∧ pyStrip las.other ≠ "" then
    ["~OTHER", pyRstrip las.other, ""] else []
  let dataBlock : Option (List String) :=
    if las.dataSections.isEmpty then writeDataLegacy las
    else las.dataSections.foldlM
      (fun acc sec => (writeDataSection3 las sec).map (fun ls => acc ++ ls)) []
  match dataBlock with
  | none => none
  | some dLines => some (vLines ++ wLines ++ cLines ++ pLines ++ oLines ++ dLines)

/-- `_generate_las_content` of `writer.py`. -/
def generateLasContent (las : LASFile) : Option String :=
  (generateLines las).map (fun ls => joinSep "\n" ls ++ "\n")

/-! ### Specification-side helpers

These definitions restate parts of the spec's vocabulary ("data row",
"first inspected line", "rename per distinct original name") so the
claims can be stated; they are related to the source embeddings by
proved lemmas, not used inside them. -/

/-- The data rows of a document, as selected by the reading loops of
`data_reader.py`: stripped lines after a `~A` marker that are not blank,
not comments and not section lines, stopping at the first non-`~A`
section line inside the data section. -/
def dataRowsFrom : List String → Bool → List String
  | [], _ => []
  | line :: rest, inAscii =>
    let s := pyStrip line
    if pyStarts s "~" then
      if pyStarts s "~A" then dataRowsFrom rest true
      else if inAscii then []
      else dataRowsFrom rest inAscii
    else if !inAscii || s = "" || pyStarts s "#" then dataRowsFrom rest inAscii
    else s :: dataRowsFrom rest inAscii

/-- The line `_detect_actual_wrap` actually inspects (stripped): the
first line after a `~A` marker that is not blank, not a comment and not
itself a `~A` line — which, unlike `dataRowsFrom`, can be a later
section-header line, because the detection loop never breaks on one. -/
def detectScan : List String → Bool → Option String
  | [], _ => none
  | line :: rest, inAscii =>
    let s := pyStrip line
    if pyStarts s "~A" then detectScan rest true
    else if !inAscii || s = "" || pyStarts s "#" then detectScan rest inAscii
    else some s

/-- `_detect_actual_wrap` in terms of the inspected line. -/
theorem detectLoop_eq_scan (lines : List String) (inAscii : Bool) (cc : Nat) :
    detectLoop lines inAscii cc =
      match detectScan lines inAscii with
      | none => true
      | some s => decide ((pySplit s).length < cc) := by
  induction lines generalizing inAscii with
  | nil => rfl
  | cons line rest ih =>
    simp only [detectLoop, detectScan]
    by_cases h1 : pyStarts (pyStrip line) "~A"
    · simp only [h1, if_true]; exact ih true
    · simp only [h1, if_false]
      by_cases h2 : (!inAscii || pyStrip line = "" || pyStarts (pyStrip line) "#") = true
      · simp only [h2, if_true]; exact ih inAscii
      · simp only [Bool.not_eq_true] at h2
        simp [h2]

/-- The renaming rule as the spec words it: the `k`-th repeat of a name
(counted per distinct original name, over the prefix already processed)
becomes `name_(k+1)`. -/
def dedupSpecGo (seenPre : List String) : List String → List String
  | [] => []
  | name :: rest =>
    let c := seenPre.count name
    (if c = 0 then name else name ++ "_" ++ toString (c + 1)) ::
      dedupSpecGo (seenPre ++ [name]) rest

/-- Spec-side statement of the duplicate-mnemonic renaming. -/
def dedupSpec (order : List String) : List String := dedupSpecGo [] order

/-! ### Claim theorems: the simple ones -/

/-- Claim C10: a document with an empty declared curve ordering is left
entirely unchanged by `read_ascii_data` (no error, no log entries). -/
theorem readAsciiData_empty_curves (content : String) (las : LASFile) (n : Nat)
    (h : las.curvesOrder = []) : readAsciiData content las n = some (las, []) := by
  simp [readAsciiData, h]

/-- Witness for C10 at a concrete document and content. -/
theorem readAsciiData_empty_curves_witness :
    readAsciiData "~A\n100.0 10.0\n" { well := [("NULL", "-999.25")] } 1 =
      some ({ well := [("NULL", "-999.25")] }, []) :=
  readAsciiData_empty_curves "~A\n100.0 10.0\n" { well := [("NULL", "-999.25")] } 1 rfl

/-- Claim C9: LAS 3.0 array curves `NMR[1]` with `{A:0}` and `NMR[2]`
with `{A:5}` parse to array metadata with base name `NMR`, indices 1 and
2, and time offsets 0 and 5, with the format tag stripped from the
stored description. -/
theorem parseCurve_array_format :
    ((parseCurveLine [] {} " NMR[1].ms   : NMR echo train \x7bA:0\x7d").bind
        (fun f => parseCurveLine [] f " NMR[2].ms   : NMR echo train \x7bA:5\x7d")).map
      (fun f => f.curves.map (fun c => (c.arrayInfo, c.description, c.dataFormat))) =
    some [(some ⟨"NMR", 1, some 0⟩, "NMR echo train", "A"),
          (some ⟨"NMR", 2, some 5⟩, "NMR echo train", "A")] := by
  decide

/-- Claim C8: the header field parser tries the with-description pattern
first and the value-only pattern second, keeping the first success, and
a line matching neither is skipped by the well-section handler, which is
total (never raises). -/
theorem matchDataLine_order :
    (∀ line m, dataLineMatch line = some m → matchDataLine line = some m) ∧
    (∀ line, dataLineMatch line = none → matchDataLine line = valueOnlyMatch line) ∧
    (∀ f line, matchDataLine line = none → parseWellLine f line = f) := by
  refine ⟨?_, ?_, ?_⟩
  · intro line m h; simp [matchDataLine, h]
  · intro line h; simp [matchDataLine, h]
  · intro f line h; simp [parseWellLine, h]

/-- Witness for C8: a malformed header line is skipped without error. -/
theorem matchDataLine_order_witness :
    parseWellLine { well := [("X", "1")] } "this is not a header line" =
      { well := [("X", "1")] } :=
  matchDataLine_order.2.2 { well := [("X", "1")] } "this is not a header line" (by decide)

/-- The document of the repository's own test
`test_write_non_numeric_null`: `NULL` declared as the non-numeric string
`NONE`. -/
def nonNumericNullDoc : LASFile :=
  { version := { vers := "2.0" },
    well := [("NULL", "NONE")],
    curves := [{ mnemonic := "DEPT", unit := "M" }],
    curvesOrder := ["DEPT"],
    logs := [("DEPT", [100])] }

/-- Claim C6 (code bug): with a `NULL` entry present but not parseable
as a number, both the writer and the ASCII data reader evaluate
`float(well.get("NULL", "-999.25"))` with no fallback and raise
`ValueError` (modelled as `none`) instead of falling back to `-999.25`;
the repository's own test `test_write_non_numeric_null` expects the
write to succeed.  With `NULL` absent or numeric the sentinel behaves as
claimed. -/
theorem nullSentinel_crash :
    generateLasContent nonNumericNullDoc = none ∧
    readAsciiData "~A\n100.0\n" nonNumericNullDoc 1 = none ∧
    parseFloat "NONE" = none ∧
    parseFloat (dgetD ([] : Dict String) "NULL" "-999.25") = some (-(99925 : ℚ) / 100) ∧
    parseFloat (dgetD [("NULL", "-800.5")] "NULL" "-999.25") = some (-(8005 : ℚ) / 10) := by
  refine ⟨by decide, by decide, by decide, by decide, by decide⟩

/-- Claim C7 counterexample: the line `" ~A"`, whose first non-space
character is `~`, is not treated as a section start — `SECTION_PATTERN`
is anchored at the first character — and routing it through
`_parse_line` selects no section. -/
theorem sectionStart_leading_space_counterexample :
    sectionMatch " ~A" = none ∧
    parseLine [] {} " ~A" = some {} ∧
    sectionMatch "~A" = some ('A', "") := by
  refine ⟨by decide, by decide, by decide⟩

/-- Claim C7 as amended: a section start is a line whose very first
character is `~` followed by an ASCII letter; the letter selects the
section case-insensitively (outside the flush case of a repeated `~A`),
and a content line inside a section whose letter is not one of
V, W, C, P, O, A leaves the parser state untouched. -/
theorem sectionStart_amended :
    (∀ (line : String) (c : Char) (rest : String),
      sectionMatch line = some (c, rest) ↔
        ∃ cs, line.data = '~' :: c :: cs ∧ c.isAlpha = true ∧ rest = String.mk cs) ∧
    (∀ (mb : Dict String) (st : PState) (line : String) (c : Char) (rest : String),
      sectionMatch line = some (c, rest) →
      ¬(String.mk [c.toUpper] = "A" ∧ st.currentSection = some "A") →
      parseLine mb st line = some { st with
        currentSection := some (String.mk [c.toUpper]),
        currentSectionName := pyStrip rest }) ∧
    (∀ (mb : Dict String) (st : PState) (line : String) (sec : String),
      st.currentSection = some sec →
      sec ∉ (["V", "W", "C", "P", "O", "A"] : List String) →
      sectionMatch line = none →
      parseLine mb st line = some st) := by
  refine ⟨?_, ?_, ?_⟩
  · intro line c rest
    constructor
    · intro h
      match hd : line.data with
      | [] => simp [sectionMatch, hd] at h
      | [t] => simp [sectionMatch, hd] at h
      | t :: c' :: cs =>
        simp only [sectionMatch, hd] at h
        by_cases ht : (t == '~' && c'.isAlpha) = true
        · rw [if_pos ht] at h
          simp only [Option.some.injEq, Prod.mk.injEq] at h
          obtain ⟨hc, hrest⟩ := h
          simp only [Bool.and_eq_true, beq_iff_eq] at ht
          exact ⟨cs, by rw [ht.1, hc], by rw [← hc]; exact ht.2, hrest.symm⟩
        · rw [if_neg ht] at h; exact absurd h (by simp)
    · intro ⟨cs, hdata, halpha, hrest⟩
      simp [sectionMatch, hdata, halpha, hrest]
  · intro mb st line c rest h hne
    simp only [parseLine, h]
    rw [if_neg hne]
    rfl
  · intro mb st line sec hsec hnotin h
    simp only [parseLine, h]
    by_cases hce : (isCommentLine line ∨ isEmptyLine line)
    · rw [if_pos hce]
    · rw [if_neg hce, hsec]
      simp only [List.mem_cons, List.mem_singleton, not_or] at hnotin
      obtain ⟨h1, h2, h3, h4, h5, h6, -⟩ := hnotin
      simp [h1, h2, h3, h4, h5, h6]

/-- Witness for the amended C7: `~q` (unknown letter) selects section
`Q`, and a subsequent content line in that section changes nothing. -/
theorem sectionStart_amended_witness :
    parseLine [] {} "~q vendor" =
      some { currentSection := some "Q", currentSectionName := "vendor" } ∧
    parseLine [] { currentSection := some "Q" } " FOO.  1  : bar" =
      some { currentSection := some "Q" } := by
  constructor
  · have := sectionStart_amended.2.1 [] {} "~q vendor" 'q' " vendor" (by decide) (by decide)
    simpa using this
  · exact sectionStart_amended.2.2 [] { currentSection := some "Q" }
      " FOO.  1  : bar" "Q" rfl (by decide) (by decide)

/-! ### Claim C3: duplicate-mnemonic repair -/

/-- The `seen` dictionary of `_deduplicate_curves` holds exactly the
occurrence counts of the processed prefix. -/
theorem dedupGo_spec (order : List String) :
    ∀ (idx : Nat) (seen : Dict Nat) (cs : List CurveDefinition) (acc : List String),
    (∀ name, dget? seen name =
      if acc.count name = 0 then none else some (acc.count name)) →
    (dedupGo order idx seen cs).1 = dedupSpecGo acc order := by
  induction order with
  | nil => intro idx seen cs acc _; rfl
  | cons name rest ih =>
    intro idx seen cs acc hinv
    have hseen := hinv name
    simp only [dedupGo, dedupSpecGo]
    by_cases hc : acc.count name = 0
    · rw [if_pos hc] at hseen
      rw [hseen]
      rcases hgo : dedupGo rest (idx + 1) (dinsert seen name 1) cs with ⟨ord, cs2, ws⟩
      simp only [hgo, if_pos hc]
      have hinv' : ∀ n, dget? (dinsert seen name 1) n =
          if (acc ++ [name]).count n = 0 then none else some ((acc ++ [name]).count n) := by
        intro n
        by_cases hn : name = n
        · subst hn
          rw [dget?_dinsert_self]
          simp [List.count_append, hc]
        · rw [dget?_dinsert_ne seen name n 1 hn, hinv n]
          have : (acc ++ [name]).count n = acc.count n := by
            simp [List.count_append, List.count_singleton]
            intro h; exact absurd h hn
          rw [this]
      have := ih (idx + 1) (dinsert seen name 1) cs (acc ++ [name]) hinv'
      rw [hgo] at this
      simpa using this
    · rw [if_neg hc] at hseen
      rw [hseen]
      rcases hgo : dedupGo rest (idx + 1) (dinsert seen name (acc.count name + 1))
        (updCurve cs idx name (name ++ "_" ++ toString (acc.count name + 1))) with ⟨ord, cs2, ws⟩
      simp only [hgo, if_neg hc]
      have hinv' : ∀ n, dget? (dinsert seen name (acc.count name + 1)) n =
          if (acc ++ [name]).count n = 0 then none else some ((acc ++ [name]).count n) := by
        intro n
        by_cases hn : name = n
        · subst hn
          rw [dget?_dinsert_self]
          simp [List.count_append]
        · rw [dget?_dinsert_ne seen name n _ hn, hinv n]
          have : (acc ++ [name]).count n = acc.count n := by
            simp [List.count_append, List.count_singleton]
            intro h; exact absurd h hn
          rw [this]
      have := ih (idx + 1) (dinsert seen name (acc.count name + 1))
        (updCurve cs idx name (name ++ "_" ++ toString (acc.count name + 1)))
        (acc ++ [name]) hinv'
      rw [hgo] at this
      simpa using this

/-- Without repeats, `_deduplicate_curves` changes nothing and warns
nothing. -/
theorem dedupGo_nodup (order : List String) :
    ∀ (idx : Nat) (seen : Dict Nat) (cs : List CurveDefinition),
    order.Nodup → (∀ n ∈ order, dget? seen n = none) →
    dedupGo order idx seen cs = (order, cs, []) := by
  induction order with
  | nil => intro idx seen cs _ _; rfl
  | cons name rest ih =>
    intro idx seen cs hnd hnone
    have h0 : dget? seen name = none := hnone name (List.mem_cons_self _ _)
    simp only [dedupGo, h0]
    have hnd' := (List.nodup_cons.mp hnd)
    have hrest : ∀ n ∈ rest, dget? (dinsert seen name 1) n = none := by
      intro n hn
      have hne : name ≠ n := fun h => hnd'.1 (h ▸ hn)
      rw [dget?_dinsert_ne seen name n 1 hne]
      exact hnone n (List.mem_cons_of_mem _ hn)
    rw [ih (idx + 1) (dinsert seen name 1) cs hnd'.2 hrest]

/-- Identity form of `dedupGo_nodup` at the entry point. -/
theorem dedupCurves_nodup (order : List String) (cs : List CurveDefinition)
    (h : order.Nodup) : dedupCurves order cs = (order, cs, []) :=
  dedupGo_nodup order 0 [] cs h (fun _ _ => rfl)

/-- The repeated-curve document of the claim's concrete example. -/
def dupDoc : LASFile :=
  { version := { vers := "2.0", wrap := "NO" },
    well := [("NULL", "-999.25")],
    curves := [{ mnemonic := "DEPT" }, { mnemonic := "GR" }, { mnemonic := "GR" }],
    curvesOrder := ["DEPT", "GR", "GR"] }

/-- Claim C3: repeats beyond the first occurrence of a mnemonic are
renamed `_2`, `_3`, … counted per distinct original name (stated as
equivalence with the spec-side renaming rule `dedupSpec`), a diagnostic
is raised, and the curve record is renamed with the original kept in
`original_mnemonic`; in particular curves `[DEPT, GR, GR]` with rows
`100.0 10.0 20.0` and `101.0 11.0 21.0` give logs keys
`DEPT, GR, GR_2` with `GR = [10, 11]` and `GR_2 = [20, 21]`. -/
theorem dedup_rename :
    (∀ (order : List String) (cs : List CurveDefinition),
      (dedupCurves order cs).1 = dedupSpec order) ∧
    ((readAsciiData "~A\n100.0 10.0 20.0\n101.0 11.0 21.0\n" dupDoc 2).map
        (fun p => p.1.curvesOrder) = some ["DEPT", "GR", "GR_2"]) ∧
    ((readAsciiData "~A\n100.0 10.0 20.0\n101.0 11.0 21.0\n" dupDoc 2).bind
        (fun p => dget? p.1.logs "DEPT") = some [(100 : ℚ), 101]) ∧
    ((readAsciiData "~A\n100.0 10.0 20.0\n101.0 11.0 21.0\n" dupDoc 2).bind
        (fun p => dget? p.1.logs "GR") = some [(10 : ℚ), 11]) ∧
    ((readAsciiData "~A\n100.0 10.0 20.0\n101.0 11.0 21.0\n" dupDoc 2).bind
        (fun p => dget? p.1.logs "GR_2") = some [(20 : ℚ), 21]) ∧
    ((readAsciiData "~A\n100.0 10.0 20.0\n101.0 11.0 21.0\n" dupDoc 2).map
        (fun p => p.1.curves.map (fun c => (c.mnemonic, c.originalMnemonic))) =
      some [("DEPT", ""), ("GR", ""), ("GR_2", "GR")]) ∧
    ((readAsciiData "~A\n100.0 10.0 20.0\n101.0 11.0 21.0\n" dupDoc 2).map
        (fun p => p.2) = some [Warning.duplicateCurve "GR" "GR_2"]) := by
  refine ⟨?_, by decide, by decide, by decide, by decide, by decide, by decide⟩
  intro order cs
  exact dedupGo_spec order 0 [] cs [] (fun _ => rfl)

/-! ### Claim C2: uniform array lengths -/

/-- All arrays of a logs dictionary have length `n`. -/
def AllLen (lg : Dict (List ℚ)) (n : Nat) : Prop := ∀ p ∈ lg, p.2.length = n

/-- A successful lookup comes from a member pair. -/
theorem dget?_mem {α : Type} (d : Dict α) (k : String) (v : α)
    (h : dget? d k = some v) : ∃ k', (k', v) ∈ d := by
  induction d with
  | nil => simp [dget?] at h
  | cons p t ih =>
    obtain ⟨k₀, v₀⟩ := p
    by_cases hk : k₀ = k
    · simp only [dget?, hk, if_true, Option.some.injEq] at h
      exact ⟨k, by simp [← h, hk]⟩
    · simp only [dget?, hk, if_false] at h
      obtain ⟨k', hk'⟩ := ih h
      exact ⟨k', List.mem_cons_of_mem _ hk'⟩

theorem AllLen_dinsert {lg : Dict (List ℚ)} {n : Nat} {k : String} {arr : List ℚ}
    (h : AllLen lg n) (ha : arr.length = n) : AllLen (dinsert lg k arr) n := by
  intro p hp
  rcases dinsert_mem lg k arr p hp with h1 | h1
  · rw [h1]; exact ha
  · exact h p h1

theorem storeCell_allLen {lg lg' : Dict (List ℚ)} {name : String} {i : Nat} {q : ℚ}
    {n : Nat} (h : storeCell lg name i q = some lg') (hl : AllLen lg n) :
    AllLen lg' n := by
  unfold storeCell at h
  match hg : dget? lg name with
  | none => rw [hg] at h; exact absurd h (by simp)
  | some arr =>
    rw [hg] at h
    have h' : (if i < arr.length then some (dinsert lg name (arr.set i q)) else none) =
        some lg' := h
    by_cases hi : i < arr.length
    · rw [if_pos hi] at h'
      obtain ⟨k', hk'⟩ := dget?_mem lg name arr hg
      have harr : arr.length = n := hl (k', arr) hk'
      have heq : lg' = dinsert lg name (arr.set i q) := by
        simpa using h'.symm
      rw [heq]
      exact AllLen_dinsert hl (by simpa using harr)
    · rw [if_neg hi] at h'; exact absurd h' (by simp)

theorem storeTok_allLen {lg lg' : Dict (List ℚ)} {name : String} {cl : Nat}
    {tok : String} {nullV : ℚ} {n : Nat}
    (h : storeTok lg name cl tok nullV = some lg') (hl : AllLen lg n) : AllLen lg' n := by
  unfold storeTok at h
  match hp : parseFloat tok with
  | some v =>
    rw [hp] at h
    exact storeCell_allLen h hl
  | none =>
    rw [hp] at h
    exact storeCell_allLen h hl

theorem storeParsedIdx_allLen (is : List Nat) :
    ∀ {lg lg' : Dict (List ℚ)} {order : List String} {cl : Nat} {vals : List String}
    {nullV : ℚ} {n : Nat},
    storeParsedIdx order cl vals nullV lg is = some lg' → AllLen lg n → AllLen lg' n := by
  induction is with
  | nil => intro lg lg' _ _ _ _ _ h hl; simp only [storeParsedIdx] at h; injection h with h; rw [← h]; exact hl
  | cons i rest ih =>
    intro lg lg' order cl vals nullV n h hl
    simp only [storeParsedIdx] at h
    match hs : storeTok lg (order.getD i "") cl (vals.getD i "") nullV with
    | none => rw [hs] at h; exact absurd h (by simp)
    | some lg₁ =>
      rw [hs] at h
      exact ih h (storeTok_allLen hs hl)

theorem storeNullIdx_allLen (is : List Nat) :
    ∀ {lg lg' : Dict (List ℚ)} {order : List String} {cl : Nat} {nullV : ℚ} {n : Nat},
    storeNullIdx order cl nullV lg is = some lg' → AllLen lg n → AllLen lg' n := by
  induction is with
  | nil => intro lg lg' _ _ _ _ h hl; simp only [storeNullIdx] at h; injection h with h; rw [← h]; exact hl
  | cons i rest ih =>
    intro lg lg' order cl nullV n h hl
    simp only [storeNullIdx] at h
    match hs : storeCell lg (order.getD i "") cl nullV with
    | none => rw [hs] at h; exact absurd h (by simp)
    | some lg₁ =>
      rw [hs] at h
      exact ih h (storeCell_allLen hs hl)

theorem storeRow_allLen {lg lg' : Dict (List ℚ)} {order : List String} {cc cl : Nat}
    {vals : List String} {nullV : ℚ} {n : Nat}
    (h : storeRow lg order cc cl vals nullV = some lg') (hl : AllLen lg n) :
    AllLen lg' n := by
  unfold storeRow at h
  match hs : storeParsedIdx order cl vals nullV lg (List.range (min vals.length cc)) with
  | none => rw [hs] at h; exact absurd h (by simp)
  | some lg₁ =>
    rw [hs] at h
    exact storeNullIdx_allLen _ h (storeParsedIdx_allLen _ hs hl)

theorem normalLoop_allLen (lines : List String) :
    ∀ {inAscii : Bool} {cl : Nat} {lg lg' : Dict (List ℚ)} {order : List String}
    {cc : Nat} {nullV : ℚ} {n : Nat},
    normalLoop lines inAscii cl lg order cc nullV = some lg' → AllLen lg n → AllLen lg' n := by
  induction lines with
  | nil => intro _ _ lg lg' _ _ _ _ h hl; simp only [normalLoop] at h; injection h with h; rw [← h]; exact hl
  | cons line rest ih =>
    intro inAscii cl lg lg' order cc nullV n h hl
    simp only [normalLoop] at h
    by_cases h1 : pyStarts (pyStrip line) "~"
    · rw [if_pos h1] at h
      by_cases h2 : pyStarts (pyStrip line) "~A"
      · rw [if_pos h2] at h; exact ih h hl
      · rw [if_neg h2] at h
        by_cases h3 : inAscii
        · simp only [h3, if_true] at h; injection h with h; rw [← h]; exact hl
        · simp only [h3, Bool.false_eq_true, if_false] at h; exact ih h hl
    · rw [if_neg h1] at h
      by_cases h2 : (!inAscii || pyStrip line = "" || pyStarts (pyStrip line) "#") = true
      · rw [if_pos h2] at h; exact ih h hl
      · rw [if_neg h2] at h
        match hs : storeRow lg order cc cl (pySplit (pyStrip line)) nullV with
        | none => rw [hs] at h; exact absurd h (by simp)
        | some lg₁ =>
          rw [hs] at h
          exact ih h (storeRow_allLen hs hl)

theorem prealloc_allLen (order : List String) :
    ∀ {lg : Dict (List ℚ)} {n : Nat}, AllLen lg n →
    AllLen (order.foldl (fun d name => dinsert d name (List.replicate n (0 : ℚ))) lg) n := by
  induction order with
  | nil => intro lg n h; exact h
  | cons name rest ih =>
    intro lg n h
    exact ih (AllLen_dinsert h (List.length_replicate _ _))

/-- `_read_normal` leaves every array at the pre-allocated length. -/
theorem readNormal_allLen {lines : List String} {las : LASFile} {n : Nat}
    {f : LASFile} {ws : List Warning}
    (h : readNormal lines las n = some (f, ws)) (hl : AllLen las.logs n) :
    AllLen f.logs n := by
  unfold readNormal at h
  rcases hd : dedupCurves las.curvesOrder las.curves with ⟨order, curves, ws'⟩
  rw [hd] at h
  simp only at h
  match hp : parseFloat (dgetD las.well "NULL" "-999.25") with
  | none => rw [hp] at h; exact absurd h (by simp)
  | some nullV =>
    rw [hp] at h
    dsimp only at h
    match hn : normalLoop lines false 0
        (order.foldl (fun lg name => dinsert lg name (List.replicate n (0 : ℚ))) las.logs)
        order order.length nullV with
    | none => rw [hn] at h; exact absurd h (by simp)
    | some logs =>
      rw [hn] at h
      dsimp only at h
      have hf : f.logs = logs := by
        have := congrArg (fun p => p.1.logs) (Option.some.inj h)
        simpa using this.symm
      rw [hf]
      exact normalLoop_allLen lines hn (prealloc_allLen order hl)

theorem foldl_max_ge_acc (ls : List (List ℚ)) :
    ∀ acc : Nat, acc ≤ ls.foldl (fun a l => max a l.length) acc := by
  induction ls with
  | nil => intro acc; exact Nat.le_refl _
  | cons l t ih =>
    intro acc
    exact le_trans (Nat.le_max_left _ _) (ih (max acc l.length))

/-- Every list length is bounded by `maxLen`. -/
theorem maxLen_ge (ls : List (List ℚ)) :
    ∀ (acc : Nat) (l : List ℚ), l ∈ ls →
      l.length ≤ ls.foldl (fun a m => max a m.length) acc := by
  induction ls with
  | nil => intro acc l h; simp at h
  | cons m t ih =>
    intro acc l h
    rcases List.mem_cons.mp h with h | h
    · subst h
      exact le_trans (Nat.le_max_right acc l.length) (foldl_max_ge_acc t _)
    · exact ih _ l h

/-- The padding pass extends every list with nulls up to `m`. -/
theorem padGo_map (ls : List (List ℚ)) :
    ∀ (i m : Nat) (order : List String) (nullV : ℚ),
    (padGo ls i m order nullV).1 =
      ls.map (fun l => l ++ List.replicate (m - l.length) nullV) := by
  induction ls with
  | nil => intro i m order nullV; rfl
  | cons l t ih =>
    intro i m order nullV
    simp only [padGo, List.map_cons]
    rcases hp : padGo t (i + 1) m order nullV with ⟨t', ws⟩
    by_cases hl : l.length < m
    · simp only [hp, hl, if_true]
      rw [← ih (i + 1) m order nullV, hp]
    · simp only [hp, hl, if_false]
      have : m - l.length = 0 := by omega
      rw [this]
      simp only [List.replicate_zero, List.append_nil]
      rw [← ih (i + 1) m order nullV, hp]

/-- The padding pass warns for every list it pads. -/
theorem padGo_warn (ls : List (List ℚ)) :
    ∀ (i m : Nat) (order : List String) (nullV : ℚ) (j : Nat) (l : List ℚ),
    ls.get? j = some l → l.length < m →
    Warning.wrappedPad (order.getD (i + j) "") l.length m ∈ (padGo ls i m order nullV).2 := by
  induction ls with
  | nil => intro i m order nullV j l h _; simp at h
  | cons l0 t ih =>
    intro i m order nullV j l hj hlen
    simp only [padGo]
    rcases hp : padGo t (i + 1) m order nullV with ⟨t', ws⟩
    match j, hj with
    | 0, hj =>
      simp only [List.get?] at hj
      injection hj with hj
      subst hj
      simp only [hlen, if_true, Nat.add_zero]
      exact List.mem_cons_self _ _
    | k + 1, hj =>
      simp only [List.get?] at hj
      have := ih (i + 1) m order nullV k l hj hlen
      rw [hp] at this
      simp only at this
      have harith : i + 1 + k = i + (k + 1) := by omega
      rw [harith] at this
      by_cases hl0 : l0.length < m
      · simp only [hl0, if_true]
        exact List.mem_cons_of_mem _ this
      · simp only [hl0, if_false]
        exact this

/-- Inserting pairs whose values all have length `m` preserves
`AllLen`. -/
theorem zipfold_allLen (pairs : List (String × List ℚ)) :
    ∀ {lg : Dict (List ℚ)} {m : Nat}, AllLen lg m →
    (∀ p ∈ pairs, p.2.length = m) →
    AllLen (pairs.foldl (fun d p => dinsert d p.1 p.2) lg) m := by
  induction pairs with
  | nil => intro lg m h _; exact h
  | cons p t ih =>
    intro lg m h hp
    exact ih (AllLen_dinsert h (hp p (List.mem_cons_self _ _)))
      (fun q hq => hp q (List.mem_cons_of_mem _ hq))

/-- `_read_wrapped` ends with all arrays at one common length. -/
theorem readWrapped_allLen {lines : List String} {las : LASFile}
    {f : LASFile} {ws : List Warning}
    (h : readWrapped lines las = some (f, ws)) (hl : las.logs = []) :
    ∃ m, AllLen f.logs m := by
  unfold readWrapped at h
  rcases hd : dedupCurves las.curvesOrder las.curves with ⟨order, curves, ws'⟩
  rw [hd] at h
  simp only at h
  match hp : parseFloat (dgetD las.well "NULL" "-999.25") with
  | none => rw [hp] at h; exact absurd h (by simp)
  | some nullV =>
    rw [hp] at h
    dsimp only at h
    match hw : wrappedLoop lines false true 0 (List.replicate order.length []) nullV
        order.length [] with
    | none => rw [hw] at h; exact absurd h (by simp)
    | some (ls, ws2) =>
      rw [hw] at h
      dsimp only at h
      refine ⟨maxLen ls, ?_⟩
      have hf : f.logs = (List.zip order (padGo ls 0 (maxLen ls) order nullV).1).foldl
          (fun lg p => dinsert lg p.1 p.2) las.logs := by
        have := congrArg (fun p => p.1.logs) (Option.some.inj h)
        simpa using this.symm
      rw [hf, hl]
      apply zipfold_allLen
      · intro p hp; simp at hp
      · intro p hp
        have hmem : p.2 ∈ (padGo ls 0 (maxLen ls) order nullV).1 :=
          (List.of_mem_zip hp).2
        rw [padGo_map ls 0 (maxLen ls) order nullV] at hmem
        obtain ⟨l, hlmem, hleq⟩ := List.mem_map.mp hmem
        have hle : l.length ≤ maxLen ls := maxLen_ge ls 0 l hlmem
        rw [← hleq]
        simp only [List.length_append, List.length_replicate]
        omega

theorem appendAt_length {ls ls' : List (List ℚ)} {i : Nat} {v : ℚ}
    (h : appendAt ls i v = some ls') : ls'.length = ls.length := by
  unfold appendAt at h
  match hg : ls.get? i with
  | none => rw [hg] at h; exact absurd h (by simp)
  | some l =>
    rw [hg] at h
    have : ls.set i (l ++ [v]) = ls' := by simpa using h
    rw [← this, List.length_set]

theorem wrapTok_length {ls ls' : List (List ℚ)} {counter : Nat} {tok : String}
    {nullV : ℚ} {cc : Nat} (h : wrapTok ls counter tok nullV cc = some ls') :
    ls'.length = ls.length := by
  unfold wrapTok at h
  match hp : parseFloat tok with
  | some v =>
    rw [hp] at h
    dsimp only at h
    match ha : appendAt ls counter v with
    | some ls₁ =>
      rw [ha] at h
      have hh : ls₁ = ls' := by simpa using h
      rw [← hh]; exact appendAt_length ha
    | none =>
      rw [ha] at h
      dsimp only at h
      by_cases hc : counter < cc
      · rw [if_pos hc] at h; exact absurd h (by simp)
      · rw [if_neg hc] at h
        have hh : ls = ls' := by simpa using h
        rw [← hh]
  | none =>
    rw [hp] at h
    dsimp only at h
    by_cases hc : counter < cc
    · rw [if_pos hc] at h; exact appendAt_length h
    · rw [if_neg hc] at h
      have hh : ls = ls' := by simpa using h
      rw [← hh]

theorem wrapValsLoop_length (vals : List String) :
    ∀ {ls ls' : List (List ℚ)} {counter counter' : Nat} {dl dl' : Bool} {nullV : ℚ}
    {cc : Nat}, wrapValsLoop vals ls counter dl nullV cc = some (ls', counter', dl') →
    ls'.length = ls.length := by
  induction vals with
  | nil =>
    intro ls ls' _ _ _ _ _ _ h
    simp only [wrapValsLoop, Option.some.injEq, Prod.mk.injEq] at h
    rw [h.1]
  | cons tok rest ih =>
    intro ls ls' counter counter' dl dl' nullV cc h
    simp only [wrapValsLoop] at h
    match ht : wrapTok ls (counter + 1) tok nullV cc with
    | none => rw [ht] at h; exact absurd h (by simp)
    | some ls₁ =>
      rw [ht] at h
      dsimp only at h
      by_cases hcc : counter + 1 ≥ cc - 1
      · rw [if_pos hcc] at h
        rw [ih h]; exact wrapTok_length ht
      · rw [if_neg hcc] at h
        rw [ih h]; exact wrapTok_length ht

theorem depthLineStep_length {ls ls' : List (List ℚ)} {vals : List String} {nullV : ℚ}
    (h : depthLineStep ls vals nullV = some ls') : ls'.length = ls.length := by
  unfold depthLineStep at h
  match hh : vals.head? with
  | some t =>
    rw [hh] at h
    dsimp only at h
    match hp : parseFloat t with
    | some v => rw [hp] at h; exact appendAt_length h
    | none => rw [hp] at h; exact appendAt_length h
  | none => rw [hh] at h; exact appendAt_length h

theorem wrappedLoop_length (lines : List String) :
    ∀ {inAscii dl : Bool} {counter : Nat} {ls ls' : List (List ℚ)} {nullV : ℚ}
    {cc : Nat} {ws ws' : List Warning},
    wrappedLoop lines inAscii dl counter ls nullV cc ws = some (ls', ws') →
    ls'.length = ls.length := by
  induction lines with
  | nil =>
    intro _ _ _ ls ls' _ _ _ _ h
    simp only [wrappedLoop, Option.some.injEq, Prod.mk.injEq] at h
    rw [h.1]
  | cons line rest ih =>
    intro inAscii dl counter ls ls' nullV cc ws ws' h
    simp only [wrappedLoop] at h
    by_cases h1 : pyStarts (pyStrip line) "~"
    · rw [if_pos h1] at h
      by_cases h2 : pyStarts (pyStrip line) "~A"
      · rw [if_pos h2] at h; exact ih h
      · rw [if_neg h2] at h
        by_cases h3 : inAscii
        · simp only [h3, if_true, Option.some.injEq, Prod.mk.injEq] at h
          rw [h.1]
        · simp only [h3, Bool.false_eq_true, if_false] at h; exact ih h
    · rw [if_neg h1] at h
      by_cases h2 : (!inAscii || pyStrip line = "" || pyStarts (pyStrip line) "#") = true
      · rw [if_pos h2] at h; exact ih h
      · rw [if_neg h2] at h
        by_cases h3 : dl
        · simp only [h3, if_true] at h
          match hd : depthLineStep ls (pySplit (pyStrip line)) nullV with
          | none => rw [hd] at h; exact absurd h (by simp)
          | some ls₁ =>
            rw [hd] at h
            rw [ih h]; exact depthLineStep_length hd
        · simp only [Bool.not_eq_true] at h3
          simp only [h3, Bool.false_eq_true, if_false] at h
          match hv : wrapValsLoop (pySplit (pyStrip line)) ls counter false nullV cc with
          | none => rw [hv] at h; exact absurd h (by simp)
          | some (ls₁, counter₁, dl₁) =>
            rw [hv] at h
            rw [ih h]; exact wrapValsLoop_length _ hv

theorem dinsert_fresh {α : Type} (d : Dict α) (k : String) (v : α)
    (h : dmem d k = false) : dinsert d k v = d ++ [(k, v)] := by
  induction d with
  | nil => rfl
  | cons p t ih =>
    obtain ⟨k₀, v₀⟩ := p
    by_cases hk : k₀ = k
    · exfalso
      simp [dmem, dget?, hk] at h
    · simp only [dinsert, hk, if_false, List.cons_append, List.cons.injEq, true_and]
      apply ih
      simpa [dmem, dget?, hk] using h

theorem dmem_append_single {α : Type} (d : Dict α) (k k' : String) (v : α)
    (hd : dmem d k' = false) (hk : k ≠ k') : dmem (d ++ [(k, v)]) k' = false := by
  induction d with
  | nil => simpa [dmem, dget?] using hk
  | cons p t ih =>
    obtain ⟨k₀, v₀⟩ := p
    by_cases h0 : k₀ = k'
    · simp [dmem, dget?, h0] at hd
    · simp only [List.cons_append, dmem, dget?, h0, if_false]
      apply ih
      simpa [dmem, dget?, h0] using hd

/-- Folding fresh inserts over an empty-start dictionary appends them in
order. -/
theorem foldl_dinsert_fresh {α : Type} (pairs : List (String × α)) :
    ∀ acc : Dict α, (∀ p ∈ pairs, dmem acc p.1 = false) →
    (pairs.map Prod.fst).Nodup →
    pairs.foldl (fun d p => dinsert d p.1 p.2) acc = acc ++ pairs := by
  induction pairs with
  | nil => intro acc _ _; simp
  | cons p t ih =>
    intro acc hfresh hnd
    simp only [List.foldl_cons]
    rw [dinsert_fresh acc p.1 p.2 (hfresh p (List.mem_cons_self _ _))]
    simp only [List.map_cons, List.nodup_cons] at hnd
    rw [ih (acc ++ [(p.1, p.2)]) ?_ hnd.2]
    · simp
    · intro q hq
      apply dmem_append_single
      · exact hfresh q (List.mem_cons_of_mem _ hq)
      · intro hkk
        exact hnd.1 (hkk ▸ List.mem_map_of_mem Prod.fst hq)

/-- Claim C2: after `read_ascii_data` (either algorithm) every array in
the logs mapping has the same length; and in wrapped mode the final
arrays are exactly the accumulated per-curve sequences padded with the
null sentinel up to the longest one, with a `wrappedPad` diagnostic for
every padded curve. -/
theorem logs_uniform_length :
    (∀ (content : String) (st : LASFile) (n : Nat) (f : LASFile) (ws : List Warning),
      st.logs = [] → readAsciiData content st n = some (f, ws) →
      ∀ p ∈ f.logs, ∀ q ∈ f.logs, p.2.length = q.2.length) ∧
    (∀ (lines : List String) (st : LASFile) (f : LASFile) (ws : List Warning)
      (nullV : ℚ) (ls : List (List ℚ)) (ws2 : List Warning),
      st.logs = [] →
      (dedupCurves st.curvesOrder st.curves).1.Nodup →
      parseFloat (dgetD st.well "NULL" "-999.25") = some nullV →
      wrappedLoop lines false true 0
        (List.replicate (dedupCurves st.curvesOrder st.curves).1.length []) nullV
        (dedupCurves st.curvesOrder st.curves).1.length [] = some (ls, ws2) →
      readWrapped lines st = some (f, ws) →
      f.logs = List.zip (dedupCurves st.curvesOrder st.curves).1
        (ls.map (fun l => l ++ List.replicate (maxLen ls - l.length) nullV)) ∧
      (∀ j l, ls.get? j = some l → l.length < maxLen ls →
        Warning.wrappedPad ((dedupCurves st.curvesOrder st.curves).1.getD j "")
          l.length (maxLen ls) ∈ ws)) := by
  constructor
  · intro content st n f ws hlogs h
    unfold readAsciiData at h
    by_cases hcc : st.curvesOrder.length = 0
    · rw [if_pos hcc] at h
      have h1 := Option.some.inj h
      have hf : st = f := congrArg Prod.fst h1
      intro p hp
      rw [← hf, hlogs] at hp
      simp at hp
    · rw [if_neg hcc] at h
      by_cases hw : pyUpper st.version.wrap = "YES"
      · rw [if_pos hw] at h
        by_cases hdet : detectActualWrap (pySplitlines content) st.curvesOrder.length
        · simp only [hdet, if_true] at h
          obtain ⟨m, hm⟩ := readWrapped_allLen h hlogs
          intro p hp q hq; rw [hm p hp, hm q hq]
        · simp only [hdet, Bool.false_eq_true, if_false] at h
          have hall := readNormal_allLen h (n := n) (by rw [hlogs]; intro p hp; simp at hp)
          intro p hp q hq; rw [hall p hp, hall q hq]
      · rw [if_neg hw] at h
        have hall := readNormal_allLen h (n := n) (by rw [hlogs]; intro p hp; simp at hp)
        intro p hp q hq; rw [hall p hp, hall q hq]
  · intro lines st f ws nullV ls ws2 hlogs hnd hp hloop h
    unfold readWrapped at h
    rcases hd : dedupCurves st.curvesOrder st.curves with ⟨order, curves, ws'⟩
    rw [hd] at h
    simp only at h
    rw [hp] at h
    dsimp only at h
    rw [hd] at hloop hnd
    simp only at hloop hnd
    rw [hloop] at h
    dsimp only at h
    have hinj := Option.some.inj h
    have hlen : ls.length = order.length := by
      have := wrappedLoop_length lines hloop
      simpa using this
    have hflogs : f.logs = (List.zip order (padGo ls 0 (maxLen ls) order nullV).1).foldl
        (fun lg p => dinsert lg p.1 p.2) st.logs := by
      have := congrArg (fun p => p.1.logs) hinj
      simpa using this.symm
    have hpad := padGo_map ls 0 (maxLen ls) order nullV
    have hzipkeys : ((List.zip order (padGo ls 0 (maxLen ls) order nullV).1).map
        Prod.fst).Nodup := by
      rw [List.map_fst_zip]
      · exact hnd
      · rw [hpad]
        simp [hlen]
    constructor
    · rw [hflogs, hlogs]
      rw [foldl_dinsert_fresh _ [] (fun _ _ => rfl) hzipkeys]
      rw [hpad]
      simp [hd]
    · intro j l hj hlt
      have hws : ws = ws' ++ ws2 ++ (padGo ls 0 (maxLen ls) order nullV).2 := by
        have := congrArg (fun p => p.2) hinj
        simpa using this.symm
      rw [hws]
      have := padGo_warn ls 0 (maxLen ls) order nullV j l hj hlt
      simp only [Nat.zero_add] at this
      exact List.mem_append_right _ this

/-- The wrapped-mode document and result of the C2 witness. -/
def wDoc : LASFile :=
  { version := { vers := "1.2", wrap := "YES" },
    well := [("NULL", "-999.25")],
    curves := [{ mnemonic := "DEPT" }, { mnemonic := "DT" }, { mnemonic := "GR" }],
    curvesOrder := ["DEPT", "DT", "GR"] }

/-- Read-back result of the C2 witness content against `wDoc`. -/
def wRes : LASFile :=
  { wDoc with logs := [("DEPT", [100, 101]), ("DT", [10, 11]),
      ("GR", [20, -(3997 : ℚ)/4])] }

/-- Witness for C2 at a wrapped document whose last depth step is
incomplete. -/
theorem logs_uniform_length_witness :
    (∀ p ∈ wRes.logs, ∀ q ∈ wRes.logs, p.2.length = q.2.length) ∧
    Warning.wrappedPad "GR" 1 2 ∈ [Warning.wrappedPad "GR" 1 2] := by
  constructor
  · exact logs_uniform_length.1 "~A\n100.0\n10.0 20.0\n101.0\n11.0\n" wDoc 4 wRes
      [Warning.wrappedPad "GR" 1 2] rfl (by decide)
  · have h2 := logs_uniform_length.2 (pySplitlines "~A\n100.0\n10.0 20.0\n101.0\n11.0\n")
      wDoc wRes [Warning.wrappedPad "GR" 1 2] (-(3997 : ℚ)/4)
      [[100, 101], [10, 11], [20]] [] rfl (by decide) (by decide) (by decide) (by decide)
    have := h2.2 2 [20] (by decide) (by decide)
    simp at this
    convert List.mem_cons_self _ _

/-! ### Claim C4: non-wrapped row semantics -/

/-- The value `_read_normal` stores for curve position `i` of a row:
the parsed token when position `i` has one (the null value if it fails
to parse), the null value when the row is short. -/
def rowCellVal (vals : List String) (i : Nat) (nullV : ℚ) : ℚ :=
  if i < vals.length then (parseFloat (vals.getD i "")).getD nullV else nullV

/-- The row phase of `_read_normal`, abstracted over the selected data
rows. -/
def rowsLoop (order : List String) (cc : Nat) (nullV : ℚ) :
    List String → Nat → Dict (List ℚ) → Option (Dict (List ℚ))
  | [], _, logs => some logs
  | row :: rest, cl, logs =>
    match storeRow logs order cc cl (pySplit row) nullV with
    | none => none
    | some logs' => rowsLoop order cc nullV rest (cl + 1) logs'

/-- The line loop of `_read_normal` processes exactly the rows selected
by `dataRowsFrom`. -/
theorem normalLoop_eq_rowsLoop (order : List String) (cc : Nat) (nullV : ℚ)
    (lines : List String) :
    ∀ (inAscii : Bool) (cl : Nat) (logs : Dict (List ℚ)),
    normalLoop lines inAscii cl logs order cc nullV =
      rowsLoop order cc nullV (dataRowsFrom lines inAscii) cl logs := by
  induction lines with
  | nil => intro inAscii cl logs; rfl
  | cons line rest ih =>
    intro inAscii cl logs
    simp only [normalLoop, dataRowsFrom]
    by_cases h1 : pyStarts (pyStrip line) "~"
    · simp only [h1, if_true]
      by_cases h2 : pyStarts (pyStrip line) "~A"
      · simp only [h2, if_true]; exact ih true cl logs
      · simp only [h2, Bool.false_eq_true, if_false]
        by_cases h3 : inAscii
        · simp [h3, rowsLoop]
        · simp only [h3, Bool.false_eq_true, if_false]
          simp only [Bool.not_eq_true] at h3
          exact h3 ▸ ih inAscii cl logs
    · simp only [h1, Bool.false_eq_true, if_false]
      by_cases h2 : (!inAscii || pyStrip line = "" || pyStarts (pyStrip line) "#") = true
      · simp only [h2, if_true]; exact ih inAscii cl logs
      · simp only [h2, Bool.false_eq_true, if_false, rowsLoop]
        match storeRow logs order cc cl (pySplit (pyStrip line)) nullV with
        | none => rfl
        | some logs' => exact ih inAscii (cl + 1) logs'

/-- Successful `storeCell` dissected. -/
theorem storeCell_get {logs logs' : Dict (List ℚ)} {name : String} {i : Nat} {q : ℚ}
    (h : storeCell logs name i q = some logs') :
    ∃ arr, dget? logs name = some arr ∧ i < arr.length ∧
      logs' = dinsert logs name (arr.set i q) := by
  unfold storeCell at h
  match hg : dget? logs name with
  | none => rw [hg] at h; exact absurd h (by simp)
  | some arr =>
    rw [hg] at h
    have h' : (if i < arr.length then some (dinsert logs name (arr.set i q)) else none) =
        some logs' := h
    by_cases hi : i < arr.length
    · rw [if_pos hi] at h'
      exact ⟨arr, rfl, hi, (Option.some.inj h').symm⟩
    · rw [if_neg hi] at h'; exact absurd h' (by simp)

/-- A generic pass writing `g i` at `(order[i], cl)` for each index of a
list; both loops of `storeRow` are instances. -/
def writesAt (order : List String) (cl : Nat) (g : Nat → ℚ) :
    Dict (List ℚ) → List Nat → Option (Dict (List ℚ))
  | logs, [] => some logs
  | logs, i :: is =>
    match storeCell logs (order.getD i "") cl (g i) with
    | none => none
    | some logs' => writesAt order cl g logs' is

theorem storeParsedIdx_eq_writesAt (is : List Nat) :
    ∀ (order : List String) (cl : Nat) (vals : List String) (nullV : ℚ)
    (logs : Dict (List ℚ)),
    storeParsedIdx order cl vals nullV logs is =
      writesAt order cl (fun i => (parseFloat (vals.getD i "")).getD nullV) logs is := by
  induction is with
  | nil => intro _ _ _ _ _; rfl
  | cons i rest ih =>
    intro order cl vals nullV logs
    simp only [storeParsedIdx, writesAt, storeTok]
    match hp : parseFloat (vals.getD i "") with
    | some v =>
      simp only [Option.getD]
      match storeCell logs (order.getD i "") cl v with
      | none => rfl
      | some logs' => exact ih order cl vals nullV logs'
    | none =>
      simp only [Option.getD]
      match storeCell logs (order.getD i "") cl nullV with
      | none => rfl
      | some logs' => exact ih order cl vals nullV logs'

theorem storeNullIdx_eq_writesAt (is : List Nat) :
    ∀ (order : List String) (cl : Nat) (nullV : ℚ) (logs : Dict (List ℚ)),
    storeNullIdx order cl nullV logs is =
      writesAt order cl (fun _ => nullV) logs is := by
  induction is with
  | nil => intro _ _ _ _; rfl
  | cons i rest ih =>
    intro order cl nullV logs
    simp only [storeNullIdx, writesAt]
    match storeCell logs (order.getD i "") cl nullV with
    | none => rfl
    | some logs' => exact ih order cl nullV logs'

/-- A `writesAt` pass does not affect names at none of its indices. -/
theorem writesAt_untouched (is : List Nat) :
    ∀ {order : List String} {cl : Nat} {g : Nat → ℚ} {logs logs' : Dict (List ℚ)}
    (name : String),
    writesAt order cl g logs is = some logs' →
    (∀ i ∈ is, order.getD i "" ≠ name) →
    dget? logs' name = dget? logs name := by
  induction is with
  | nil =>
    intro _ _ _ logs logs' name h _
    simp only [writesAt] at h
    injection h with h; rw [h]
  | cons i rest ih =>
    intro order cl g logs logs' name h hni
    simp only [writesAt] at h
    match hs : storeCell logs (order.getD i "") cl (g i) with
    | none => rw [hs] at h; exact absurd h (by simp)
    | some logs₁ =>
      rw [hs] at h
      obtain ⟨arr, _, _, heq⟩ := storeCell_get hs
      have hne : order.getD i "" ≠ name := hni i (List.mem_cons_self _ _)
      have hstep : dget? logs₁ name = dget? logs name := by
        rw [heq, dget?_dinsert_ne _ _ _ _ hne]
      rw [ih name h (fun j hj => hni j (List.mem_cons_of_mem _ hj)), hstep]

/-- A `writesAt` pass hitting a name exactly once sets row `cl` of its
array to the planned value. -/
theorem writesAt_hit (is : List Nat) :
    ∀ {order : List String} {cl : Nat} {g : Nat → ℚ} {logs logs' : Dict (List ℚ)}
    {name : String} {i : Nat},
    writesAt order cl g logs is = some logs' →
    is.Nodup → i ∈ is → order.getD i "" = name →
    (∀ j ∈ is, j ≠ i → order.getD j "" ≠ name) →
    ∃ arr, dget? logs name = some arr ∧ cl < arr.length ∧
      dget? logs' name = some (arr.set cl (g i)) := by
  induction is with
  | nil => intro _ _ _ _ _ _ _ _ _ hmem _ _; simp at hmem
  | cons j rest ih =>
    intro order cl g logs logs' name i h hnd hmem hname hothers
    simp only [writesAt] at h
    have hnd' := List.nodup_cons.mp hnd
    match hs : storeCell logs (order.getD j "") cl (g j) with
    | none => rw [hs] at h; exact absurd h (by simp)
    | some logs₁ =>
      rw [hs] at h
      by_cases hji : j = i
      · subst hji
        obtain ⟨arr, hget, hlt, heq⟩ := storeCell_get hs
        rw [hname] at hget heq
        refine ⟨arr, hget, hlt, ?_⟩
        have hrest : dget? logs' name = dget? logs₁ name := by
          apply writesAt_untouched rest name h
          intro k hk
          have hkj : k ≠ j := fun hkeq => hnd'.1 (hkeq ▸ hk)
          exact hothers k (List.mem_cons_of_mem _ hk) hkj
        rw [hrest, heq, dget?_dinsert_self]
      · have hji' : order.getD j "" ≠ name :=
          hothers j (List.mem_cons_self _ _) hji
        obtain ⟨arr0, _, _, heq⟩ := storeCell_get hs
        have hstep : dget? logs₁ name = dget? logs name := by
          rw [heq, dget?_dinsert_ne _ _ _ _ hji']
        have hmem' : i ∈ rest := by
          rcases List.mem_cons.mp hmem with h' | h'
          · exact absurd h'.symm hji
          · exact h'
        obtain ⟨arr, hget, hlt, hfin⟩ := ih h hnd'.2 hmem' hname
          (fun k hk hki => hothers k (List.mem_cons_of_mem _ hk) hki)
        exact ⟨arr, by rw [← hstep, hget], hlt, hfin⟩

/-- With distinct curve names, a `getD` hit pins down the index. -/
theorem nodup_getD_eq {order : List String} {name : String} {i j : Nat}
    (hnd : order.Nodup) (hi : order.get? i = some name) (hj : j < order.length)
    (hgd : order.getD j "" = name) : j = i := by
  have hq : order.get? j = some name := by
    rw [List.getD_eq_get?] at hgd
    match hg : order.get? j with
    | some v => rw [hg] at hgd; simp only [Option.getD] at hgd; rw [hgd]
    | none => exact absurd (List.get?_eq_none.mp hg) (by omega)
  exact List.get?_inj hj hnd (by rw [hq, hi])

/-- Successful `storeRow` over the full curve order: with distinct names,
curve `i` of the order has row `cl` of its array set to `rowCellVal`. -/
theorem storeRow_get {logs logs' : Dict (List ℚ)} {order : List String} {cl : Nat}
    {vals : List String} {nullV : ℚ} {i : Nat} {name : String}
    (hnd : order.Nodup)
    (h : storeRow logs order order.length cl vals nullV = some logs')
    (hi : order.get? i = some name) :
    ∃ arr, dget? logs name = some arr ∧ cl < arr.length ∧
      dget? logs' name = some (arr.set cl (rowCellVal vals i nullV)) := by
  obtain ⟨hilt, -⟩ := List.get?_eq_some.mp hi
  have hgdi : order.getD i "" = name := by rw [List.getD_eq_get?, hi]; rfl
  unfold storeRow at h
  rw [storeParsedIdx_eq_writesAt] at h
  match hp : writesAt order cl (fun k => (parseFloat (vals.getD k "")).getD nullV) logs
      (List.range (min vals.length order.length)) with
  | none => rw [hp] at h; exact absurd h (by simp)
  | some logs₁ =>
    rw [hp] at h
    dsimp only at h
    rw [storeNullIdx_eq_writesAt] at h
    by_cases hiv : i < vals.length
    · have himem : i ∈ List.range (min vals.length order.length) := by
        rw [List.mem_range]; omega
      have hoth1 : ∀ j ∈ List.range (min vals.length order.length), j ≠ i →
          order.getD j "" ≠ name := by
        intro j hj hji hcon
        rw [List.mem_range] at hj
        exact hji (nodup_getD_eq hnd hi (by omega) hcon)
      obtain ⟨arr, hget, hlt, hmid⟩ :=
        writesAt_hit _ hp (List.nodup_range _) himem hgdi hoth1
      have hout : dget? logs' name = dget? logs₁ name := by
        apply writesAt_untouched _ name h
        intro j hj hcon
        obtain ⟨k, hk, hjk⟩ := List.mem_range'.mp hj
        have hjlt : j < order.length := by omega
        have := nodup_getD_eq hnd hi hjlt hcon
        omega
      refine ⟨arr, hget, hlt, ?_⟩
      rw [hout, hmid]
      simp [rowCellVal, hiv]
    · have hout1 : dget? logs₁ name = dget? logs name := by
        apply writesAt_untouched _ name hp
        intro j hj hcon
        rw [List.mem_range] at hj
        have := nodup_getD_eq hnd hi (by omega) hcon
        omega
      have himem : i ∈ List.range' vals.length (order.length - vals.length) :=
        List.mem_range'.mpr ⟨i - vals.length, by omega, by omega⟩
      have hoth2 : ∀ j ∈ List.range' vals.length (order.length - vals.length), j ≠ i →
          order.getD j "" ≠ name := by
        intro j hj hji hcon
        obtain ⟨k, hk, hjk⟩ := List.mem_range'.mp hj
        exact hji (nodup_getD_eq hnd hi (by omega) hcon)
      obtain ⟨arr, hget, hlt, hfin⟩ :=
        writesAt_hit _ h (List.nodup_range' _ _) himem hgdi hoth2
      refine ⟨arr, by rw [← hout1]; exact hget, hlt, ?_⟩
      rw [hfin]
      simp [rowCellVal, hiv]

/-- The row loop characterised cell-by-cell: selected data row `k`
writes `rowCellVal` of its whitespace split at cell `cl + k` of every
curve's array, and every other cell survives unchanged. -/
theorem rowsLoop_get (rows : List String) :
    ∀ {order : List String} {nullV : ℚ} {cl : Nat} {logs logs' : Dict (List ℚ)}
    {i : Nat} {name : String} {arr : List ℚ},
    order.Nodup →
    rowsLoop order order.length nullV rows cl logs = some logs' →
    order.get? i = some name →
    dget? logs name = some arr →
    ∃ arr', dget? logs' name = some arr' ∧ arr'.length = arr.length ∧
      (∀ r, r < cl → arr'.get? r = arr.get? r) ∧
      (∀ r, cl + rows.length ≤ r → arr'.get? r = arr.get? r) ∧
      (∀ k row, rows.get? k = some row →
        arr'.get? (cl + k) = some (rowCellVal (pySplit row) i nullV)) := by
  induction rows with
  | nil =>
    intro order nullV cl logs logs' i name arr hnd h hi harr
    simp only [rowsLoop] at h
    injection h with h
    subst h
    exact ⟨arr, harr, rfl, fun r _ => rfl, fun r _ => rfl, fun k row hk => by simp at hk⟩
  | cons row rest ih =>
    intro order nullV cl logs logs' i name arr hnd h hi harr
    simp only [rowsLoop] at h
    match hs : storeRow logs order order.length cl (pySplit row) nullV with
    | none => rw [hs] at h; exact absurd h (by simp)
    | some logs₁ =>
      rw [hs] at h
      dsimp only at h
      obtain ⟨arr₀, hget₀, hlt₀, hmid⟩ := storeRow_get hnd hs hi
      rw [harr] at hget₀
      injection hget₀ with hget₀
      subst hget₀
      obtain ⟨arr', hfin, hlen, hlo, hhi2, hcells⟩ := ih hnd h hi hmid
      refine ⟨arr', hfin, ?_, ?_, ?_, ?_⟩
      · rw [hlen, List.length_set]
      · intro r hr
        have hne : cl ≠ r := by omega
        rw [hlo r (by omega)]
        exact List.get?_set_ne _ _ hne
      · intro r hr
        have hr1 : cl + 1 + rest.length ≤ r := by
          simp only [List.length_cons] at hr; omega
        have hne : cl ≠ r := by omega
        rw [hhi2 r hr1]
        exact List.get?_set_ne _ _ hne
      · intro k row' hk
        match k with
        | 0 =>
          injection hk with hk
          subst hk
          have h0 : arr'.get? (cl + 0) =
              (arr.set cl (rowCellVal (pySplit row) i nullV)).get? cl := by
            rw [Nat.add_zero]
            exact hlo cl (by omega)
          rw [h0, List.get?_set_eq, List.get?_eq_get hlt₀]
          rfl
        | Nat.succ k' =>
          have hk' : rest.get? k' = some row' := hk
          have harith : cl + (k' + 1) = cl + 1 + k' := by omega
          rw [harith]
          exact hcells k' row' hk'

/-- Folding `dinsert` of a constant value over a name list equals the
same fold over the literal pair list. -/
theorem foldl_dinsert_map (order : List String) (v : List ℚ) :
    ∀ acc : Dict (List ℚ),
    order.foldl (fun lg nm => dinsert lg nm v) acc =
      (order.map (fun nm => (nm, v))).foldl (fun d p => dinsert d p.1 p.2) acc := by
  induction order with
  | nil => intro acc; rfl
  | cons nm rest ih =>
    intro acc
    simp only [List.foldl_cons, List.map_cons]
    exact ih _

/-- Lookup in a constant-value literal association list. -/
theorem dget?_map_const (order : List String) (v : List ℚ) (name : String)
    (h : name ∈ order) :
    dget? (order.map (fun nm => (nm, v))) name = some v := by
  induction order with
  | nil => cases h
  | cons nm rest ih =>
    simp only [List.map_cons, dget?]
    by_cases he : nm = name
    · rw [if_pos he]
    · rw [if_neg he]
      rcases List.mem_cons.mp h with h' | h'
      · exact absurd h'.symm he
      · exact ih h'

/-- The preallocation fold of `_read_normal` seeds every declared curve
with the given array. -/
theorem prealloc_get {order : List String} (hnd : order.Nodup) (v : List ℚ)
    {name : String} (hname : name ∈ order) :
    dget? (order.foldl (fun lg nm => dinsert lg nm v) ([] : Dict (List ℚ))) name =
      some v := by
  have hnd' : ((order.map (fun nm => (nm, v))).map Prod.fst).Nodup := by
    rw [List.map_map]
    have hid : (Prod.fst ∘ fun nm : String => (nm, v)) = id := rfl
    rw [hid, List.map_id]
    exact hnd
  rw [foldl_dinsert_map,
    foldl_dinsert_fresh (order.map (fun nm => (nm, v))) ([] : Dict (List ℚ))
      (fun p _ => rfl) hnd',
    List.nil_append]
  exact dget?_map_const order v name hname

/-- Shared characterisation of the non-wrapped path of `read_ascii_data`:
per-curve arrays have one cell per counted data line and every cell is
the `rowCellVal` of its whitespace-split data row. -/
theorem readAsciiData_normal_get {content : String} {las : LASFile} {n : Nat}
    {f : LASFile} {ws : List Warning} {nullV : ℚ} {i : Nat} {name : String}
    (hw : ¬ pyUpper las.version.wrap = "YES")
    (hnd : las.curvesOrder.Nodup)
    (hlogs : las.logs = [])
    (hnull : parseFloat (dgetD las.well "NULL" "-999.25") = some nullV)
    (h : readAsciiData content las n = some (f, ws))
    (hi : las.curvesOrder.get? i = some name) :
    ∃ arr, dget? f.logs name = some arr ∧ arr.length = n ∧
      ∀ k row, (dataRowsFrom (pySplitlines content) false).get? k = some row →
        arr.get? k = some (rowCellVal (pySplit row) i nullV) := by
  obtain ⟨hilt, -⟩ := List.get?_eq_some.mp hi
  have hcc : ¬ las.curvesOrder.length = 0 := by omega
  unfold readAsciiData at h
  simp only [if_neg hcc, if_neg hw] at h
  unfold readNormal at h
  rw [dedupCurves_nodup _ _ hnd] at h
  simp only at h
  rw [hnull] at h
  dsimp only at h
  rw [hlogs] at h
  rw [normalLoop_eq_rowsLoop las.curvesOrder las.curvesOrder.length nullV
    (pySplitlines content)] at h
  match hn : rowsLoop las.curvesOrder las.curvesOrder.length nullV
      (dataRowsFrom (pySplitlines content) false) 0
      (las.curvesOrder.foldl
        (fun lg name => dinsert lg name (List.replicate n (0 : ℚ))) []) with
  | none => rw [hn] at h; exact absurd h (by simp)
  | some logs =>
    rw [hn] at h
    dsimp only at h
    have hf : f.logs = logs := by
      have := congrArg (fun p => p.1.logs) (Option.some.inj h)
      simpa using this.symm
    have hpre : dget? (las.curvesOrder.foldl
        (fun lg name => dinsert lg name (List.replicate n (0 : ℚ)))
        ([] : Dict (List ℚ))) name = some (List.replicate n (0 : ℚ)) :=
      prealloc_get hnd (List.replicate n 0) (List.get?_mem hi)
    obtain ⟨arr, hfin, hlen, hlo, hhi2, hcells⟩ := rowsLoop_get _ hnd hn hi hpre
    refine ⟨arr, by rw [hf]; exact hfin, ?_, ?_⟩
    · rw [hlen, List.length_replicate]
    · intro k row hk
      have := hcells k row hk
      rwa [Nat.zero_add] at this


/-- Claim C4: in non-wrapped reading every data row is whitespace-split
and assigned positionally: at that row, curve `i` of the declared order
receives the parsed token `i` when present, and the null sentinel when
the token is missing or unparseable (`rowCellVal`); every curve's array
has one cell per data line. -/
theorem readNormal_row_semantics {content : String} {las : LASFile} {n : Nat}
    {f : LASFile} {ws : List Warning} {nullV : ℚ} {i : Nat} {name : String}
    (hw : ¬ pyUpper las.version.wrap = "YES")
    (hnd : las.curvesOrder.Nodup)
    (hlogs : las.logs = [])
    (hnull : parseFloat (dgetD las.well "NULL" "-999.25") = some nullV)
    (h : readAsciiData content las n = some (f, ws))
    (hi : las.curvesOrder.get? i = some name) :
    ∃ arr, dget? f.logs name = some arr ∧ arr.length = n ∧
      ∀ k row, (dataRowsFrom (pySplitlines content) false).get? k = some row →
        arr.get? k = some (rowCellVal (pySplit row) i nullV) :=
  readAsciiData_normal_get hw hnd hlogs hnull h hi

/-- The claim's concrete document: curves `DEPT`, `DT`, `GR` with the
default null sentinel. -/
def c4Doc : LASFile :=
  { version := { vers := "2.0", wrap := "NO" },
    well := [("NULL", "-999.25")],
    curves := [{ mnemonic := "DEPT" }, { mnemonic := "DT" }, { mnemonic := "GR" }],
    curvesOrder := ["DEPT", "DT", "GR"] }

/-- Reading the two-token row `100.0 60.0` against `c4Doc` fills `GR`
with the null sentinel. -/
def c4Res : LASFile :=
  { c4Doc with logs := [("DEPT", [(100 : ℚ)]), ("DT", [(60 : ℚ)]), ("GR", [(-999.25 : ℚ)])] }

theorem readNormal_row_semantics_witness :
    (readAsciiData "~A\n100.0 60.0\n" c4Doc 1 = some (c4Res, [])) ∧
    (∃ arr, dget? c4Res.logs "GR" = some arr ∧ arr.length = 1 ∧
      ∀ k row, (dataRowsFrom (pySplitlines "~A\n100.0 60.0\n") false).get? k = some row →
        arr.get? k = some (rowCellVal (pySplit row) 2 (-999.25 : ℚ))) :=
  ⟨by decide,
    @readNormal_row_semantics "~A\n100.0 60.0\n" c4Doc 1 c4Res [] (-999.25 : ℚ) 2 "GR"
      (by decide) (by decide) (by decide) (by decide) (by decide) (by decide)⟩

/-- The WRAP=YES two-curve document used for the wrap-detection claim. -/
def c1Doc : LASFile :=
  { version := { vers := "2.0", wrap := "YES" },
    well := [("NULL", "-999.25")],
    curves := [{ mnemonic := "DEPT" }, { mnemonic := "GR" }],
    curvesOrder := ["DEPT", "GR"] }

/-- Claim C1, counterexample: in `~A\n~O hello world\n` the ASCII
section contains no data rows at all (the `~O` header ends it), so the
claim prescribes the wrapped default; but `_detect_actual_wrap` never
breaks on a section header, token-counts the `~O` line itself (2 tokens,
not fewer than the 2 curves) and so selects the non-wrapped algorithm,
whose result differs from the wrapped one. -/
theorem wrapDetect_section_line_counterexample :
    (dataRowsFrom (pySplitlines "~A\n~O hello world\n") false = []) ∧
    (pyUpper c1Doc.version.wrap = "YES") ∧
    (detectActualWrap (pySplitlines "~A\n~O hello world\n") 2 = false) ∧
    (readAsciiData "~A\n~O hello world\n" c1Doc 1 =
      some ({ c1Doc with logs := [("DEPT", [(0 : ℚ)]), ("GR", [(0 : ℚ)])] }, [])) ∧
    (readWrapped (pySplitlines "~A\n~O hello world\n") c1Doc =
      some ({ c1Doc with logs := [("DEPT", ([] : List ℚ)), ("GR", ([] : List ℚ))] }, [])) ∧
    (readAsciiData "~A\n~O hello world\n" c1Doc 1 ≠
      readWrapped (pySplitlines "~A\n~O hello world\n") c1Doc) := by
  decide

/-- Claim C1, amended: under WRAP=YES the reader inspects the first
stripped line after a `~A` marker that is non-blank, non-comment and not
itself a `~A` line (`detectScan`, which unlike the data-row selection
does not stop at a later section header): if no such line exists, or its
whitespace-token count is below the declared curve count, the wrapped
algorithm runs, otherwise the non-wrapped one; and a successful
non-wrapped read leaves every curve array with one cell per counted data
line. -/
theorem wrapDetect_amended {content : String} {las : LASFile} {n cc : Nat}
    (hw : pyUpper las.version.wrap = "YES")
    (hcc : las.curvesOrder.length = cc) (hcc0 : cc ≠ 0) :
    (readAsciiData content las n =
      match detectScan (pySplitlines content) false with
      | none => readWrapped (pySplitlines content) las
      | some s =>
        if (pySplit s).length < cc then readWrapped (pySplitlines content) las
        else readNormal (pySplitlines content) las n) ∧
    (∀ f ws, AllLen las.logs n →
      readNormal (pySplitlines content) las n = some (f, ws) → AllLen f.logs n) := by
  constructor
  · have hccne : ¬ las.curvesOrder.length = 0 := by omega
    subst hcc
    unfold readAsciiData
    simp only [if_neg hccne, if_pos hw]
    unfold detectActualWrap
    rw [detectLoop_eq_scan]
    cases hd : detectScan (pySplitlines content) false with
    | none => rfl
    | some s =>
      dsimp only
      by_cases hlt : (pySplit s).length < las.curvesOrder.length
      · simp [hlt]
      · simp [hlt]
  · intro f ws hall hr
    exact readNormal_allLen hr hall

theorem wrapDetect_amended_witness :
    pyUpper c1Doc.version.wrap = "YES" ∧ c1Doc.curvesOrder.length = 2 ∧ 2 ≠ 0 ∧
    ((readAsciiData "~A\n100.0 200.0\n" c1Doc 1 =
      match detectScan (pySplitlines "~A\n100.0 200.0\n") false with
      | none => readWrapped (pySplitlines "~A\n100.0 200.0\n") c1Doc
      | some s =>
        if (pySplit s).length < 2 then readWrapped (pySplitlines "~A\n100.0 200.0\n") c1Doc
        else readNormal (pySplitlines "~A\n100.0 200.0\n") c1Doc 1) ∧
    (∀ f ws, AllLen c1Doc.logs 1 →
      readNormal (pySplitlines "~A\n100.0 200.0\n") c1Doc 1 = some (f, ws) →
      AllLen f.logs 1)) :=
  ⟨rfl, rfl, by decide, wrapDetect_amended rfl rfl (by decide)⟩

/-! ### Round-trip infrastructure: `takeWhile` / `dropWhile` / strip facts -/

theorem takeWhile_eq_self_of_all {α : Type} (p : α → Bool) :
    ∀ l : List α, (∀ a ∈ l, p a = true) → l.takeWhile p = l := by
  intro l
  induction l with
  | nil => intro _; rfl
  | cons a t ih =>
    intro h
    rw [List.takeWhile_cons, h a (List.mem_cons_self _ _)]
    rw [ih (fun b hb => h b (List.mem_cons_of_mem _ hb))]
    rfl

theorem dropWhile_eq_nil_of_all {α : Type} (p : α → Bool) :
    ∀ l : List α, (∀ a ∈ l, p a = true) → l.dropWhile p = [] := by
  intro l
  induction l with
  | nil => intro _; rfl
  | cons a t ih =>
    intro h
    rw [List.dropWhile_cons, h a (List.mem_cons_self _ _)]
    exact ih (fun b hb => h b (List.mem_cons_of_mem _ hb))

theorem dropWhile_cons_of_neg {α : Type} (p : α → Bool) (a : α) (l : List α)
    (h : p a = false) : (a :: l).dropWhile p = a :: l := by
  rw [List.dropWhile_cons, h]
  simp

theorem takeWhile_append_all {α : Type} (p : α → Bool) :
    ∀ (l₁ : List α) (b : α) (l₂ : List α), (∀ a ∈ l₁, p a = true) → p b = false →
    (l₁ ++ b :: l₂).takeWhile p = l₁ := by
  intro l₁
  induction l₁ with
  | nil =>
    intro b l₂ _ hb
    rw [List.nil_append, List.takeWhile_cons, hb]
    simp
  | cons a t ih =>
    intro b l₂ h hb
    rw [List.cons_append, List.takeWhile_cons, h a (List.mem_cons_self _ _)]
    rw [ih b l₂ (fun c hc => h c (List.mem_cons_of_mem _ hc)) hb]
    rfl

theorem dropWhile_append_all {α : Type} (p : α → Bool) :
    ∀ (l₁ : List α) (b : α) (l₂ : List α), (∀ a ∈ l₁, p a = true) → p b = false →
    (l₁ ++ b :: l₂).dropWhile p = b :: l₂ := by
  intro l₁
  induction l₁ with
  | nil =>
    intro b l₂ _ hb
    rw [List.nil_append]
    exact dropWhile_cons_of_neg p b l₂ hb
  | cons a t ih =>
    intro b l₂ h hb
    rw [List.cons_append, List.dropWhile_cons, h a (List.mem_cons_self _ _)]
    simp only
    exact ih b l₂ (fun c hc => h c (List.mem_cons_of_mem _ hc)) hb

theorem dropWhile_all_left {α : Type} (p : α → Bool) :
    ∀ (w y : List α), (∀ a ∈ w, p a = true) → (w ++ y).dropWhile p = y.dropWhile p := by
  intro w
  induction w with
  | nil => intro y _; rfl
  | cons a t ih =>
    intro y h
    rw [List.cons_append, List.dropWhile_cons, h a (List.mem_cons_self _ _)]
    simp only
    exact ih y (fun c hc => h c (List.mem_cons_of_mem _ hc))

theorem dropWhile_append_last {α : Type} (p : α → Bool) (c : α) (hc : p c = false) :
    ∀ w : List α, (w ++ [c]).dropWhile p = w.dropWhile p ++ [c] := by
  intro w
  induction w with
  | nil => simp [List.dropWhile_cons, hc]
  | cons a t ih =>
    rw [List.cons_append, List.dropWhile_cons, List.dropWhile_cons]
    by_cases ha : p a
    · rw [ha]; simp only; exact ih
    · simp only [Bool.not_eq_true] at ha
      rw [ha]; simp

theorem stripL_ws_left (w y : List Char) (h : ∀ c ∈ w, isWs c = true) :
    stripL (w ++ y) = stripL y :=
  dropWhile_all_left isWs w y h

theorem stripR_ws_right (y w : List Char) (h : ∀ c ∈ w, isWs c = true) :
    stripR (y ++ w) = stripR y := by
  unfold stripR
  rw [List.reverse_append, dropWhile_all_left isWs w.reverse y.reverse
    (fun c hc => h c (List.mem_reverse.mp hc))]

theorem stripL_eq_self (l : List Char) (h : ∀ c ∈ l, isWs c = false) : stripL l = l := by
  match l with
  | [] => rfl
  | c :: t => exact dropWhile_cons_of_neg isWs c t (h c (List.mem_cons_self _ _))

theorem stripR_eq_self (l : List Char) (h : ∀ c ∈ l, isWs c = false) : stripR l = l := by
  unfold stripR
  rw [show l.reverse.dropWhile isWs = l.reverse from
    stripL_eq_self l.reverse (fun c hc => h c (List.mem_reverse.mp hc))]
  exact List.reverse_reverse l

theorem stripB_eq_self (l : List Char) (h : ∀ c ∈ l, isWs c = false) : stripB l = l := by
  unfold stripB stripL
  rw [show l.dropWhile isWs = l from stripL_eq_self l h]
  exact stripR_eq_self l h

theorem stripR_cons_head (c : Char) (t : List Char) (h : isWs c = false) :
    stripR (c :: t) = c :: stripR t := by
  unfold stripR
  rw [List.reverse_cons, dropWhile_append_last isWs c h]
  simp

theorem stripB_sandwich (w₁ x w₂ : List Char) (h₁ : ∀ c ∈ w₁, isWs c = true)
    (h₂ : ∀ c ∈ w₂, isWs c = true) (hx : stripB x = x) :
    stripB (w₁ ++ x ++ w₂) = x := by
  unfold stripB
  rw [List.append_assoc, show stripL (w₁ ++ (x ++ w₂)) = stripL (x ++ w₂) from
    stripL_ws_left w₁ (x ++ w₂) h₁]
  have hgen : ∀ y : List Char, stripR (stripL (y ++ w₂)) = stripR (stripL y) := by
    intro y
    induction y with
    | nil =>
      rw [List.nil_append,
        show stripL w₂ = [] from dropWhile_eq_nil_of_all isWs w₂ h₂]
      rfl
    | cons c t ih =>
      by_cases hc : isWs c = true
      · rw [List.cons_append,
          show stripL (c :: (t ++ w₂)) = stripL (t ++ w₂) from by
            unfold stripL; rw [List.dropWhile_cons, hc]; simp,
          show stripL (c :: t) = stripL t from by
            unfold stripL; rw [List.dropWhile_cons, hc]; simp]
        exact ih
      · simp only [Bool.not_eq_true] at hc
        rw [List.cons_append,
          show stripL (c :: (t ++ w₂)) = c :: (t ++ w₂) from
            dropWhile_cons_of_neg isWs c _ hc,
          show stripL (c :: t) = c :: t from dropWhile_cons_of_neg isWs c t hc]
        exact stripR_ws_right (c :: t) w₂ h₂
  rw [hgen x]
  exact hx

theorem intercalate_one {α : Type} (sep a : List α) :
    List.intercalate sep [a] = a := by
  simp [List.intercalate]

theorem intercalate_two {α : Type} (sep a b : List α) (t : List (List α)) :
    List.intercalate sep (a :: b :: t) = a ++ sep ++ List.intercalate sep (b :: t) := by
  simp [List.intercalate, List.intersperse]

/-! ### `pySplit` of a `joinSep` of whitespace-free tokens -/

theorem splitWsL_nil : splitWsL [] = [] := rfl

theorem splitWsL_ws_cons (c : Char) (l : List Char) (h : isWs c = true) :
    splitWsL (c :: l) = splitWsL l := by
  rw [splitWsL_eq, splitWsL_eq l]
  rw [show (c :: l).dropWhile isWs = l.dropWhile isWs from by
    rw [List.dropWhile_cons, h]; simp]

theorem splitWsL_single (l : List Char) (hne : l ≠ [])
    (h : ∀ c ∈ l, isWs c = false) : splitWsL l = [l] := by
  rw [splitWsL_eq]
  rw [show l.dropWhile isWs = l from stripL_eq_self l h]
  match l, hne with
  | c :: t, _ =>
    simp only [List.isEmpty_cons, Bool.false_eq_true, if_false]
    rw [takeWhile_eq_self_of_all _ _ (fun a ha => by rw [h a ha]; rfl)]
    rw [dropWhile_eq_nil_of_all _ _ (fun a ha => by rw [h a ha]; rfl)]
    rfl

theorem splitWsL_intercalate (cells : List (List Char))
    (h : ∀ l ∈ cells, l ≠ [] ∧ ∀ c ∈ l, isWs c = false) :
    splitWsL (List.intercalate [' '] cells) = cells := by
  induction cells with
  | nil => rfl
  | cons a t ih =>
    match t with
    | [] =>
      rw [intercalate_one]
      exact splitWsL_single a (h a (List.mem_cons_self _ _)).1
        (h a (List.mem_cons_self _ _)).2
    | b :: t' =>
      rw [intercalate_two]
      obtain ⟨hane, haws⟩ := h a (List.mem_cons_self _ _)
      have hrest : ∀ l ∈ b :: t', l ≠ [] ∧ ∀ c ∈ l, isWs c = false :=
        fun l hl => h l (List.mem_cons_of_mem _ hl)
      rw [List.append_assoc, List.singleton_append, splitWsL_eq]
      rw [show (a ++ ' ' :: List.intercalate [' '] (b :: t')).dropWhile isWs =
          a ++ ' ' :: List.intercalate [' '] (b :: t') from by
        match a, hane with
        | c :: t'', _ =>
          rw [List.cons_append]
          exact dropWhile_cons_of_neg isWs c _ (haws c (List.mem_cons_self _ _))]
      rw [show (a ++ ' ' :: List.intercalate [' '] (b :: t')).isEmpty = false from by
        match a, hane with
        | c :: t'', _ => rfl]
      simp only [Bool.false_eq_true, if_false]
      rw [takeWhile_append_all _ a ' ' _ (fun c hc => by rw [haws c hc]; rfl) (by rfl)]
      rw [dropWhile_append_all _ a ' ' _ (fun c hc => by rw [haws c hc]; rfl) (by rfl)]
      rw [splitWsL_ws_cons ' ' _ (by rfl)]
      rw [ih hrest]

theorem pySplit_joinSep (ls : List String)
    (h : ∀ s ∈ ls, s.data ≠ [] ∧ ∀ c ∈ s.data, isWs c = false) :
    pySplit (joinSep " " ls) = ls := by
  unfold pySplit joinSep
  rw [show (String.mk (List.intercalate " ".data (ls.map String.data))).data =
    List.intercalate [' '] (ls.map String.data) from rfl]
  rw [splitWsL_intercalate (ls.map String.data) ?hall]
  case hall =>
    intro l hl
    obtain ⟨s, hs, rfl⟩ := List.mem_map.mp hl
    exact h s hs
  rw [List.map_map]
  rw [show (String.mk ∘ String.data) = id from funext fun s => rfl, List.map_id]

/-! ### `pySplitlines` of a newline join -/

theorem splitNlL_append_nl (a : List Char) (rest : List Char)
    (h : ∀ c ∈ a, ¬ c = '\n') :
    splitNlL (a ++ '\n' :: rest) = a :: splitNlL rest := by
  induction a with
  | nil => simp [splitNlL]
  | cons c t ih =>
    have hc : (c == '\n') = false := by
      have := h c (List.mem_cons_self _ _)
      simp [this]
    rw [List.cons_append]
    show (if c == '\n' then [] :: splitNlL (t ++ '\n' :: rest)
      else match splitNlL (t ++ '\n' :: rest) with
      | [] => [[c]]
      | h :: t' => (c :: h) :: t') = (c :: t) :: splitNlL rest
    rw [hc]
    simp only [Bool.false_eq_true, if_false]
    rw [ih (fun d hd => h d (List.mem_cons_of_mem _ hd))]

theorem splitNlL_intercalate (ds : List (List Char)) (hne : ds ≠ [])
    (h : ∀ d ∈ ds, ∀ c ∈ d, ¬ c = '\n') :
    splitNlL (List.intercalate ['\n'] ds ++ ['\n']) = ds ++ [[]] := by
  induction ds with
  | nil => exact absurd rfl hne
  | cons a t ih =>
    match t with
    | [] =>
      rw [intercalate_one,
        splitNlL_append_nl a [] (h a (List.mem_cons_self _ _))]
      rfl
    | b :: t' =>
      rw [intercalate_two, List.append_assoc, List.append_assoc,
        List.singleton_append,
        splitNlL_append_nl a _ (h a (List.mem_cons_self _ _))]
      rw [ih (by simp) (fun d hd => h d (List.mem_cons_of_mem _ hd))]
      rfl

theorem pySplitlines_joinSep (ls : List String) (hne : ls ≠ [])
    (h : ∀ s ∈ ls, ∀ c ∈ s.data, ¬ c = '\n') :
    pySplitlines (joinSep "\n" ls ++ "\n") = ls := by
  have hdata : (joinSep "\n" ls ++ "\n").data =
      List.intercalate ['\n'] (ls.map String.data) ++ ['\n'] := rfl
  unfold pySplitlines
  rw [hdata]
  have hsplit : splitNlL (List.intercalate ['\n'] (ls.map String.data) ++ ['\n']) =
      ls.map String.data ++ [[]] := by
    apply splitNlL_intercalate
    · intro hc
      rw [List.map_eq_nil] at hc
      exact hne hc
    · intro d hd
      obtain ⟨s, hs, rfl⟩ := List.mem_map.mp hd
      exact h s hs
  rw [show (List.intercalate ['\n'] (ls.map String.data) ++ ['\n']).isEmpty = false from by
    match hi : List.intercalate ['\n'] (ls.map String.data) with
    | [] => rfl
    | c :: t => rfl]
  simp only [Bool.false_eq_true, if_false]
  rw [hsplit]
  have hlast : (ls.map String.data ++ [[]]).getLast? = some [] := List.getLast?_concat _
  rw [if_pos hlast]
  have hdl : (List.map String.data ls ++ [[]]).dropLast = List.map String.data ls := by
    simp
  rw [hdl, List.map_map, show (String.mk ∘ String.data) = id from funext fun s => rfl,
    List.map_id]

/-! ### Digit strings: `natDigits`, `digitsVal`, `fmt4`, `parseFloat` -/

theorem isWs_cases (c : Char) (h : isWs c = true) :
    c = ' ' ∨ c = '\t' ∨ c = '\n' ∨ c = '\r' ∨ c = '\x0b' ∨ c = '\x0c' := by
  simp only [isWs, Bool.or_eq_true, beq_iff_eq] at h
  tauto

theorem digit_not_ws (c : Char) (h : c.isDigit = true) : isWs c = false := by
  cases hw : isWs c
  · rfl
  · exfalso
    rcases isWs_cases c hw with h1 | h1 | h1 | h1 | h1 | h1 <;>
      (subst h1; exact absurd h (by decide))

theorem natDigits_all_digits (n : Nat) : ∀ c ∈ natDigits n, c.isDigit = true := by
  induction n using Nat.strong_induction_on with
  | _ n ih =>
    rw [natDigits_eq]
    by_cases h : n < 10
    · rw [if_pos h]
      intro c hc
      rw [List.mem_singleton] at hc
      subst hc
      have hall : ∀ m, m < 10 → (Char.ofNat (48 + m)).isDigit = true := by decide
      exact hall n h
    · rw [if_neg h]
      intro c hc
      rcases List.mem_append.mp hc with h1 | h1
      · exact ih (n / 10) (Nat.div_lt_self (by omega) (by norm_num)) c h1
      · rw [List.mem_singleton] at h1
        subst h1
        have hall : ∀ m, m < 10 → (Char.ofNat (48 + m)).isDigit = true := by decide
        exact hall (n % 10) (Nat.mod_lt _ (by omega))

theorem natDigits_ne_nil (n : Nat) : natDigits n ≠ [] := by
  rw [natDigits_eq]
  by_cases h : n < 10
  · rw [if_pos h]; simp
  · rw [if_neg h]; simp

theorem digitsVal_foldl (b : List Char) :
    ∀ init : Nat, b.foldl (fun a c => 10 * a + digVal c) init =
      init * 10 ^ b.length + digitsVal b := by
  induction b with
  | nil => intro init; simp [digitsVal]
  | cons c t ih =>
    intro init
    rw [List.foldl_cons, ih (10 * init + digVal c)]
    rw [show digitsVal (c :: t) = t.foldl (fun a c => 10 * a + digVal c) (10 * 0 + digVal c)
      from rfl]
    rw [ih (10 * 0 + digVal c)]
    simp only [List.length_cons]
    ring

theorem digitsVal_append (a b : List Char) :
    digitsVal (a ++ b) = digitsVal a * 10 ^ b.length + digitsVal b := by
  rw [show digitsVal (a ++ b) = (a ++ b).foldl (fun a c => 10 * a + digVal c) 0 from rfl,
    List.foldl_append]
  exact digitsVal_foldl b _

theorem digitsVal_natDigits (n : Nat) : digitsVal (natDigits n) = n := by
  induction n using Nat.strong_induction_on with
  | _ n ih =>
    rw [natDigits_eq]
    by_cases h : n < 10
    · rw [if_pos h]
      have hall : ∀ m, m < 10 → digitsVal [Char.ofNat (48 + m)] = m := by decide
      exact hall n h
    · rw [if_neg h]
      rw [digitsVal_append, ih (n / 10) (Nat.div_lt_self (by omega) (by norm_num))]
      have hall : ∀ m, m < 10 → digitsVal [Char.ofNat (48 + m)] = m := by decide
      rw [List.length_singleton, hall (n % 10) (Nat.mod_lt _ (by omega))]
      omega

theorem natDigits_len_le : ∀ (k : Nat) (n : Nat), n < 10 ^ (k + 1) →
    (natDigits n).length ≤ k + 1 := by
  intro k
  induction k with
  | zero =>
    intro n hn
    rw [natDigits_eq, if_pos (by omega : n < 10)]
    simp
  | succ k ih =>
    intro n hn
    rw [natDigits_eq]
    by_cases h : n < 10
    · rw [if_pos h]; simp
    · rw [if_neg h]
      rw [List.length_append, List.length_singleton]
      have hdiv : n / 10 < 10 ^ (k + 1) := by
        rw [Nat.div_lt_iff_lt_mul (by norm_num : 0 < 10)]
        calc n < 10 ^ (k + 1 + 1) := hn
        _ = 10 ^ (k + 1) * 10 := by ring
      have := ih (n / 10) hdiv
      omega

theorem padZeros_length (k : Nat) (ds : List Char) (h : ds.length ≤ k) :
    (padZeros k ds).length = k := by
  unfold padZeros
  rw [List.length_append, List.length_replicate]
  omega

theorem padZeros_all_digits (k : Nat) (ds : List Char)
    (h : ∀ c ∈ ds, c.isDigit = true) : ∀ c ∈ padZeros k ds, c.isDigit = true := by
  intro c hc
  rcases List.mem_append.mp hc with h1 | h1
  · rw [List.eq_of_mem_replicate h1]
    decide
  · exact h c h1

theorem digitsVal_padZeros (k : Nat) (ds : List Char) :
    digitsVal (padZeros k ds) = digitsVal ds := by
  unfold padZeros
  rw [show digitsVal (List.replicate (k - ds.length) '0' ++ ds) =
    (List.replicate (k - ds.length) '0' ++ ds).foldl (fun a c => 10 * a + digVal c) 0
    from rfl, List.foldl_append]
  have hz : List.foldl (fun a c => 10 * a + digVal c) 0 (List.replicate (k - ds.length) '0')
      = 0 := by
    generalize k - ds.length = j
    induction j with
    | zero => rfl
    | succ j ihj =>
      rw [List.replicate_succ, List.foldl_cons]
      simpa using ihj
  rw [hz]
  rfl

/-- Characters of `fmt4` output: a sign, a point or a digit. -/
theorem fmt4_char_class (q : ℚ) :
    ∀ c ∈ (fmt4 q).data, c = '-' ∨ c = '.' ∨ c.isDigit = true := by
  intro c hc
  rw [show (fmt4 q).data =
    (if round (q * 10000) < 0 then ['-'] else []) ++
      natDigits ((round (q * 10000)).natAbs / 10000) ++
      '.' :: padZeros 4 (natDigits ((round (q * 10000)).natAbs % 10000)) from rfl] at hc
  rcases List.mem_append.mp hc with h1 | h1
  · rcases List.mem_append.mp h1 with h2 | h2
    · left
      by_cases hs : round (q * 10000) < 0
      · rw [if_pos hs] at h2; exact (List.mem_singleton.mp h2)
      · rw [if_neg hs] at h2; cases h2
    · right; right; exact natDigits_all_digits _ c h2
  · rcases List.mem_cons.mp h1 with h2 | h2
    · right; left; exact h2
    · right; right
      exact padZeros_all_digits 4 _ (natDigits_all_digits _) c h2

theorem fmt4_not_ws (q : ℚ) : ∀ c ∈ (fmt4 q).data, isWs c = false := by
  intro c hc
  rcases fmt4_char_class q c hc with h | h | h
  · subst h; rfl
  · subst h; rfl
  · exact digit_not_ws c h

theorem fmt4_ne_nil (q : ℚ) : (fmt4 q).data ≠ [] := by
  rw [show (fmt4 q).data =
    (if round (q * 10000) < 0 then ['-'] else []) ++
      natDigits ((round (q * 10000)).natAbs / 10000) ++
      '.' :: padZeros 4 (natDigits ((round (q * 10000)).natAbs % 10000)) from rfl]
  intro h
  rcases List.append_eq_nil.mp h with ⟨h1, -⟩
  rcases List.append_eq_nil.mp h1 with ⟨-, h2⟩
  exact natDigits_ne_nil _ h2

/-- The head of `fmt4` output is a sign or a digit (so a data row is
never mistaken for a comment, a blank line or a section line). -/
theorem fmt4_head (q : ℚ) :
    ∃ c t, (fmt4 q).data = c :: t ∧ (c = '-' ∨ c.isDigit = true) := by
  rw [show (fmt4 q).data =
    (if round (q * 10000) < 0 then ['-'] else []) ++
      natDigits ((round (q * 10000)).natAbs / 10000) ++
      '.' :: padZeros 4 (natDigits ((round (q * 10000)).natAbs % 10000)) from rfl]
  by_cases hs : round (q * 10000) < 0
  · rw [if_pos hs]
    exact ⟨'-', _, rfl, Or.inl rfl⟩
  · rw [if_neg hs]
    obtain ⟨d, ds, hds⟩ :=
      List.exists_cons_of_ne_nil (natDigits_ne_nil ((round (q * 10000)).natAbs / 10000))
    rw [List.nil_append, hds, List.cons_append]
    refine ⟨d, _, rfl, Or.inr ?_⟩
    exact natDigits_all_digits _ d (hds ▸ List.mem_cons_self _ _)

/-- Core of the `fmt4` round trip: `float()` on an optional minus sign,
an integer digit run, a point and a fractional digit run. -/
theorem parseFloat_core (neg : Bool) (a b : List Char) (hane : a ≠ [])
    (ha : ∀ c ∈ a, c.isDigit = true) (hb : ∀ c ∈ b, c.isDigit = true) :
    parseFloat (String.mk ((if neg then ['-'] else []) ++ a ++ '.' :: b)) =
      some ((if neg then (-1 : ℚ) else 1) * (digitsVal (a ++ b) : ℚ) *
        (10 : ℚ) ^ (-(b.length : ℤ))) := by
  obtain ⟨d, ds, rfl⟩ := List.exists_cons_of_ne_nil hane
  have hd : d.isDigit = true := ha d (List.mem_cons_self _ _)
  have hnws : ∀ c ∈ (if neg then ['-'] else []) ++ (d :: ds) ++ '.' :: b, isWs c = false := by
    intro c hc
    rcases List.mem_append.mp hc with h1 | h1
    · rcases List.mem_append.mp h1 with h2 | h2
      · cases neg with
        | true =>
          have h3 : c = '-' := by simpa using h2
          subst h3
          rfl
        | false => simp at h2
      · exact digit_not_ws c (ha c h2)
    · rcases List.mem_cons.mp h1 with h2 | h2
      · subst h2; rfl
      · exact digit_not_ws c (hb c h2)
  unfold parseFloat
  rw [show (String.mk ((if neg then ['-'] else []) ++ (d :: ds) ++ '.' :: b)).data =
    (if neg then ['-'] else []) ++ (d :: ds) ++ '.' :: b from rfl]
  rw [stripB_eq_self _ hnws]
  have htake : (d :: (ds ++ '.' :: b)).takeWhile Char.isDigit = d :: ds := by
    rw [← List.cons_append]
    exact takeWhile_append_all Char.isDigit (d :: ds) '.' b ha (by decide)
  have hdrop : (d :: (ds ++ '.' :: b)).dropWhile Char.isDigit = '.' :: b := by
    rw [← List.cons_append]
    exact dropWhile_append_all Char.isDigit (d :: ds) '.' b ha (by decide)
  have htakeb : b.takeWhile Char.isDigit = b := takeWhile_eq_self_of_all Char.isDigit b hb
  have hdropb : b.dropWhile Char.isDigit = [] := dropWhile_eq_nil_of_all Char.isDigit b hb
  cases neg with
  | true =>
    simp only [if_true, List.singleton_append, List.cons_append, List.nil_append]
    simp [htake, hdrop, htakeb, hdropb]
  | false =>
    have hdne : ¬ d = '-' := fun h => absurd (h ▸ hd) (by decide)
    have hdnp : ¬ d = '+' := fun h => absurd (h ▸ hd) (by decide)
    simp only [if_false, List.nil_append, List.cons_append]
    simp [hdne, hdnp, htake, hdrop, htakeb, hdropb]

/-- `f"{v:.4f}"` parses back to the value rounded to 4 decimals. -/
theorem parseFloat_fmt4 (q : ℚ) :
    parseFloat (fmt4 q) = some ((round (q * 10000) : ℚ) / 10000) := by
  set n : ℤ := round (q * 10000) with hn
  have hcore := parseFloat_core (decide (n < 0)) (natDigits (n.natAbs / 10000))
    (padZeros 4 (natDigits (n.natAbs % 10000))) (natDigits_ne_nil _)
    (natDigits_all_digits _) (padZeros_all_digits 4 _ (natDigits_all_digits _))
  have hiff : (if n < 0 then ['-'] else []) =
      (if decide (n < 0) = true then ['-'] else []) := by
    by_cases h : n < 0
    · rw [if_pos h, if_pos (by simpa using h)]
    · rw [if_neg h, if_neg (by simpa using h)]
  have hfmt : fmt4 q = String.mk ((if decide (n < 0) = true then ['-'] else []) ++
      natDigits (n.natAbs / 10000) ++
      '.' :: padZeros 4 (natDigits (n.natAbs % 10000))) := by
    unfold fmt4
    rw [← hn, ← hiff]
  rw [hfmt, hcore]
  have hlen : (padZeros 4 (natDigits (n.natAbs % 10000))).length = 4 :=
    padZeros_length 4 _ (natDigits_len_le 3 _ (by omega : n.natAbs % 10000 < 10 ^ 4))
  have hval : digitsVal (natDigits (n.natAbs / 10000) ++
      padZeros 4 (natDigits (n.natAbs % 10000))) = n.natAbs := by
    rw [digitsVal_append, hlen, digitsVal_padZeros, digitsVal_natDigits, digitsVal_natDigits]
    omega
  rw [hval, hlen]
  congr 1
  have hzpow : (10 : ℚ) ^ (-((4 : ℕ) : ℤ)) = 1 / 10000 := by norm_num
  rw [hzpow]
  by_cases h : n < 0
  · rw [if_pos (by simpa using h)]
    have habs : (n.natAbs : ℚ) = -(n : ℚ) := by
      rw [Int.cast_natAbs, Int.cast_abs]
      exact abs_of_neg (by exact_mod_cast h)
    rw [habs]
    ring
  · rw [if_neg (by simpa using h)]
    have habs : (n.natAbs : ℚ) = (n : ℚ) := by
      rw [Int.cast_natAbs, Int.cast_abs]
      exact abs_of_nonneg (by exact_mod_cast (show (0 : ℤ) ≤ n by omega))
    rw [habs]
    ring

/-- The 4-decimal rounding of the writer stays within half an ulp. -/
theorem round4_close (q : ℚ) :
    |(round (q * 10000) : ℚ) / 10000 - q| ≤ 1 / 20000 := by
  have h : |(round (q * 10000) : ℚ) - q * 10000| ≤ 1 / 2 := by
    rw [abs_sub_comm]
    exact abs_sub_round (q * 10000)
  have heq : (round (q * 10000) : ℚ) / 10000 - q =
      ((round (q * 10000) : ℚ) - q * 10000) / 10000 := by ring
  rw [heq, abs_div, abs_of_pos (by norm_num : (0 : ℚ) < 10000)]
  calc |(round (q * 10000) : ℚ) - q * 10000| / 10000 ≤ (1 / 2) / 10000 :=
        (div_le_div_right (by norm_num : (0 : ℚ) < 10000)).mpr h
  _ = 1 / 20000 := by norm_num

/-! ### The header matcher on writer-generated lines -/

theorem ws_not_mnem (c : Char) (h : isWs c = true) : isMnemChar c = false := by
  rcases isWs_cases c h with h1 | h1 | h1 | h1 | h1 | h1 <;> (subst h1; decide)

theorem mnem_not_ws (c : Char) (h : isMnemChar c = true) : isWs c = false := by
  cases hw : isWs c
  · rfl
  · rw [ws_not_mnem c hw] at h; cases h

theorem ws_not_unit (c : Char) (h : isWs c = true) : isUnitChar c = false := by
  rcases isWs_cases c h with h1 | h1 | h1 | h1 | h1 | h1 <;> (subst h1; decide)

theorem ws_ne_colon (c : Char) (h : isWs c = true) : (c != ':') = true := by
  rcases isWs_cases c h with h1 | h1 | h1 | h1 | h1 | h1 <;> (subst h1; decide)

theorem dataLineMatch_generic (line : String) (m u sp₁ v sp₂ rest : List Char)
    (hline : line.data = ' ' :: (m ++ '.' :: (u ++ (sp₁ ++ (v ++ (sp₂ ++ ':' :: rest))))))
    (hm : m ≠ []) (hmc : ∀ c ∈ m, isMnemChar c = true)
    (hu : ∀ c ∈ u, isUnitChar c = true)
    (hsp₁ : sp₁ ≠ []) (hsp₁w : ∀ c ∈ sp₁, isWs c = true)
    (hsp₂w : ∀ c ∈ sp₂, isWs c = true)
    (hvc : ∀ c ∈ v, (c != ':') = true) (hvs : stripB v = v) :
    dataLineMatch line =
      some ⟨String.mk m, String.mk u, String.mk v, some (String.mk (stripB rest))⟩ := by
  obtain ⟨mc, mt, rfl⟩ := List.exists_cons_of_ne_nil hm
  obtain ⟨w0, spt, rfl⟩ := List.exists_cons_of_ne_nil hsp₁
  have hmw : isWs mc = false := mnem_not_ws mc (hmc mc (List.mem_cons_self _ _))
  have hw0 : isWs w0 = true := hsp₁w w0 (List.mem_cons_self _ _)
  unfold dataLineMatch matchMnemDot
  rw [hline]
  rw [show stripL (' ' :: ((mc :: mt) ++ '.' :: (u ++ ((w0 :: spt) ++ (v ++ (sp₂ ++ ':' :: rest)))))) =
      (mc :: mt) ++ '.' :: (u ++ ((w0 :: spt) ++ (v ++ (sp₂ ++ ':' :: rest)))) from by
    unfold stripL
    rw [List.dropWhile_cons]
    simp only [show isWs ' ' = true from rfl, if_true]
    rw [List.cons_append]
    exact dropWhile_cons_of_neg isWs mc _ hmw]
  dsimp only
  rw [takeWhile_append_all isMnemChar (mc :: mt) '.' _ hmc (by decide)]
  rw [dropWhile_append_all isMnemChar (mc :: mt) '.' _ hmc (by decide)]
  simp only [show (mc :: mt).isEmpty = false from rfl, Bool.false_eq_true, if_false,
    show (('.' : Char) == '[') = false from rfl]
  rw [show stripL ('.' :: (u ++ (w0 :: spt ++ (v ++ (sp₂ ++ ':' :: rest))))) =
      '.' :: (u ++ (w0 :: spt ++ (v ++ (sp₂ ++ ':' :: rest)))) from by
    unfold stripL
    exact dropWhile_cons_of_neg isWs '.' _ (by decide)]
  simp only [show (('.' : Char) == '.') = true from rfl, if_true]
  simp only [List.cons_append]
  rw [takeWhile_append_all isUnitChar u w0 _ hu (ws_not_unit w0 hw0)]
  rw [dropWhile_append_all isUnitChar u w0 _ hu (ws_not_unit w0 hw0)]
  have hshape : w0 :: (spt ++ (v ++ (sp₂ ++ ':' :: rest))) =
      (w0 :: (spt ++ (v ++ sp₂))) ++ ':' :: rest := by
    simp [List.append_assoc]
  rw [hshape]
  have hseg : ∀ c ∈ w0 :: (spt ++ (v ++ sp₂)), (c != ':') = true := by
    intro c hc
    rcases List.mem_cons.mp hc with h1 | h1
    · rw [h1]; exact ws_ne_colon w0 hw0
    · rcases List.mem_append.mp h1 with h2 | h2
      · exact ws_ne_colon c (hsp₁w c (List.mem_cons_of_mem _ h2))
      · rcases List.mem_append.mp h2 with h3 | h3
        · exact hvc c h3
        · exact ws_ne_colon c (hsp₂w c h3)
  rw [takeWhile_append_all _ (w0 :: (spt ++ (v ++ sp₂))) ':' rest hseg (by decide)]
  rw [dropWhile_append_all _ (w0 :: (spt ++ (v ++ sp₂))) ':' rest hseg (by decide)]
  simp only [show ((':' : Char) == ':') = true from rfl, if_true, hw0]
  have hstrip : stripB (w0 :: (spt ++ (v ++ sp₂))) = v := by
    rw [show w0 :: (spt ++ (v ++ sp₂)) = (w0 :: spt) ++ v ++ sp₂ from by
      simp [List.append_assoc]]
    exact stripB_sandwich (w0 :: spt) v sp₂ hsp₁w hsp₂w hvs
  rw [hstrip]


/-- A `DATA_LINE_PATTERN` success is the result of `_match_data_line`. -/
theorem matchDataLine_of_data {line : String} {hm : HeaderMatch}
    (h : dataLineMatch line = some hm) : matchDataLine line = some hm := by
  unfold matchDataLine
  rw [h]

/-! ### Line classification on writer-generated lines -/

theorem sectionMatch_of_head {c : Char} (t : List Char) (h : ¬ c = '~') :
    sectionMatch (String.mk (c :: t)) = none := by
  unfold sectionMatch
  match t with
  | [] => rfl
  | b :: u =>
    have hc : (c == '~') = false := by simpa using h
    simp [hc]

theorem isCommentLine_of_head {c : Char} (t : List Char) (hws : isWs c = false)
    (h : ¬ c = '#') : isCommentLine (String.mk (c :: t)) = false := by
  unfold isCommentLine
  rw [show stripL (c :: t) = c :: t from dropWhile_cons_of_neg isWs c t hws]
  simpa using h

theorem isEmptyLine_of_head {c : Char} (t : List Char) (hws : isWs c = false) :
    isEmptyLine (String.mk (c :: t)) = false := by
  unfold isEmptyLine
  rw [show stripL (c :: t) = c :: t from dropWhile_cons_of_neg isWs c t hws]
  rfl

theorem isCommentLine_blank_head {c : Char} {d : Char} (t : List Char)
    (hc : isWs c = true) (hws : isWs d = false) (h : ¬ d = '#') :
    isCommentLine (String.mk (c :: d :: t)) = false := by
  unfold isCommentLine
  rw [show stripL (c :: d :: t) = d :: t from by
    unfold stripL
    rw [List.dropWhile_cons, hc]
    simp only [if_true]
    exact dropWhile_cons_of_neg isWs d t hws]
  simpa using h

theorem isEmptyLine_blank_head {c : Char} {d : Char} (t : List Char)
    (hc : isWs c = true) (hws : isWs d = false) :
    isEmptyLine (String.mk (c :: d :: t)) = false := by
  unfold isEmptyLine
  rw [show stripL (c :: d :: t) = d :: t from by
    unfold stripL
    rw [List.dropWhile_cons, hc]
    simp only [if_true]
    exact dropWhile_cons_of_neg isWs d t hws]
  rfl

/-! ### `parseLine` dispatch lemmas -/

theorem parseLine_section (mb : Dict String) (st : PState) (line : String)
    (c : Char) (r : String) (hsm : sectionMatch line = some (c, r))
    (hnf : ¬ (String.mk [c.toUpper] = "A" ∧ st.currentSection = some "A")) :
    parseLine mb st line = some { st with
      currentSection := some (String.mk [c.toUpper]),
      currentSectionName := pyStrip r } := by
  unfold parseLine
  rw [hsm]
  dsimp only
  rw [if_neg hnf]
  rfl

theorem parseLine_content (mb : Dict String) (st : PState) (line : String)
    (hsm : sectionMatch line = none) (hcm : isCommentLine line = false)
    (hem : isEmptyLine line = false) :
    parseLine mb st line = (match st.currentSection with
      | none => some st
      | some sec =>
        if sec = "V" then
          let r := parseVersionLine st.file st.wrapMode line
          some { st with file := r.1, wrapMode := r.2 }
        else if sec = "W" then some { st with file := parseWellLine st.file line }
        else if sec = "C" then
          (parseCurveLine mb st.file line).map (fun f => { st with file := f })
        else if sec = "P" then some { st with file := parseParamLine st.file line }
        else if sec = "O" then
          some { st with file := { st.file with other := st.file.other ++ line ++ "\n" } }
        else if sec = "A" then
          some { st with asciiDataLines := st.asciiDataLines ++ [line] }
        else some st) := by
  unfold parseLine
  rw [hsm]
  dsimp only
  rw [if_neg (by simp [hcm, hem])]

theorem parseLine_wellSec (mb : Dict String) (st : PState) (line : String)
    (hsec : st.currentSection = some "W") (hsm : sectionMatch line = none)
    (hcm : isCommentLine line = false) (hem : isEmptyLine line = false) :
    parseLine mb st line = some { st with file := parseWellLine st.file line } := by
  rw [parseLine_content mb st line hsm hcm hem, hsec]
  dsimp only
  rw [if_neg (by decide), if_pos rfl]

theorem parseLine_verSec (mb : Dict String) (st : PState) (line : String)
    (hsec : st.currentSection = some "V") (hsm : sectionMatch line = none)
    (hcm : isCommentLine line = false) (hem : isEmptyLine line = false) :
    parseLine mb st line = some { st with
      file := (parseVersionLine st.file st.wrapMode line).1,
      wrapMode := (parseVersionLine st.file st.wrapMode line).2 } := by
  rw [parseLine_content mb st line hsm hcm hem, hsec]
  dsimp only
  rw [if_pos rfl]

theorem parseLine_curveSec (mb : Dict String) (st : PState) (line : String)
    (hsec : st.currentSection = some "C") (hsm : sectionMatch line = none)
    (hcm : isCommentLine line = false) (hem : isEmptyLine line = false) :
    parseLine mb st line =
      (parseCurveLine mb st.file line).map (fun f => { st with file := f }) := by
  rw [parseLine_content mb st line hsm hcm hem, hsec]
  dsimp only
  rw [if_neg (by decide), if_neg (by decide), if_pos rfl]

theorem parseLine_asciiSec (mb : Dict String) (st : PState) (line : String)
    (hsec : st.currentSection = some "A") (hsm : sectionMatch line = none)
    (hcm : isCommentLine line = false) (hem : isEmptyLine line = false) :
    parseLine mb st line =
      some { st with asciiDataLines := st.asciiDataLines ++ [line] } := by
  rw [parseLine_content mb st line hsm hcm hem, hsec]
  dsimp only
  rw [if_neg (by decide), if_neg (by decide), if_neg (by decide), if_neg (by decide),
    if_neg (by decide), if_pos rfl]

/-! ### `preScan` stepping -/

theorem preScanLoop_unfold (line : String) (rest : List String) (inAscii : Bool)
    (n : Nat) :
    preScanLoop (line :: rest) inAscii n =
      match sectionMatch line with
      | some (c, _) => preScanLoop rest (c.toUpper == 'A') n
      | none =>
        if inAscii && !isCommentLine line && !isEmptyLine line then
          preScanLoop rest inAscii (n + 1)
        else preScanLoop rest inAscii n := rfl

theorem preScanLoop_section (line : String) (rest : List String) (inAscii : Bool)
    (n : Nat) (c : Char) (r : String) (h : sectionMatch line = some (c, r)) :
    preScanLoop (line :: rest) inAscii n = preScanLoop rest (c.toUpper == 'A') n := by
  rw [preScanLoop_unfold, h]

theorem preScanLoop_outside (line : String) (rest : List String) (n : Nat)
    (h : sectionMatch line = none) :
    preScanLoop (line :: rest) false n = preScanLoop rest false n := by
  rw [preScanLoop_unfold, h]
  simp

theorem preScanLoop_rows (rows : List String) :
    ∀ n : Nat,
    (∀ l ∈ rows, sectionMatch l = none ∧ isCommentLine l = false ∧ isEmptyLine l = false) →
    preScanLoop rows true n = n + rows.length := by
  induction rows with
  | nil => intro n _; rfl
  | cons l rest ih =>
    intro n h
    obtain ⟨h1, h2, h3⟩ := h l (List.mem_cons_self _ _)
    rw [preScanLoop_unfold, h1]
    dsimp only
    rw [h2, h3]
    simp only [Bool.not_false, Bool.and_true, Bool.true_and, if_true]
    rw [ih (n + 1) (fun l' hl' => h l' (List.mem_cons_of_mem _ hl'))]
    simp only [List.length_cons]
    omega

/-! ### `dataRowsFrom` stepping -/

theorem pyStarts_A_of_starts (s : String) (h : pyStarts s "~A" = true) :
    pyStarts s "~" = true := by
  unfold pyStarts at *
  rw [show ("~A" : String).data = ['~', 'A'] from rfl] at h
  rw [show ("~" : String).data = ['~'] from rfl]
  match hd : s.data with
  | [] => rw [hd] at h; simp [List.isPrefixOf] at h
  | c :: t =>
    rw [hd] at h
    simp only [List.isPrefixOf, Bool.and_eq_true] at h
    simp only [List.isPrefixOf, Bool.and_true]
    exact h.1

theorem dataRowsFrom_skip (line : String) (rest : List String)
    (h : pyStarts (pyStrip line) "~A" = false) :
    dataRowsFrom (line :: rest) false = dataRowsFrom rest false := by
  simp only [dataRowsFrom]
  by_cases h1 : pyStarts (pyStrip line) "~" = true
  · simp [h1, h]
  · simp only [Bool.not_eq_true] at h1
    simp [h1]

theorem dataRowsFrom_mark (line : String) (rest : List String) (b : Bool)
    (h : pyStarts (pyStrip line) "~A" = true) :
    dataRowsFrom (line :: rest) b = dataRowsFrom rest true := by
  simp only [dataRowsFrom]
  simp [pyStarts_A_of_starts _ h, h]

theorem dataRowsFrom_row (line : String) (rest : List String)
    (h1 : pyStarts (pyStrip line) "~" = false)
    (h2 : ¬ pyStrip line = "") (h3 : pyStarts (pyStrip line) "#" = false) :
    dataRowsFrom (line :: rest) true = pyStrip line :: dataRowsFrom rest true := by
  simp only [dataRowsFrom]
  simp [h1, h2, h3]

/-! ### Key preservation through array stores -/

theorem dinsert_keys {α : Type} (d : Dict α) (k : String) (v : α)
    (h : dmem d k = true) : (dinsert d k v).map Prod.fst = d.map Prod.fst := by
  induction d with
  | nil => simp [dmem, dget?] at h
  | cons p t ih =>
    unfold dinsert
    by_cases hk : p.1 = k
    · rw [if_pos hk]
      simp [hk]
    · rw [if_neg hk]
      simp only [List.map_cons, List.cons.injEq, true_and]
      apply ih
      have h' : (dget? (p :: t) k).isSome = true := h
      rw [show dget? (p :: t) k = if p.1 = k then some p.2 else dget? t k from by
        match p with | (a, b) => rfl] at h'
      rw [if_neg hk] at h'
      exact h' 

theorem storeCell_keys {logs logs' : Dict (List ℚ)} {name : String} {i : Nat} {q : ℚ}
    (h : storeCell logs name i q = some logs') :
    logs'.map Prod.fst = logs.map Prod.fst := by
  obtain ⟨arr, hget, _, heq⟩ := storeCell_get h
  rw [heq]
  apply dinsert_keys
  unfold dmem
  rw [hget]
  rfl

theorem writesAt_keys (is : List Nat) :
    ∀ {order : List String} {cl : Nat} {g : Nat → ℚ} {logs logs' : Dict (List ℚ)},
    writesAt order cl g logs is = some logs' →
    logs'.map Prod.fst = logs.map Prod.fst := by
  induction is with
  | nil =>
    intro _ _ _ logs logs' h
    injection h with h
    rw [h]
  | cons i rest ih =>
    intro order cl g logs logs' h
    simp only [writesAt] at h
    match hs : storeCell logs (order.getD i "") cl (g i) with
    | none => rw [hs] at h; exact absurd h (by simp)
    | some logs₁ =>
      rw [hs] at h
      rw [ih h, storeCell_keys hs]

theorem storeRow_keys {logs logs' : Dict (List ℚ)} {order : List String} {cc cl : Nat}
    {vals : List String} {nullV : ℚ}
    (h : storeRow logs order cc cl vals nullV = some logs') :
    logs'.map Prod.fst = logs.map Prod.fst := by
  unfold storeRow at h
  rw [storeParsedIdx_eq_writesAt] at h
  match hp : writesAt order cl (fun k => (parseFloat (vals.getD k "")).getD nullV) logs
      (List.range (min vals.length cc)) with
  | none => rw [hp] at h; exact absurd h (by simp)
  | some logs₁ =>
    rw [hp] at h
    dsimp only at h
    rw [storeNullIdx_eq_writesAt] at h
    rw [writesAt_keys _ h, writesAt_keys _ hp]

theorem rowsLoop_keys (rows : List String) :
    ∀ {order : List String} {cc : Nat} {nullV : ℚ} {cl : Nat} {logs logs' : Dict (List ℚ)},
    rowsLoop order cc nullV rows cl logs = some logs' →
    logs'.map Prod.fst = logs.map Prod.fst := by
  induction rows with
  | nil =>
    intro _ _ _ _ logs logs' h
    injection h with h
    rw [h]
  | cons row rest ih =>
    intro order cc nullV cl logs logs' h
    simp only [rowsLoop] at h
    match hs : storeRow logs order cc cl (pySplit row) nullV with
    | none => rw [hs] at h; exact absurd h (by simp)
    | some logs₁ =>
      rw [hs] at h
      dsimp only at h
      rw [ih h, storeRow_keys hs]

/-! ### Miscellaneous evaluation lemmas for the round trip -/

theorem fmtSearch_no_brace (cs : List Char) (h : ∀ c ∈ cs, ¬ c = '\x7b') :
    fmtSearch cs = none := by
  induction cs with
  | nil => rfl
  | cons c t ih =>
    unfold fmtSearch
    have hc : (c == '\x7b') = false := by
      simpa using h c (List.mem_cons_self _ _)
    rw [show fmtSpecHere (c :: t) = none from by
      unfold fmtSpecHere
      match t with
      | [] => rfl
      | f :: u => simp [hc]]
    exact ih (fun d hd => h d (List.mem_cons_of_mem _ hd))

theorem arrayMnemMatch_plain (s : String) (h : ∀ c ∈ s.data, isMnemChar c = true) :
    arrayMnemMatch s = none := by
  unfold arrayMnemMatch
  dsimp only
  rw [dropWhile_eq_nil_of_all isMnemChar s.data h]
  split
  · rfl
  · rfl

theorem legacyCell_eval (las : LASFile) (nullV : ℚ) (i : Nat) (name : String)
    (arrD : List ℚ) (hsd : las.stringData = [])
    (hlog : dget? las.logs name = some arrD) (hi : i < arrD.length) :
    legacyCell las nullV i name = fmt4 (arrD.getD i 0) := by
  unfold legacyCell
  rw [hsd, hlog]
  dsimp only
  rw [show dget? ([] : Dict (List String)) name = none from rfl]
  dsimp only
  rw [if_neg (by simp), if_pos (by simpa using hi)]
  rfl

/-! ### Writer-shaped header lines under the parser -/

theorem parseWellLine_mk (f : LASFile) (k v : String)
    (hk : k.data ≠ []) (hkc : ∀ c ∈ k.data, isMnemChar c = true)
    (hku : pyUpper k = k)
    (hvc : ∀ c ∈ v.data, (c != ':') = true) (hvs : stripB v.data = v.data) :
    parseWellLine f (" " ++ k ++ ".   " ++ v ++ "  :") =
      { f with well := dinsert f.well k v } := by
  have hline : (" " ++ k ++ ".   " ++ v ++ "  :").data =
      ' ' :: (k.data ++ '.' :: ([] ++ ([' ', ' ', ' '] ++ (v.data ++ ([' ', ' '] ++ ':' :: []))))) := by
    simp
  have hmatch := dataLineMatch_generic (" " ++ k ++ ".   " ++ v ++ "  :")
    k.data [] [' ', ' ', ' '] v.data [' ', ' '] [] hline hk hkc (by simp)
    (by simp) (by decide) (by decide) hvc hvs
  unfold parseWellLine
  rw [matchDataLine_of_data hmatch]
  dsimp only
  have hk2 : pyStrip (pyUpper ({ data := k.data } : String)) = k := by
    have he : ({ data := k.data } : String) = k := rfl
    rw [he, hku]
    show ({ data := stripB k.data } : String) = k
    rw [stripB_eq_self k.data (fun c hc => mnem_not_ws c (hkc c hc))]
  have hv2 : pyStrip ({ data := v.data } : String) = v := by
    show ({ data := stripB v.data } : String) = v
    rw [hvs]
  rw [hk2, hv2]


theorem parseVersionLine_versLine (f : LASFile) (wm : Bool) (vers : String)
    (hvc : ∀ c ∈ vers.data, (c != ':') = true) (hvs : stripB vers.data = vers.data) :
    parseVersionLine f wm (" VERS.   " ++ vers ++ "  : CWLS LOG ASCII STANDARD") =
      ({ f with version := { f.version with vers := vers } }, wm) := by
  have hline : (" VERS.   " ++ vers ++ "  : CWLS LOG ASCII STANDARD").data =
      ' ' :: (['V', 'E', 'R', 'S'] ++ '.' :: ([] ++ ([' ', ' ', ' '] ++ (vers.data ++
        ([' ', ' '] ++ ':' :: (' ' :: "CWLS LOG ASCII STANDARD".data)))))) := by
    simp
  have hmatch := dataLineMatch_generic _ ['V', 'E', 'R', 'S'] [] [' ', ' ', ' ']
    vers.data [' ', ' '] (' ' :: "CWLS LOG ASCII STANDARD".data) hline (by simp)
    (by decide) (by simp) (by simp) (by decide) (by decide) hvc hvs
  unfold parseVersionLine
  rw [matchDataLine_of_data hmatch]
  dsimp only
  rw [show pyStrip (pyUpper ({ data := ['V', 'E', 'R', 'S'] } : String)) = "VERS" from by
    decide]
  rw [if_pos rfl]
  have hv2 : pyStrip ({ data := vers.data } : String) = vers := by
    show ({ data := stripB vers.data } : String) = vers
    rw [hvs]
  rw [hv2]

theorem parseVersionLine_wrapLine (f : LASFile) (wm : Bool) :
    parseVersionLine f wm " WRAP.   NO  : ONE LINE PER DEPTH STEP" =
      ({ f with version := { f.version with wrap := "NO" } }, false) := by
  unfold parseVersionLine
  rw [show matchDataLine " WRAP.   NO  : ONE LINE PER DEPTH STEP" =
    some ⟨"WRAP", "", "NO", some "ONE LINE PER DEPTH STEP"⟩ from by decide]
  dsimp only
  rw [show pyStrip (pyUpper "WRAP") = "WRAP" from by decide]
  rw [if_neg (by decide), if_pos rfl]
  rw [show pyUpper (pyStrip "NO") = "NO" from by decide]
  rfl

theorem parseCurveLine_mk (f : LASFile) (mn un de : String)
    (hm : mn.data ≠ []) (hmc : ∀ c ∈ mn.data, isMnemChar c = true)
    (hmu : pyUpper mn = mn)
    (hun : ∀ c ∈ un.data, isUnitChar c = true)
    (hds : stripB de.data = de.data) (hdb : ∀ c ∈ de.data, ¬ c = '\x7b') :
    parseCurveLine [] f (" " ++ mn ++ "." ++ un ++ "  : " ++ de) =
      some { f with
        curves := f.curves ++ [CurveDefinition.mk mn un "" de "" "" none],
        curvesOrder := f.curvesOrder ++ [mn] } := by
  have hline : (" " ++ mn ++ "." ++ un ++ "  : " ++ de).data =
      ' ' :: (mn.data ++ '.' :: (un.data ++ ([' ', ' '] ++ ([] ++ ([] ++ ':' ::
        (' ' :: de.data)))))) := by
    simp
  have hmatch := dataLineMatch_generic _ mn.data un.data [' ', ' '] [] []
    (' ' :: de.data) hline hm hmc hun (by simp) (by decide) (by simp) (by simp) (by rfl)
  have hdesc : stripB (' ' :: de.data) = de.data := by
    rw [show ' ' :: de.data = [' '] ++ de.data ++ [] from by simp]
    exact stripB_sandwich [' '] de.data [] (by decide) (by simp) hds
  unfold parseCurveLine
  rw [matchDataLine_of_data hmatch]
  dsimp only
  have hk2 : pyStrip (pyUpper ({ data := mn.data } : String)) = mn := by
    have he : ({ data := mn.data } : String) = mn := rfl
    rw [he, hmu]
    show ({ data := stripB mn.data } : String) = mn
    rw [stripB_eq_self mn.data (fun c hc => mnem_not_ws c (hmc c hc))]
  rw [hk2, hdesc]
  simp only [Option.getD_some]
  rw [show ({ data := de.data } : String) = de from rfl]
  rw [fmtSearch_no_brace de.data hdb]
  dsimp only
  rw [arrayMnemMatch_plain mn hmc]
  dsimp only
  rw [show dgetD ([] : Dict String) mn mn = mn from rfl]
  rw [if_neg (show ¬ mn ≠ mn from by simp)]
  rfl

theorem string_eq_mk {line : String} {l : List Char} (hd : line.data = l) :
    line = String.mk l := congrArg String.mk hd

/-- Syntactic side conditions on a Well entry under which its written
line parses back to the same key and value. -/
def WellEntryOK (p : String × String) : Prop :=
  p.1.data ≠ [] ∧ (∀ c ∈ p.1.data, isMnemChar c = true) ∧ pyUpper p.1 = p.1 ∧
  (∀ c ∈ p.2.data, (c != ':') = true) ∧ stripB p.2.data = p.2.data ∧
  (∀ c ∈ p.2.data, ¬ c = '\n')

theorem parse_well_fold (mb : Dict String) (entries : List (String × String)) :
    ∀ st : PState, st.currentSection = some "W" →
    (∀ p ∈ entries, WellEntryOK p) →
    List.foldlM (fun s l => parseLine mb s l) st
      (entries.map (fun p => " " ++ p.1 ++ ".   " ++ p.2 ++ "  :")) =
      some { st with file := { st.file with
        well := entries.foldl (fun d p => dinsert d p.1 p.2) st.file.well } } := by
  induction entries with
  | nil =>
    intro st hsec _
    rfl
  | cons p t ih =>
    intro st hsec h
    obtain ⟨hk, hkc, hku, hvc, hvs, hvn⟩ := h p (List.mem_cons_self _ _)
    obtain ⟨kc, kt, hkd⟩ := List.exists_cons_of_ne_nil hk
    have hkcm : isMnemChar kc = true := hkc kc (hkd ▸ List.mem_cons_self _ _)
    have hkcw : isWs kc = false := mnem_not_ws kc hkcm
    have hkch : ¬ kc = '#' := by
      intro hcon
      rw [hcon] at hkcm
      exact absurd hkcm (by decide)
    have hdata : (" " ++ p.1 ++ ".   " ++ p.2 ++ "  :").data =
        ' ' :: kc :: (kt ++ ('.' :: ' ' :: ' ' :: ' ' :: (p.2.data ++ [' ', ' ', ':']))) := by
      simp [hkd]
    have hsm : sectionMatch (" " ++ p.1 ++ ".   " ++ p.2 ++ "  :") = none := by
      rw [string_eq_mk hdata]
      exact sectionMatch_of_head _ (by decide)
    have hcm : isCommentLine (" " ++ p.1 ++ ".   " ++ p.2 ++ "  :") = false := by
      rw [string_eq_mk hdata]
      exact isCommentLine_blank_head _ (by decide) hkcw hkch
    have hem : isEmptyLine (" " ++ p.1 ++ ".   " ++ p.2 ++ "  :") = false := by
      rw [string_eq_mk hdata]
      exact isEmptyLine_blank_head _ (by decide) hkcw
    rw [List.map_cons, List.foldlM_cons]
    rw [parseLine_wellSec mb st _ hsec hsm hcm hem]
    rw [parseWellLine_mk st.file p.1 p.2 hk hkc hku hvc hvs]
    simp only [Option.some_bind]
    rw [List.foldl_cons]
    exact ih { st with file := { st.file with well := dinsert st.file.well p.1 p.2 } }
      hsec (fun q hq => h q (List.mem_cons_of_mem _ hq))

/-- Syntactic side conditions on a numeric curve under which its written
line parses back to the same mnemonic. -/
def CurveOK (c : CurveDefinition) : Prop :=
  c.mnemonic.data ≠ [] ∧ (∀ ch ∈ c.mnemonic.data, isMnemChar ch = true) ∧
  pyUpper c.mnemonic = c.mnemonic ∧ (∀ ch ∈ c.unit.data, isUnitChar ch = true) ∧
  c.apiCode = "" ∧ stripB c.description.data = c.description.data ∧
  (∀ ch ∈ c.description.data, ¬ ch = '\x7b') ∧ (∀ ch ∈ c.description.data, ¬ ch = '\n')

theorem parse_curve_fold (entries : List CurveDefinition) :
    ∀ st : PState, st.currentSection = some "C" →
    (∀ c ∈ entries, CurveOK c) →
    List.foldlM (fun s l => parseLine [] s l) st
      (entries.map (fun c => " " ++ c.mnemonic ++ "." ++ c.unit ++ "  : " ++ c.description)) =
      some { st with file := { st.file with
        curves := st.file.curves ++ entries.map
          (fun c => CurveDefinition.mk c.mnemonic c.unit "" c.description "" "" none),
        curvesOrder := st.file.curvesOrder ++ entries.map (fun c => c.mnemonic) } } := by
  induction entries with
  | nil =>
    intro st hsec _
    simp only [List.map_nil, List.append_nil]
    rfl
  | cons c t ih =>
    intro st hsec h
    obtain ⟨hm, hmc, hmu, hun, hapi, hds, hdb, hdn⟩ := h c (List.mem_cons_self _ _)
    obtain ⟨mc, mt, hmd⟩ := List.exists_cons_of_ne_nil hm
    have hmcm : isMnemChar mc = true := hmc mc (hmd ▸ List.mem_cons_self _ _)
    have hmcw : isWs mc = false := mnem_not_ws mc hmcm
    have hmch : ¬ mc = '#' := by
      intro hcon
      rw [hcon] at hmcm
      exact absurd hmcm (by decide)
    have hdata : (" " ++ c.mnemonic ++ "." ++ c.unit ++ "  : " ++ c.description).data =
        ' ' :: mc :: (mt ++ ('.' :: (c.unit.data ++
          (' ' :: ' ' :: ':' :: ' ' :: c.description.data)))) := by
      simp [hmd]
    have hsm : sectionMatch (" " ++ c.mnemonic ++ "." ++ c.unit ++ "  : " ++ c.description) =
        none := by
      rw [string_eq_mk hdata]
      exact sectionMatch_of_head _ (by decide)
    have hcm : isCommentLine (" " ++ c.mnemonic ++ "." ++ c.unit ++ "  : " ++ c.description) =
        false := by
      rw [string_eq_mk hdata]
      exact isCommentLine_blank_head _ (by decide) hmcw hmch
    have hem : isEmptyLine (" " ++ c.mnemonic ++ "." ++ c.unit ++ "  : " ++ c.description) =
        false := by
      rw [string_eq_mk hdata]
      exact isEmptyLine_blank_head _ (by decide) hmcw
    rw [List.map_cons, List.foldlM_cons]
    rw [parseLine_curveSec [] st _ hsec hsm hcm hem]
    rw [parseCurveLine_mk st.file c.mnemonic c.unit c.description hm hmc hmu hun hds hdb]
    simp only [Option.map_some', Option.some_bind]
    refine (ih { st with file := { st.file with
        curves := st.file.curves ++
          [CurveDefinition.mk c.mnemonic c.unit "" c.description "" "" none],
        curvesOrder := st.file.curvesOrder ++ [c.mnemonic] } }
      hsec (fun q hq => h q (List.mem_cons_of_mem _ hq))).trans ?_
    simp [List.append_assoc]

theorem prealloc_keys {order : List String} (hnd : order.Nodup) (v : List ℚ) :
    (order.foldl (fun lg nm => dinsert lg nm v) ([] : Dict (List ℚ))).map Prod.fst =
      order := by
  have hnd' : ((order.map (fun nm => (nm, v))).map Prod.fst).Nodup := by
    rw [List.map_map]
    have hid : (Prod.fst ∘ fun nm : String => (nm, v)) = id := rfl
    rw [hid, List.map_id]
    exact hnd
  rw [foldl_dinsert_map,
    foldl_dinsert_fresh (order.map (fun nm => (nm, v))) ([] : Dict (List ℚ))
      (fun p _ => rfl) hnd',
    List.nil_append, List.map_map]
  have hid : (Prod.fst ∘ fun nm : String => (nm, v)) = id := rfl
  rw [hid, List.map_id]

/-- Frame facts about the non-wrapped path of `read_ascii_data`: the log
keys are exactly the declared order, nothing else of the document
changes, and no diagnostic is raised. -/
theorem readAsciiData_normal_frame {content : String} {las : LASFile} {n : Nat}
    {f : LASFile} {ws : List Warning}
    (hw : ¬ pyUpper las.version.wrap = "YES")
    (hnd : las.curvesOrder.Nodup)
    (hlogs : las.logs = [])
    (hcc : ¬ las.curvesOrder.length = 0)
    (h : readAsciiData content las n = some (f, ws)) :
    f.logs.map Prod.fst = las.curvesOrder ∧ ws = [] ∧
    f.curvesOrder = las.curvesOrder ∧ f.version = las.version ∧ f.well = las.well := by
  unfold readAsciiData at h
  simp only [if_neg hcc, if_neg hw] at h
  unfold readNormal at h
  rw [dedupCurves_nodup _ _ hnd] at h
  simp only at h
  match hp : parseFloat (dgetD las.well "NULL" "-999.25") with
  | none => rw [hp] at h; exact absurd h (by simp)
  | some nullV =>
    rw [hp] at h
    dsimp only at h
    rw [hlogs] at h
    rw [normalLoop_eq_rowsLoop las.curvesOrder las.curvesOrder.length nullV
      (pySplitlines content)] at h
    match hn : rowsLoop las.curvesOrder las.curvesOrder.length nullV
        (dataRowsFrom (pySplitlines content) false) 0
        (las.curvesOrder.foldl
          (fun lg name => dinsert lg name (List.replicate n (0 : ℚ))) []) with
    | none => rw [hn] at h; exact absurd h (by simp)
    | some logs =>
      rw [hn] at h
      dsimp only at h
      have hpair := Option.some.inj h
      have hf := congrArg Prod.fst hpair
      have hws := congrArg Prod.snd hpair
      dsimp only at hf hws
      have hkeys : logs.map Prod.fst = las.curvesOrder := by
        rw [rowsLoop_keys _ hn]
        exact prealloc_keys hnd (List.replicate n 0)
      refine ⟨?_, hws.symm, ?_, ?_, ?_⟩
      · rw [show f.logs = logs from (congrArg LASFile.logs hf).symm]
        exact hkeys
      · exact (congrArg LASFile.curvesOrder hf).symm
      · exact (congrArg LASFile.version hf).symm
      · exact (congrArg LASFile.well hf).symm

/-! ### Data-row lines of the writer under the reader's line tests -/

theorem mem_intercalate {α : Type} (sep : List α) (lss : List (List α)) (c : α) :
    c ∈ List.intercalate sep lss → c ∈ sep ∨ ∃ l ∈ lss, c ∈ l := by
  induction lss with
  | nil => intro hc; simp [List.intercalate] at hc
  | cons a t ih =>
    intro hc
    match t with
    | [] =>
      rw [intercalate_one] at hc
      exact Or.inr ⟨a, List.mem_cons_self _ _, hc⟩
    | b :: t' =>
      rw [intercalate_two] at hc
      rcases List.mem_append.mp hc with h1 | h1
      · rcases List.mem_append.mp h1 with h2 | h2
        · exact Or.inr ⟨a, List.mem_cons_self _ _, h2⟩
        · exact Or.inl h2
      · rcases ih h1 with h2 | ⟨l, hl, hcl⟩
        · exact Or.inl h2
        · exact Or.inr ⟨l, List.mem_cons_of_mem _ hl, hcl⟩

theorem exists_last {α : Type} (l : List α) (h : l ≠ []) :
    ∃ z c, l = z ++ [c] ∧ c ∈ l := by
  refine ⟨l.dropLast, l.getLast h, (List.dropLast_append_getLast h).symm, List.getLast_mem h⟩

theorem intercalate_last_nonws (sep : List Char) (cells : List (List Char))
    (hne : cells ≠ [])
    (hall : ∀ l ∈ cells, l ≠ [] ∧ ∀ c ∈ l, isWs c = false) :
    ∃ z c, List.intercalate sep cells = z ++ [c] ∧ isWs c = false := by
  induction cells with
  | nil => exact absurd rfl hne
  | cons a t ih =>
    match t with
    | [] =>
      obtain ⟨hane, haws⟩ := hall a (List.mem_cons_self _ _)
      obtain ⟨z, c, hzc, hcm⟩ := exists_last a hane
      exact ⟨z, c, by rw [intercalate_one]; exact hzc, haws c hcm⟩
    | b :: t' =>
      obtain ⟨z, c, hzc, hcw⟩ := ih (by simp)
        (fun l hl => hall l (List.mem_cons_of_mem _ hl))
      refine ⟨a ++ sep ++ z, c, ?_, hcw⟩
      rw [intercalate_two, hzc]
      simp [List.append_assoc]

theorem stripR_last (z : List Char) (c : Char) (h : isWs c = false) :
    stripR (z ++ [c]) = z ++ [c] := by
  unfold stripR
  rw [List.reverse_append]
  simp only [List.reverse_cons, List.reverse_nil, List.nil_append, List.singleton_append]
  rw [dropWhile_cons_of_neg isWs c _ h]
  simp

theorem stripB_eq_self_ends {l : List Char} {c0 : Char} {t z : List Char} {clast : Char}
    (h1 : l = c0 :: t) (h2 : l = z ++ [clast]) (hw0 : isWs c0 = false)
    (hwl : isWs clast = false) : stripB l = l := by
  unfold stripB stripL
  rw [h1, dropWhile_cons_of_neg isWs c0 t hw0, ← h1, h2]
  exact stripR_last z clast hwl

theorem signDigit_not_ws {c : Char} (h : c = '-' ∨ c.isDigit = true) :
    isWs c = false := by
  rcases h with h | h
  · rw [h]; rfl
  · exact digit_not_ws c h

theorem signDigit_ne {c : Char} (h : c = '-' ∨ c.isDigit = true) :
    ¬ c = '~' ∧ ¬ c = '#' := by
  rcases h with h | h
  · rw [h]; exact ⟨by decide, by decide⟩
  · constructor
    · intro hc; rw [hc] at h; exact absurd h (by decide)
    · intro hc; rw [hc] at h; exact absurd h (by decide)

theorem pyStarts_head_ne {s : String} {c : Char} {t : List Char} {p : Char}
    (hd : s.data = c :: t) (h : ¬ p = c) (prest : List Char) :
    pyStarts s (String.mk (p :: prest)) = false := by
  unfold pyStarts
  rw [hd]
  show (p :: prest).isPrefixOf (c :: t) = false
  simp only [List.isPrefixOf]
  rw [show (p == c) = false from by simpa using h]
  rfl

/-- All line-test facts about one written data row. -/
theorem row_facts (cells : List String) (hne : cells ≠ [])
    (hcells : ∀ s ∈ cells, ∃ q, s = fmt4 q) :
    pyStrip (joinSep " " cells) = joinSep " " cells ∧
    pySplit (joinSep " " cells) = cells ∧
    pyStarts (joinSep " " cells) "~" = false ∧
    pyStarts (joinSep " " cells) "#" = false ∧
    ¬ joinSep " " cells = "" ∧
    sectionMatch (joinSep " " cells) = none ∧
    isCommentLine (joinSep " " cells) = false ∧
    isEmptyLine (joinSep " " cells) = false ∧
    (∀ c ∈ (joinSep " " cells).data, ¬ c = '\n') := by
  have hcell : ∀ s ∈ cells, s.data ≠ [] ∧ ∀ c ∈ s.data, isWs c = false := by
    intro s hs
    obtain ⟨q, rfl⟩ := hcells s hs
    exact ⟨fmt4_ne_nil q, fmt4_not_ws q⟩
  obtain ⟨s0, rest, rfl⟩ := List.exists_cons_of_ne_nil hne
  obtain ⟨q0, hq0⟩ := hcells s0 (List.mem_cons_self _ _)
  obtain ⟨h0, t0, h0eq0, hh0class⟩ := fmt4_head q0
  have h0eq : s0.data = h0 :: t0 := by rw [hq0]; exact h0eq0
  have hh0w : isWs h0 = false := signDigit_not_ws hh0class
  obtain ⟨hh0t, hh0s⟩ := signDigit_ne hh0class
  have hdata : ∃ t', (joinSep " " (s0 :: rest)).data = h0 :: t' := by
    show ∃ t', List.intercalate [' '] ((s0 :: rest).map String.data) = h0 :: t'
    match rest with
    | [] =>
      rw [List.map_cons, List.map_nil, intercalate_one, h0eq]
      exact ⟨t0, rfl⟩
    | b :: t' =>
      rw [List.map_cons, List.map_cons, intercalate_two, h0eq]
      exact ⟨_, rfl⟩
  obtain ⟨tl, htl⟩ := hdata
  have hlast : ∃ z c, (joinSep " " (s0 :: rest)).data = z ++ [c] ∧ isWs c = false := by
    show ∃ z c, List.intercalate [' '] ((s0 :: rest).map String.data) = z ++ [c] ∧
      isWs c = false
    apply intercalate_last_nonws [' '] _ (by simp)
    intro l hl
    obtain ⟨s, hs, rfl⟩ := List.mem_map.mp hl
    exact hcell s hs
  obtain ⟨z, clast, hzc, hclw⟩ := hlast
  have hstripB : stripB (joinSep " " (s0 :: rest)).data = (joinSep " " (s0 :: rest)).data :=
    stripB_eq_self_ends htl hzc hh0w hclw
  have hstrip : pyStrip (joinSep " " (s0 :: rest)) = joinSep " " (s0 :: rest) := by
    show ({ data := stripB (joinSep " " (s0 :: rest)).data } : String) =
      joinSep " " (s0 :: rest)
    rw [hstripB]
  refine ⟨hstrip, pySplit_joinSep _ hcell, ?_, ?_, ?_, ?_, ?_, ?_, ?_⟩
  · exact pyStarts_head_ne htl (fun hc => hh0t hc.symm) []
  · exact pyStarts_head_ne htl (fun hc => hh0s hc.symm) []
  · intro hc
    have := congrArg String.data hc
    rw [htl] at this
    cases this
  · rw [string_eq_mk htl]
    exact sectionMatch_of_head _ hh0t
  · rw [string_eq_mk htl]
    exact isCommentLine_of_head _ hh0w hh0s
  · rw [string_eq_mk htl]
    exact isEmptyLine_of_head _ hh0w
  · intro c hc
    rcases mem_intercalate [' '] ((s0 :: rest).map String.data) c hc with h1 | ⟨l, hl, hcl⟩
    · rw [List.mem_singleton.mp h1]; decide
    · obtain ⟨s, hs, rfl⟩ := List.mem_map.mp hl
      have := (hcell s hs).2 c hcl
      intro hcon
      rw [hcon] at this
      cases this

theorem parseLine_blank (mb : Dict String) (st : PState) :
    parseLine mb st "" = some st := by
  unfold parseLine
  rw [show sectionMatch "" = none from rfl]
  dsimp only
  rw [if_pos (show isCommentLine "" = true ∨ isEmptyLine "" = true from Or.inr rfl)]

theorem parse_ascii_fold (mb : Dict String) (rows : List String) :
    ∀ st : PState, st.currentSection = some "A" →
    (∀ r ∈ rows, sectionMatch r = none ∧ isCommentLine r = false ∧ isEmptyLine r = false) →
    List.foldlM (fun s l => parseLine mb s l) st rows =
      some { st with asciiDataLines := st.asciiDataLines ++ rows } := by
  induction rows with
  | nil =>
    intro st _ _
    simp only [List.foldlM_nil, List.append_nil]
    rfl
  | cons r t ih =>
    intro st hsec h
    obtain ⟨h1, h2, h3⟩ := h r (List.mem_cons_self _ _)
    rw [List.foldlM_cons, parseLine_asciiSec mb st r hsec h1 h2 h3]
    refine (ih { st with asciiDataLines := st.asciiDataLines ++ [r] } hsec
      (fun q hq => h q (List.mem_cons_of_mem _ hq))).trans ?_
    rw [List.append_assoc]
    rfl

theorem pyStrip_blank_head {line : String} {c : Char} {t : List Char}
    (hd : line.data = ' ' :: c :: t) (hw : isWs c = false) :
    ∃ t', (pyStrip line).data = c :: t' := by
  show ∃ t', stripB line.data = c :: t'
  rw [hd]
  unfold stripB stripL
  rw [List.dropWhile_cons]
  simp only [show isWs ' ' = true from rfl, if_true]
  rw [dropWhile_cons_of_neg isWs c t hw]
  rw [stripR_cons_head c t hw]
  exact ⟨_, rfl⟩

theorem contentLine_noTildeA {line : String} {c : Char} {t : List Char}
    (hd : line.data = ' ' :: c :: t) (hw : isWs c = false) (hc : ¬ c = '~') :
    pyStarts (pyStrip line) "~A" = false := by
  obtain ⟨t', ht'⟩ := pyStrip_blank_head hd hw
  exact pyStarts_head_ne ht' (fun h => hc h.symm) ['A']

theorem sectionMatch_tildeA (s : String) :
    sectionMatch ("~A  " ++ s) = some ('A', "  " ++ s) := by
  unfold sectionMatch
  rw [show ("~A  " ++ s).data = '~' :: 'A' :: (' ' :: ' ' :: s.data) from by simp]
  rfl

theorem pyStarts_tildeA {s : String} {t : List Char} (hd : s.data = '~' :: 'A' :: t) :
    pyStarts s "~A" = true := by
  unfold pyStarts
  rw [hd]
  show List.isPrefixOf ['~', 'A'] ('~' :: 'A' :: t) = true
  simp [List.isPrefixOf]

theorem preScanLoop_outside_all (ls : List String) :
    ∀ (rest : List String) (n : Nat), (∀ l ∈ ls, sectionMatch l = none) →
    preScanLoop (ls ++ rest) false n = preScanLoop rest false n := by
  induction ls with
  | nil => intro rest n _; rfl
  | cons l t ih =>
    intro rest n h
    rw [List.cons_append, preScanLoop_outside _ _ _ (h l (List.mem_cons_self _ _))]
    exact ih rest n (fun q hq => h q (List.mem_cons_of_mem _ hq))

theorem dataRowsFrom_skip_all (ls : List String) :
    ∀ rest : List String, (∀ l ∈ ls, pyStarts (pyStrip l) "~A" = false) →
    dataRowsFrom (ls ++ rest) false = dataRowsFrom rest false := by
  induction ls with
  | nil => intro rest _; rfl
  | cons l t ih =>
    intro rest h
    rw [List.cons_append, dataRowsFrom_skip _ _ (h l (List.mem_cons_self _ _))]
    exact ih rest (fun q hq => h q (List.mem_cons_of_mem _ hq))

theorem dataRowsFrom_rows (rows : List String)
    (h : ∀ r ∈ rows, pyStarts (pyStrip r) "~" = false ∧ ¬ pyStrip r = "" ∧
      pyStarts (pyStrip r) "#" = false ∧ pyStrip r = r) :
    dataRowsFrom rows true = rows := by
  induction rows with
  | nil => rfl
  | cons r t ih =>
    obtain ⟨h1, h2, h3, h4⟩ := h r (List.mem_cons_self _ _)
    rw [dataRowsFrom_row r t h1 h2 h3, h4,
      ih (fun q hq => h q (List.mem_cons_of_mem _ hq))]

theorem versLine_class (vers : String) :
    sectionMatch (" VERS.   " ++ vers ++ "  : CWLS LOG ASCII STANDARD") = none ∧
    isCommentLine (" VERS.   " ++ vers ++ "  : CWLS LOG ASCII STANDARD") = false ∧
    isEmptyLine (" VERS.   " ++ vers ++ "  : CWLS LOG ASCII STANDARD") = false ∧
    pyStarts (pyStrip (" VERS.   " ++ vers ++ "  : CWLS LOG ASCII STANDARD")) "~A" =
      false := by
  have hdata : (" VERS.   " ++ vers ++ "  : CWLS LOG ASCII STANDARD").data =
      ' ' :: 'V' :: (['E', 'R', 'S', '.', ' ', ' ', ' '] ++ (vers.data ++
        (' ' :: ' ' :: ':' :: ' ' :: "CWLS LOG ASCII STANDARD".data))) := by
    simp
  refine ⟨?_, ?_, ?_, ?_⟩
  · rw [string_eq_mk hdata]
    exact sectionMatch_of_head _ (by decide)
  · rw [string_eq_mk hdata]
    exact isCommentLine_blank_head _ (by decide) (by decide) (by decide)
  · rw [string_eq_mk hdata]
    exact isEmptyLine_blank_head _ (by decide) (by decide)
  · exact contentLine_noTildeA hdata (by decide) (by decide)

theorem wellLine_class (p : String × String) (hp : WellEntryOK p) :
    sectionMatch (" " ++ p.1 ++ ".   " ++ p.2 ++ "  :") = none ∧
    isCommentLine (" " ++ p.1 ++ ".   " ++ p.2 ++ "  :") = false ∧
    isEmptyLine (" " ++ p.1 ++ ".   " ++ p.2 ++ "  :") = false ∧
    pyStarts (pyStrip (" " ++ p.1 ++ ".   " ++ p.2 ++ "  :")) "~A" = false := by
  obtain ⟨hk, hkc, hku, hvc, hvs, hvn⟩ := hp
  obtain ⟨kc, kt, hkd⟩ := List.exists_cons_of_ne_nil hk
  have hkcm : isMnemChar kc = true := hkc kc (hkd ▸ List.mem_cons_self _ _)
  have hkcw : isWs kc = false := mnem_not_ws kc hkcm
  have hkch : ¬ kc = '#' := by
    intro hcon
    rw [hcon] at hkcm
    exact absurd hkcm (by decide)
  have hkct : ¬ kc = '~' := by
    intro hcon
    rw [hcon] at hkcm
    exact absurd hkcm (by decide)
  have hdata : (" " ++ p.1 ++ ".   " ++ p.2 ++ "  :").data =
      ' ' :: kc :: (kt ++ ('.' :: ' ' :: ' ' :: ' ' :: (p.2.data ++ [' ', ' ', ':']))) := by
    simp [hkd]
  refine ⟨?_, ?_, ?_, ?_⟩
  · rw [string_eq_mk hdata]
    exact sectionMatch_of_head _ (by decide)
  · rw [string_eq_mk hdata]
    exact isCommentLine_blank_head _ (by decide) hkcw hkch
  · rw [string_eq_mk hdata]
    exact isEmptyLine_blank_head _ (by decide) hkcw
  · exact contentLine_noTildeA hdata hkcw hkct

theorem curveLine_class (c : CurveDefinition) (hc : CurveOK c) :
    sectionMatch (" " ++ c.mnemonic ++ "." ++ c.unit ++ "  : " ++ c.description) = none ∧
    isCommentLine (" " ++ c.mnemonic ++ "." ++ c.unit ++ "  : " ++ c.description) = false ∧
    isEmptyLine (" " ++ c.mnemonic ++ "." ++ c.unit ++ "  : " ++ c.description) = false ∧
    pyStarts (pyStrip (" " ++ c.mnemonic ++ "." ++ c.unit ++ "  : " ++ c.description))
      "~A" = false := by
  obtain ⟨hm, hmc, hmu, hun, hapi, hds, hdb, hdn⟩ := hc
  obtain ⟨mc, mt, hmd⟩ := List.exists_cons_of_ne_nil hm
  have hmcm : isMnemChar mc = true := hmc mc (hmd ▸ List.mem_cons_self _ _)
  have hmcw : isWs mc = false := mnem_not_ws mc hmcm
  have hmch : ¬ mc = '#' := by
    intro hcon
    rw [hcon] at hmcm
    exact absurd hmcm (by decide)
  have hmct : ¬ mc = '~' := by
    intro hcon
    rw [hcon] at hmcm
    exact absurd hmcm (by decide)
  have hdata : (" " ++ c.mnemonic ++ "." ++ c.unit ++ "  : " ++ c.description).data =
      ' ' :: mc :: (mt ++ ('.' :: (c.unit.data ++
        (' ' :: ' ' :: ':' :: ' ' :: c.description.data)))) := by
    simp [hmd]
  refine ⟨?_, ?_, ?_, ?_⟩
  · rw [string_eq_mk hdata]
    exact sectionMatch_of_head _ (by decide)
  · rw [string_eq_mk hdata]
    exact isCommentLine_blank_head _ (by decide) hmcw hmch
  · rw [string_eq_mk hdata]
    exact isEmptyLine_blank_head _ (by decide) hmcw
  · exact contentLine_noTildeA hdata hmcw hmct


theorem dget?_isSome_of_keys {α : Type} {d : Dict α} {k : String}
    (h : k ∈ d.map Prod.fst) : ∃ v, dget? d k = some v := by
  induction d with
  | nil => simp at h
  | cons p t ih =>
    rw [show dget? (p :: t) k = if p.1 = k then some p.2 else dget? t k from by
      match p with | (a, b) => rfl]
    by_cases hk : p.1 = k
    · exact ⟨p.2, by rw [if_pos hk]⟩
    · rw [if_neg hk]
      apply ih
      simp only [List.map_cons, List.mem_cons] at h
      rcases h with h | h
      · exact absurd h.symm hk
      · exact h

/-- Side conditions under which the written form of a numeric legacy
document reads back: a non-3.0 version string, space delimiting, no 3.0
data sections, string curves, parameters or free text, well entries and
curves whose written lines re-parse to the same mnemonics, and uniform
numeric arrays keyed exactly by the declared curve order. -/
structure RoundTripOK (las : LASFile) (nullV : ℚ) (numRows : Nat) : Prop where
  vers_not3 : ¬ pyStarts las.version.vers "3" = true
  vers_colon : ∀ c ∈ las.version.vers.data, (c != ':') = true
  vers_strip : stripB las.version.vers.data = las.version.vers.data
  vers_nl : ∀ c ∈ las.version.vers.data, ¬ c = '\n'
  dlm_space : las.version.dlm = "SPACE"
  no_sections : las.dataSections = []
  no_strings : las.stringData = []
  no_params : las.parameters = []
  no_other : las.other = ""
  well_ok : ∀ p ∈ las.well, WellEntryOK p
  well_keys : (las.well.map Prod.fst).Nodup
  null_parse : parseFloat (dgetD las.well "NULL" "-999.25") = some nullV
  curves_ok : ∀ c ∈ las.curves, CurveOK c
  order_eq : las.curvesOrder = las.curves.map (fun c => c.mnemonic)
  order_nodup : las.curvesOrder.Nodup
  order_ne : las.curvesOrder ≠ []
  logs_keys : las.logs.map Prod.fst = las.curvesOrder
  logs_len : ∀ name arr, dget? las.logs name = some arr → arr.length = numRows

/-- One written data row (helper name for the round-trip proof; proved
equal to the writer's output by `generateLines_eval`). -/
def rowLinesOf (las : LASFile) (nullV : ℚ) (numRows : Nat) : List String :=
  (List.range numRows).map
    (fun i => joinSep " " (las.curvesOrder.map (legacyCell las nullV i)))

/-- The generated line list of a `RoundTripOK` document (helper name;
proved equal to `generateLines` by `generateLines_eval`). -/
def genLinesOf (las : LASFile) (nullV : ℚ) (numRows : Nat) : List String :=
  ["~VERSION INFORMATION",
   " VERS.   " ++ las.version.vers ++ "  : CWLS LOG ASCII STANDARD",
   " WRAP.   NO  : ONE LINE PER DEPTH STEP", ""] ++
  ("~WELL INFORMATION" ::
    (las.well.map (fun p => " " ++ p.1 ++ ".   " ++ p.2 ++ "  :") ++ [""])) ++
  ("~CURVE INFORMATION" ::
    (las.curves.map
      (fun c => " " ++ c.mnemonic ++ "." ++ c.unit ++ "  : " ++ c.description) ++ [""])) ++
  (("~A  " ++ joinSep "  " las.curvesOrder) :: rowLinesOf las nullV numRows)

theorem writeDataLegacy_eval (las : LASFile) (nullV : ℚ) (numRows : Nat)
    (ok : RoundTripOK las nullV numRows) :
    writeDataLegacy las =
      some (("~A  " ++ joinSep "  " las.curvesOrder) :: rowLinesOf las nullV numRows) := by
  obtain ⟨n0, rest, h0⟩ := List.exists_cons_of_ne_nil ok.order_ne
  have hmem : n0 ∈ las.logs.map Prod.fst := by
    rw [ok.logs_keys, h0]
    exact List.mem_cons_self _ _
  obtain ⟨arr0, harr0⟩ := dget?_isSome_of_keys hmem
  have hdelim : las.version.delimiterChar = " " := by
    unfold VersionSection.delimiterChar
    rw [ok.dlm_space]
    rfl
  unfold writeDataLegacy
  rw [h0]
  dsimp only
  rw [show dmem las.logs n0 = true from by unfold dmem; rw [harr0]; rfl]
  simp only [if_true]
  rw [ok.null_parse]
  dsimp only
  rw [harr0]
  rw [show (some arr0).getD [] = arr0 from rfl]
  rw [ok.logs_len n0 arr0 harr0, hdelim, ← h0]
  rfl

theorem generateLines_eval (las : LASFile) (nullV : ℚ) (numRows : Nat)
    (ok : RoundTripOK las nullV numRows) :
    generateLines las = some (genLinesOf las nullV numRows) := by
  have h30 : las.isLas30 = false := by
    unfold LASFile.isLas30 VersionSection.isLas30
    simpa using ok.vers_not3
  unfold generateLines
  rw [h30]
  rw [ok.no_params, ok.no_other, ok.no_sections]
  dsimp only
  rw [writeDataLegacy_eval las nullV numRows ok]
  simp only [List.isEmpty_nil, Bool.false_eq_true, if_false, false_and, if_true,
    eq_self_iff_true]
  have hmap : List.map
      (fun c => (" " ++ c.mnemonic ++ "." ++ c.unit ++
          if c.apiCode ≠ "" then "  " ++ c.apiCode else "") ++ "  : " ++ c.description)
        las.curves =
      List.map (fun c => " " ++ c.mnemonic ++ "." ++ c.unit ++ "  : " ++ c.description)
        las.curves := by
    apply List.map_congr_left
    intro c hc
    obtain ⟨hm, hmc, hmu, hun, hapi, hds, hdb, hdn⟩ := ok.curves_ok c hc
    simp [hapi]
  rw [hmap]
  simp [genLinesOf, rowLinesOf]
  rw [String.append_assoc]
  rfl


theorem mnem_not_nl {c : Char} (h : isMnemChar c = true) : ¬ c = '\n' := by
  intro hc
  rw [hc] at h
  exact absurd h (by decide)

theorem unit_not_nl {c : Char} (h : isUnitChar c = true) : ¬ c = '\n' := by
  intro hc
  rw [hc] at h
  exact absurd h (by decide)

theorem fmt4_not_nl (q : ℚ) : ∀ c ∈ (fmt4 q).data, ¬ c = '\n' := by
  intro c hc hcon
  have := fmt4_not_ws q c hc
  rw [hcon] at this
  exact absurd this (by decide)

theorem order_mem_curveOK {las : LASFile} {nullV : ℚ} {numRows : Nat}
    (ok : RoundTripOK las nullV numRows) {name : String}
    (h : name ∈ las.curvesOrder) :
    name.data ≠ [] ∧ ∀ c ∈ name.data, isMnemChar c = true := by
  rw [ok.order_eq] at h
  obtain ⟨c, hc, rfl⟩ := List.mem_map.mp h
  obtain ⟨hm, hmc, -⟩ := ok.curves_ok c hc
  exact ⟨hm, hmc⟩

theorem rowCells_fmt4 {las : LASFile} {nullV : ℚ} {numRows : Nat}
    (ok : RoundTripOK las nullV numRows) (i : Nat) (hi : i < numRows) :
    ∀ s ∈ las.curvesOrder.map (legacyCell las nullV i), ∃ q, s = fmt4 q := by
  intro s hs
  obtain ⟨name, hname, rfl⟩ := List.mem_map.mp hs
  obtain ⟨arr, harr⟩ := dget?_isSome_of_keys (by rw [ok.logs_keys]; exact hname)
  exact ⟨arr.getD i 0, legacyCell_eval las nullV i name arr ok.no_strings harr
    (by rw [ok.logs_len name arr harr]; exact hi)⟩

theorem genRow_facts {las : LASFile} {nullV : ℚ} {numRows : Nat}
    (ok : RoundTripOK las nullV numRows) (i : Nat) (hi : i < numRows) :
    pyStrip (joinSep " " (las.curvesOrder.map (legacyCell las nullV i))) =
      joinSep " " (las.curvesOrder.map (legacyCell las nullV i)) ∧
    pySplit (joinSep " " (las.curvesOrder.map (legacyCell las nullV i))) =
      las.curvesOrder.map (legacyCell las nullV i) ∧
    pyStarts (joinSep " " (las.curvesOrder.map (legacyCell las nullV i))) "~" = false ∧
    pyStarts (joinSep " " (las.curvesOrder.map (legacyCell las nullV i))) "#" = false ∧
    ¬ joinSep " " (las.curvesOrder.map (legacyCell las nullV i)) = "" ∧
    sectionMatch (joinSep " " (las.curvesOrder.map (legacyCell las nullV i))) = none ∧
    isCommentLine (joinSep " " (las.curvesOrder.map (legacyCell las nullV i))) = false ∧
    isEmptyLine (joinSep " " (las.curvesOrder.map (legacyCell las nullV i))) = false ∧
    (∀ c ∈ (joinSep " " (las.curvesOrder.map (legacyCell las nullV i))).data,
      ¬ c = '\n') :=
  row_facts _ (fun h => ok.order_ne (List.map_eq_nil.mp h)) (rowCells_fmt4 ok i hi)

theorem aHeader_facts {las : LASFile} {nullV : ℚ} {numRows : Nat}
    (ok : RoundTripOK las nullV numRows) :
    pyStrip ("~A  " ++ joinSep "  " las.curvesOrder) =
      "~A  " ++ joinSep "  " las.curvesOrder ∧
    pyStarts (pyStrip ("~A  " ++ joinSep "  " las.curvesOrder)) "~A" = true ∧
    (∀ c ∈ ("~A  " ++ joinSep "  " las.curvesOrder).data, ¬ c = '\n') := by
  have hcells : ∀ l ∈ las.curvesOrder.map String.data, l ≠ [] ∧
      ∀ c ∈ l, isWs c = false := by
    intro l hl
    obtain ⟨name, hname, rfl⟩ := List.mem_map.mp hl
    obtain ⟨h1, h2⟩ := order_mem_curveOK ok hname
    exact ⟨h1, fun c hc => mnem_not_ws c (h2 c hc)⟩
  obtain ⟨z, clast, hJ, hlw⟩ := intercalate_last_nonws [' ', ' ']
    (las.curvesOrder.map String.data)
    (fun h => ok.order_ne (List.map_eq_nil.mp h)) hcells
  have hJdata : (joinSep "  " las.curvesOrder).data =
      List.intercalate [' ', ' '] (las.curvesOrder.map String.data) := rfl
  have hdata : ("~A  " ++ joinSep "  " las.curvesOrder).data =
      '~' :: 'A' :: ' ' :: ' ' ::
        List.intercalate [' ', ' '] (las.curvesOrder.map String.data) := by
    simp [hJdata]
  have hdata2 : ("~A  " ++ joinSep "  " las.curvesOrder).data =
      ('~' :: 'A' :: ' ' :: ' ' :: z) ++ [clast] := by
    rw [hdata, hJ]
    simp
  have hstrip : stripB ("~A  " ++ joinSep "  " las.curvesOrder).data =
      ("~A  " ++ joinSep "  " las.curvesOrder).data :=
    stripB_eq_self_ends hdata hdata2 (by decide) hlw
  have hps : pyStrip ("~A  " ++ joinSep "  " las.curvesOrder) =
      "~A  " ++ joinSep "  " las.curvesOrder := by
    show ({ data := stripB ("~A  " ++ joinSep "  " las.curvesOrder).data } : String) =
      "~A  " ++ joinSep "  " las.curvesOrder
    rw [hstrip]
  refine ⟨hps, ?_, ?_⟩
  · rw [hps]
    exact pyStarts_tildeA hdata
  · intro c hc
    rw [hdata] at hc
    rcases List.mem_cons.mp hc with h | h
    · rw [h]; decide
    rcases List.mem_cons.mp h with h | h
    · rw [h]; decide
    rcases List.mem_cons.mp h with h | h
    · rw [h]; decide
    rcases List.mem_cons.mp h with h | h
    · rw [h]; decide
    rcases mem_intercalate _ _ _ h with h | ⟨l, hl, hcl⟩
    · rcases List.mem_cons.mp h with h | h
      · rw [h]; decide
      · rw [List.mem_singleton.mp h]; decide
    · obtain ⟨name, hname, rfl⟩ := List.mem_map.mp hl
      exact mnem_not_nl ((order_mem_curveOK ok hname).2 c hcl)

theorem genLines_nonl {las : LASFile} {nullV : ℚ} {numRows : Nat}
    (ok : RoundTripOK las nullV numRows) :
    ∀ l ∈ genLinesOf las nullV numRows, ∀ c ∈ l.data, ¬ c = '\n' := by
  intro l hl
  unfold genLinesOf at hl
  rcases List.mem_append.mp hl with hABC | hD
  · rcases List.mem_append.mp hABC with hAB | hC
    · rcases List.mem_append.mp hAB with hA | hB
      · rcases List.mem_cons.mp hA with rfl | hA
        · decide
        rcases List.mem_cons.mp hA with rfl | hA
        · intro c hc
          rw [show (" VERS.   " ++ las.version.vers ++ "  : CWLS LOG ASCII STANDARD").data
              = [' ', 'V', 'E', 'R', 'S', '.', ' ', ' ', ' '] ++ (las.version.vers.data ++
                "  : CWLS LOG ASCII STANDARD".data) from by simp] at hc
          rcases List.mem_append.mp hc with h' | h'
          · intro hcon; rw [hcon] at h'; revert h'; decide
          rcases List.mem_append.mp h' with h'' | h''
          · exact ok.vers_nl c h''
          · intro hcon; rw [hcon] at h''; revert h''; decide
        rcases List.mem_cons.mp hA with rfl | hA
        · decide
        rw [List.mem_singleton.mp hA]
        decide
      · rcases List.mem_cons.mp hB with rfl | hB
        · decide
        rcases List.mem_append.mp hB with hB | hB
        · obtain ⟨p, hp, rfl⟩ := List.mem_map.mp hB
          obtain ⟨hk, hkc, hku, hvc, hvs, hvn⟩ := ok.well_ok p hp
          intro c hc
          rw [show (" " ++ p.1 ++ ".   " ++ p.2 ++ "  :").data =
              ' ' :: (p.1.data ++ ('.' :: ' ' :: ' ' :: ' ' :: (p.2.data ++
                [' ', ' ', ':']))) from by simp] at hc
          rcases List.mem_cons.mp hc with rfl | hc
          · decide
          rcases List.mem_append.mp hc with h' | h'
          · exact mnem_not_nl (hkc c h')
          rcases List.mem_cons.mp h' with rfl | h'
          · decide
          rcases List.mem_cons.mp h' with rfl | h'
          · decide
          rcases List.mem_cons.mp h' with rfl | h'
          · decide
          rcases List.mem_cons.mp h' with rfl | h'
          · decide
          rcases List.mem_append.mp h' with h'' | h''
          · exact hvn c h''
          · intro hcon; rw [hcon] at h''; revert h''; decide
        · rw [List.mem_singleton.mp hB]
          decide
    · rcases List.mem_cons.mp hC with rfl | hC
      · decide
      rcases List.mem_append.mp hC with hC | hC
      · obtain ⟨cv, hcv, rfl⟩ := List.mem_map.mp hC
        obtain ⟨hm, hmc, hmu, hun, hapi, hds, hdb, hdn⟩ := ok.curves_ok cv hcv
        intro c hc
        rw [show (" " ++ cv.mnemonic ++ "." ++ cv.unit ++ "  : " ++ cv.description).data =
            ' ' :: (cv.mnemonic.data ++ ('.' :: (cv.unit.data ++ (' ' :: ' ' :: ':' ::
              ' ' :: cv.description.data)))) from by simp] at hc
        rcases List.mem_cons.mp hc with rfl | hc
        · decide
        rcases List.mem_append.mp hc with h' | h'
        · exact mnem_not_nl (hmc c h')
        rcases List.mem_cons.mp h' with rfl | h'
        · decide
        rcases List.mem_append.mp h' with h' | h'
        · exact unit_not_nl (hun c h')
        rcases List.mem_cons.mp h' with rfl | h'
        · decide
        rcases List.mem_cons.mp h' with rfl | h'
        · decide
        rcases List.mem_cons.mp h' with rfl | h'
        · decide
        rcases List.mem_cons.mp h' with rfl | h'
        · decide
        · exact hdn c h'
      · rw [List.mem_singleton.mp hC]
        decide
  · rcases List.mem_cons.mp hD with rfl | hD
    · exact (aHeader_facts ok).2.2
    · obtain ⟨i, hi, rfl⟩ := List.mem_map.mp hD
      rw [List.mem_range] at hi
      exact (genRow_facts ok i hi).2.2.2.2.2.2.2.2

theorem writesAt_total (is : List Nat) :
    ∀ {order : List String} {cl : Nat} {g : Nat → ℚ} (L : Nat) (logs : Dict (List ℚ)),
    cl < L →
    (∀ name ∈ order, ∃ arr, dget? logs name = some arr ∧ L ≤ arr.length) →
    (∀ i ∈ is, i < order.length) →
    ∃ logs', writesAt order cl g logs is = some logs' ∧
      (∀ name ∈ order, ∃ arr, dget? logs' name = some arr ∧ L ≤ arr.length) := by
  induction is with
  | nil =>
    intro order cl g L logs _ hinv _
    exact ⟨logs, rfl, hinv⟩
  | cons i rest ih =>
    intro order cl g L logs hcl hinv his
    have hilt : i < order.length := his i (List.mem_cons_self _ _)
    have hmem : order.getD i "" ∈ order := by
      rw [List.getD_eq_get?]
      match hg : order.get? i with
      | some v => exact List.get?_mem hg
      | none => exact absurd (List.get?_eq_none.mp hg) (by omega)
    obtain ⟨arr, harr, hlen⟩ := hinv _ hmem
    have hsc : storeCell logs (order.getD i "") cl (g i) =
        some (dinsert logs (order.getD i "") (arr.set cl (g i))) := by
      simp only [storeCell, harr]
      rw [if_pos (show cl < arr.length from by omega)]
    simp only [writesAt]
    rw [hsc]
    dsimp only
    refine ih L _ hcl ?_ (fun j hj => his j (List.mem_cons_of_mem _ hj))
    intro name hname
    by_cases he : order.getD i "" = name
    · refine ⟨arr.set cl (g i), ?_, ?_⟩
      · rw [← he]
        exact dget?_dinsert_self logs (order.getD i "") (arr.set cl (g i))
      · rw [List.length_set]
        exact hlen
    · obtain ⟨arr', h1, h2⟩ := hinv name hname
      exact ⟨arr', by rw [dget?_dinsert_ne _ _ _ _ he, h1], h2⟩

theorem storeRow_total {logs : Dict (List ℚ)} {order : List String} {cl : Nat}
    {vals : List String} {nullV : ℚ} (L : Nat)
    (hcl : cl < L)
    (hinv : ∀ name ∈ order, ∃ arr, dget? logs name = some arr ∧ L ≤ arr.length) :
    ∃ logs', storeRow logs order order.length cl vals nullV = some logs' ∧
      (∀ name ∈ order, ∃ arr, dget? logs' name = some arr ∧ L ≤ arr.length) := by
  unfold storeRow
  rw [storeParsedIdx_eq_writesAt]
  obtain ⟨logs₁, h1, hinv1⟩ := writesAt_total
    (List.range (min vals.length order.length)) L logs hcl hinv (fun j hj => by
      rw [List.mem_range] at hj
      omega)
  rw [h1]
  dsimp only
  rw [storeNullIdx_eq_writesAt]
  exact writesAt_total (List.range' vals.length (order.length - vals.length))
    L logs₁ hcl hinv1 (fun j hj => by
      obtain ⟨k, hk, hjk⟩ := List.mem_range'.mp hj
      omega)

theorem rowsLoop_total (rows : List String) :
    ∀ {order : List String} {nullV : ℚ} {cl : Nat} (L : Nat) (logs : Dict (List ℚ)),
    cl + rows.length ≤ L →
    (∀ name ∈ order, ∃ arr, dget? logs name = some arr ∧ L ≤ arr.length) →
    ∃ logs', rowsLoop order order.length nullV rows cl logs = some logs' := by
  induction rows with
  | nil =>
    intro order nullV cl L logs _ _
    exact ⟨logs, rfl⟩
  | cons row rest ih =>
    intro order nullV cl L logs hle hinv
    obtain ⟨logs₁, h1, hinv1⟩ := storeRow_total L
      (show cl < L from by simp only [List.length_cons] at hle; omega) hinv
    simp only [rowsLoop]
    rw [h1]
    dsimp only
    exact ih L logs₁ (by simp only [List.length_cons] at hle; omega) hinv1

theorem readAsciiData_normal_total {content : String} {las : LASFile} {n : Nat}
    {nullV : ℚ}
    (hw : ¬ pyUpper las.version.wrap = "YES")
    (hnd : las.curvesOrder.Nodup)
    (hlogs : las.logs = [])
    (hcc : ¬ las.curvesOrder.length = 0)
    (hnull : parseFloat (dgetD las.well "NULL" "-999.25") = some nullV)
    (hrows : (dataRowsFrom (pySplitlines content) false).length ≤ n) :
    ∃ f ws, readAsciiData content las n = some (f, ws) := by
  unfold readAsciiData
  simp only [if_neg hcc, if_neg hw]
  unfold readNormal
  rw [dedupCurves_nodup _ _ hnd]
  simp only
  rw [hnull]
  dsimp only
  rw [hlogs]
  rw [normalLoop_eq_rowsLoop las.curvesOrder las.curvesOrder.length nullV
    (pySplitlines content)]
  obtain ⟨logs', hl⟩ := rowsLoop_total (dataRowsFrom (pySplitlines content) false) n
    (las.curvesOrder.foldl
      (fun lg name => dinsert lg name (List.replicate n (0 : ℚ))) [])
    (show 0 + (dataRowsFrom (pySplitlines content) false).length ≤ n from by omega)
    (fun name hname => ⟨List.replicate n 0, prealloc_get hnd (List.replicate n 0) hname,
      by rw [List.length_replicate]⟩)
  rw [hl]
  exact ⟨_, _, rfl⟩

theorem genWell_sm {las : LASFile} {nullV : ℚ} {numRows : Nat}
    (ok : RoundTripOK las nullV numRows) :
    ∀ l ∈ las.well.map (fun p => " " ++ p.1 ++ ".   " ++ p.2 ++ "  :"),
      sectionMatch l = none := by
  intro l hl
  obtain ⟨p, hp, rfl⟩ := List.mem_map.mp hl
  exact (wellLine_class p (ok.well_ok p hp)).1

theorem genCurve_sm {las : LASFile} {nullV : ℚ} {numRows : Nat}
    (ok : RoundTripOK las nullV numRows) :
    ∀ l ∈ las.curves.map
        (fun c => " " ++ c.mnemonic ++ "." ++ c.unit ++ "  : " ++ c.description),
      sectionMatch l = none := by
  intro l hl
  obtain ⟨c, hc, rfl⟩ := List.mem_map.mp hl
  exact (curveLine_class c (ok.curves_ok c hc)).1

theorem genRows_class {las : LASFile} {nullV : ℚ} {numRows : Nat}
    (ok : RoundTripOK las nullV numRows) :
    ∀ l ∈ rowLinesOf las nullV numRows, sectionMatch l = none ∧
      isCommentLine l = false ∧ isEmptyLine l = false := by
  intro l hl
  obtain ⟨i, hi, rfl⟩ := List.mem_map.mp hl
  rw [List.mem_range] at hi
  exact ⟨(genRow_facts ok i hi).2.2.2.2.2.1, (genRow_facts ok i hi).2.2.2.2.2.2.1,
    (genRow_facts ok i hi).2.2.2.2.2.2.2.1⟩

theorem preScan_gen {las : LASFile} {nullV : ℚ} {numRows : Nat}
    (ok : RoundTripOK las nullV numRows) :
    preScan (genLinesOf las nullV numRows) = numRows := by
  unfold preScan genLinesOf
  simp only [List.cons_append, List.nil_append, List.append_assoc]
  rw [preScanLoop_section _ _ false 0 'V' "ERSION INFORMATION" (by decide)]
  rw [show ('V'.toUpper == 'A') = false from by decide]
  rw [preScanLoop_outside _ _ _ (versLine_class las.version.vers).1]
  rw [preScanLoop_outside _ _ _
    (show sectionMatch " WRAP.   NO  : ONE LINE PER DEPTH STEP" = none from by decide)]
  rw [preScanLoop_outside _ _ _ (show sectionMatch "" = none from by decide)]
  rw [preScanLoop_section _ _ false 0 'W' "ELL INFORMATION" (by decide)]
  rw [show ('W'.toUpper == 'A') = false from by decide]
  rw [preScanLoop_outside_all _ _ 0 (genWell_sm ok)]
  rw [preScanLoop_outside _ _ _ (show sectionMatch "" = none from by decide)]
  rw [preScanLoop_section _ _ false 0 'C' "URVE INFORMATION" (by decide)]
  rw [show ('C'.toUpper == 'A') = false from by decide]
  rw [preScanLoop_outside_all _ _ 0 (genCurve_sm ok)]
  rw [preScanLoop_outside _ _ _ (show sectionMatch "" = none from by decide)]
  rw [preScanLoop_section _ _ false 0 'A' ("  " ++ joinSep "  " las.curvesOrder)
    (sectionMatch_tildeA _)]
  rw [show ('A'.toUpper == 'A') = true from by decide]
  rw [preScanLoop_rows _ 0 (genRows_class ok)]
  simp [rowLinesOf]

theorem dataRows_gen {las : LASFile} {nullV : ℚ} {numRows : Nat}
    (ok : RoundTripOK las nullV numRows) :
    dataRowsFrom (genLinesOf las nullV numRows) false =
      rowLinesOf las nullV numRows := by
  unfold genLinesOf
  rw [List.append_assoc, List.append_assoc]
  rw [dataRowsFrom_skip_all _ _ (by
    intro l hl
    rcases List.mem_cons.mp hl with rfl | hl
    · decide
    rcases List.mem_cons.mp hl with rfl | hl
    · exact (versLine_class las.version.vers).2.2.2
    rcases List.mem_cons.mp hl with rfl | hl
    · decide
    rw [List.mem_singleton.mp hl]
    decide)]
  rw [dataRowsFrom_skip_all _ _ (by
    intro l hl
    rcases List.mem_cons.mp hl with rfl | hl
    · decide
    rcases List.mem_append.mp hl with hl | hl
    · obtain ⟨p, hp, rfl⟩ := List.mem_map.mp hl
      exact (wellLine_class p (ok.well_ok p hp)).2.2.2
    · rw [List.mem_singleton.mp hl]
      decide)]
  rw [dataRowsFrom_skip_all _ _ (by
    intro l hl
    rcases List.mem_cons.mp hl with rfl | hl
    · decide
    rcases List.mem_append.mp hl with hl | hl
    · obtain ⟨c, hc, rfl⟩ := List.mem_map.mp hl
      exact (curveLine_class c (ok.curves_ok c hc)).2.2.2
    · rw [List.mem_singleton.mp hl]
      decide)]
  rw [dataRowsFrom_mark _ _ false (aHeader_facts ok).2.1]
  refine dataRowsFrom_rows _ ?_
  intro r hr
  obtain ⟨i, hi, rfl⟩ := List.mem_map.mp hr
  rw [List.mem_range] at hi
  have h1 := (genRow_facts ok i hi).1
  refine ⟨?_, ?_, ?_, h1⟩
  · rw [h1]
    exact (genRow_facts ok i hi).2.2.1
  · rw [h1]
    exact (genRow_facts ok i hi).2.2.2.2.1
  · rw [h1]
    exact (genRow_facts ok i hi).2.2.2.1

/-- The header state produced by parsing the written lines (helper name;
proved to be the parse result by `parse_gen`). -/
def parsedFile (las : LASFile) : LASFile :=
  { version := { vers := las.version.vers, wrap := "NO", dlm := "SPACE" },
    well := las.well,
    curves := las.curves.map (fun c =>
      CurveDefinition.mk c.mnemonic c.unit "" c.description "" "" none),
    curvesOrder := las.curvesOrder }

theorem foldlM_cons_some {α σ : Type} (f : σ → α → Option σ) (a : α) (l : List α)
    (s s' : σ) (h : f s a = some s') :
    List.foldlM f s (a :: l) = List.foldlM f s' l := by
  rw [List.foldlM_cons, h]
  rfl

theorem foldlM_append_some {α σ : Type} (f : σ → α → Option σ) (l1 l2 : List α)
    (s s' : σ) (h : List.foldlM f s l1 = some s') :
    List.foldlM f s (l1 ++ l2) = List.foldlM f s' l2 := by
  rw [List.foldlM_append, h]
  rfl

theorem parse_gen {las : LASFile} {nullV : ℚ} {numRows : Nat}
    (ok : RoundTripOK las nullV numRows) :
    parse [] (joinSep "\n" (genLinesOf las nullV numRows) ++ "\n") =
      some { file := parsedFile las,
             currentSection := some "A",
             currentSectionName := pyStrip ("  " ++ joinSep "  " las.curvesOrder),
             wrapMode := false,
             dataLineCount := numRows,
             asciiDataLines := rowLinesOf las nullV numRows } := by
  have hlines : pySplitlines (joinSep "\n" (genLinesOf las nullV numRows) ++ "\n") =
      genLinesOf las nullV numRows :=
    pySplitlines_joinSep _ (by unfold genLinesOf; simp) (genLines_nonl ok)
  simp only [parse]
  rw [hlines, preScan_gen ok]
  unfold genLinesOf
  simp only [List.cons_append, List.nil_append, List.append_assoc]
  rw [foldlM_cons_some _ _ _ _
    { currentSection := some "V", currentSectionName := "ERSION INFORMATION",
      dataLineCount := numRows }
    (by
      rw [parseLine_section [] _ _ 'V' "ERSION INFORMATION" (by decide)
        (fun h => absurd h.1 (by decide))]
      rfl)]
  rw [foldlM_cons_some _ _ _ _
    { file := { version := { vers := las.version.vers, wrap := "NO", dlm := "SPACE" } },
      currentSection := some "V", currentSectionName := "ERSION INFORMATION",
      dataLineCount := numRows }
    (by
      rw [parseLine_verSec [] _ _ rfl (versLine_class las.version.vers).1
        (versLine_class las.version.vers).2.1 (versLine_class las.version.vers).2.2.1]
      rw [parseVersionLine_versLine _ _ las.version.vers ok.vers_colon ok.vers_strip])]
  rw [foldlM_cons_some _ _ _ _
    { file := { version := { vers := las.version.vers, wrap := "NO", dlm := "SPACE" } },
      currentSection := some "V", currentSectionName := "ERSION INFORMATION",
      dataLineCount := numRows }
    (by
      rw [parseLine_verSec [] _ _ rfl (by decide) (by decide) (by decide)]
      rw [parseVersionLine_wrapLine])]
  rw [foldlM_cons_some _ _ _ _
    { file := { version := { vers := las.version.vers, wrap := "NO", dlm := "SPACE" } },
      currentSection := some "V", currentSectionName := "ERSION INFORMATION",
      dataLineCount := numRows }
    (parseLine_blank _ _)]
  rw [foldlM_cons_some _ _ _ _
    { file := { version := { vers := las.version.vers, wrap := "NO", dlm := "SPACE" } },
      currentSection := some "W", currentSectionName := "ELL INFORMATION",
      dataLineCount := numRows }
    (by
      rw [parseLine_section [] _ _ 'W' "ELL INFORMATION" (by decide)
        (fun h => absurd h.1 (by decide))]
      rfl)]
  rw [foldlM_append_some _ _ _ _
    { file := { version := { vers := las.version.vers, wrap := "NO", dlm := "SPACE" },
                well := las.well },
      currentSection := some "W", currentSectionName := "ELL INFORMATION",
      dataLineCount := numRows }
    (by
      rw [parse_well_fold [] las.well _ rfl ok.well_ok]
      dsimp only
      rw [foldl_dinsert_fresh las.well ([] : Dict String) (fun p _ => rfl) ok.well_keys]
      rfl)]
  rw [foldlM_cons_some _ _ _ _
    { file := { version := { vers := las.version.vers, wrap := "NO", dlm := "SPACE" },
                well := las.well },
      currentSection := some "W", currentSectionName := "ELL INFORMATION",
      dataLineCount := numRows }
    (parseLine_blank _ _)]
  rw [foldlM_cons_some _ _ _ _
    { file := { version := { vers := las.version.vers, wrap := "NO", dlm := "SPACE" },
                well := las.well },
      currentSection := some "C", currentSectionName := "URVE INFORMATION",
      dataLineCount := numRows }
    (by
      rw [parseLine_section [] _ _ 'C' "URVE INFORMATION" (by decide)
        (fun h => absurd h.1 (by decide))]
      rfl)]
  rw [foldlM_append_some _ _ _ _
    { file := { version := { vers := las.version.vers, wrap := "NO", dlm := "SPACE" },
                well := las.well,
                curves := las.curves.map (fun c =>
                  CurveDefinition.mk c.mnemonic c.unit "" c.description "" "" none),
                curvesOrder := las.curvesOrder },
      currentSection := some "C", currentSectionName := "URVE INFORMATION",
      dataLineCount := numRows }
    (by
      rw [parse_curve_fold las.curves _ rfl ok.curves_ok]
      rw [← ok.order_eq]
      rfl)]
  rw [foldlM_cons_some _ _ _ _
    { file := { version := { vers := las.version.vers, wrap := "NO", dlm := "SPACE" },
                well := las.well,
                curves := las.curves.map (fun c =>
                  CurveDefinition.mk c.mnemonic c.unit "" c.description "" "" none),
                curvesOrder := las.curvesOrder },
      currentSection := some "C", currentSectionName := "URVE INFORMATION",
      dataLineCount := numRows }
    (parseLine_blank _ _)]
  rw [foldlM_cons_some _ _ _ _
    { file := { version := { vers := las.version.vers, wrap := "NO", dlm := "SPACE" },
                well := las.well,
                curves := las.curves.map (fun c =>
                  CurveDefinition.mk c.mnemonic c.unit "" c.description "" "" none),
                curvesOrder := las.curvesOrder },
      currentSection := some "A",
      currentSectionName := pyStrip ("  " ++ joinSep "  " las.curvesOrder),
      dataLineCount := numRows }
    (by
      rw [parseLine_section [] _ _ 'A' ("  " ++ joinSep "  " las.curvesOrder)
        (sectionMatch_tildeA _) (by intro h; simpa using h.2)]
      rfl)]
  rw [show List.foldlM (fun st line => parseLine [] st line)
      ({ file := { version := { vers := las.version.vers, wrap := "NO", dlm := "SPACE" },
                   well := las.well,
                   curves := las.curves.map (fun c =>
                     CurveDefinition.mk c.mnemonic c.unit "" c.description "" "" none),
                   curvesOrder := las.curvesOrder },
         currentSection := some "A",
         currentSectionName := pyStrip ("  " ++ joinSep "  " las.curvesOrder),
         dataLineCount := numRows } : PState)
      (rowLinesOf las nullV numRows) =
      some { file := { version := { vers := las.version.vers, wrap := "NO",
                                    dlm := "SPACE" },
                       well := las.well,
                       curves := las.curves.map (fun c =>
                         CurveDefinition.mk c.mnemonic c.unit "" c.description "" "" none),
                       curvesOrder := las.curvesOrder },
             currentSection := some "A",
             currentSectionName := pyStrip ("  " ++ joinSep "  " las.curvesOrder),
             wrapMode := false,
             dataLineCount := numRows,
             asciiDataLines := rowLinesOf las nullV numRows } from by
    rw [parse_ascii_fold [] _ _ rfl (genRows_class ok)]
    rfl]
  have h30 : ({ version := { vers := las.version.vers, wrap := "NO", dlm := "SPACE" },
                well := las.well,
                curves := las.curves.map (fun c =>
                  CurveDefinition.mk c.mnemonic c.unit "" c.description "" "" none),
                curvesOrder := las.curvesOrder } : LASFile).isLas30 = false := by
    unfold LASFile.isLas30 VersionSection.isLas30
    simpa using ok.vers_not3
  dsimp only
  rw [h30]
  rfl

/-- Claim C5 (amended): for a document holding only numeric curves whose
mnemonics are written in the parser's own normal form (upper-case
mnemonic characters), with space delimiting, a non-3.0 version string
and uniform arrays keyed by the declared curve order (`RoundTripOK`),
the writer succeeds, its header always contains the literal WRAP=NO line
regardless of the input wrap mode, and reading the written text back
yields the same curve order and the same log-key set, with every value
equal to the 4-decimal rounding of the original, hence within absolute
tolerance 1/20000. -/
theorem roundtrip_amended {las : LASFile} {nullV : ℚ} {numRows : Nat}
    (ok : RoundTripOK las nullV numRows) :
    ∃ ls content f,
      generateLines las = some ls ∧
      " WRAP.   NO  : ONE LINE PER DEPTH STEP" ∈ ls ∧
      generateLasContent las = some content ∧
      readContent content = some (f, []) ∧
      f.version.wrap = "NO" ∧
      f.curvesOrder = las.curvesOrder ∧
      f.logs.map Prod.fst = las.logs.map Prod.fst ∧
      ∀ i name, las.curvesOrder.get? i = some name →
        ∃ arrD arr, dget? las.logs name = some arrD ∧ dget? f.logs name = some arr ∧
          arr.length = arrD.length ∧
          ∀ r y, arrD.get? r = some y → ∃ x, arr.get? r = some x ∧
            x = (round (y * 10000) : ℚ) / 10000 ∧ |x - y| ≤ 1 / 20000 := by
  have hlines : pySplitlines (joinSep "\n" (genLinesOf las nullV numRows) ++ "\n") =
      genLinesOf las nullV numRows :=
    pySplitlines_joinSep _ (by unfold genLinesOf; simp) (genLines_nonl ok)
  have hrowsLen : (dataRowsFrom
      (pySplitlines (joinSep "\n" (genLinesOf las nullV numRows) ++ "\n")) false) =
      rowLinesOf las nullV numRows := by
    rw [hlines, dataRows_gen ok]
  have hw : ¬ pyUpper (parsedFile las).version.wrap = "YES" := by
    show ¬ pyUpper ("NO" : String) = "YES"
    decide
  have hnd : (parsedFile las).curvesOrder.Nodup := ok.order_nodup
  have hlogs : (parsedFile las).logs = [] := rfl
  have hcc : ¬ (parsedFile las).curvesOrder.length = 0 :=
    fun h => ok.order_ne (List.length_eq_zero.mp h)
  have hnull : parseFloat (dgetD (parsedFile las).well "NULL" "-999.25") = some nullV :=
    ok.null_parse
  obtain ⟨f, ws, hread⟩ := readAsciiData_normal_total hw hnd hlogs hcc hnull
    (show (dataRowsFrom (pySplitlines
        (joinSep "\n" (genLinesOf las nullV numRows) ++ "\n")) false).length ≤ numRows
      from le_of_eq (by rw [hrowsLen]; simp [rowLinesOf]))
  obtain ⟨hkeys, hws, hord, hver, hwell⟩ :=
    readAsciiData_normal_frame hw hnd hlogs hcc hread
  subst hws
  refine ⟨genLinesOf las nullV numRows,
    joinSep "\n" (genLinesOf las nullV numRows) ++ "\n", f,
    generateLines_eval las nullV numRows ok, ?_, ?_, ?_, ?_, ?_, ?_, ?_⟩
  · unfold genLinesOf
    simp
  · unfold generateLasContent
    rw [generateLines_eval las nullV numRows ok]
    rfl
  · unfold readContent
    rw [parse_gen ok]
    dsimp only
    rw [show (parsedFile las).isLas30 = false from by
      unfold parsedFile LASFile.isLas30 VersionSection.isLas30
      simpa using ok.vers_not3]
    rw [if_neg (by decide)]
    exact hread
  · rw [hver]
    rfl
  · rw [hord]
    rfl
  · rw [hkeys, ok.logs_keys]
    rfl
  · intro i name hi
    have hmem : name ∈ las.curvesOrder := List.get?_mem hi
    obtain ⟨arrD, harrD⟩ := dget?_isSome_of_keys (by rw [ok.logs_keys]; exact hmem)
    have harrDlen : arrD.length = numRows := ok.logs_len name arrD harrD
    obtain ⟨arr, harr, harrlen, hcells⟩ :=
      readAsciiData_normal_get hw hnd hlogs hnull hread hi
    refine ⟨arrD, arr, harrD, harr, by rw [harrlen, harrDlen], ?_⟩
    intro r y hy
    have hr : r < numRows := by
      rw [← harrDlen]
      exact (List.get?_eq_some.mp hy).1
    have hrowr : (dataRowsFrom
        (pySplitlines (joinSep "\n" (genLinesOf las nullV numRows) ++ "\n"))
        false).get? r =
        some (joinSep " " (las.curvesOrder.map (legacyCell las nullV r))) := by
      rw [hrowsLen]
      unfold rowLinesOf
      rw [List.get?_map, List.get?_range hr]
      rfl
    have hx := hcells r _ hrowr
    have hsplit : pySplit (joinSep " " (las.curvesOrder.map (legacyCell las nullV r))) =
        las.curvesOrder.map (legacyCell las nullV r) := (genRow_facts ok r hr).2.1
    rw [hsplit] at hx
    have hilt : i < las.curvesOrder.length := (List.get?_eq_some.mp hi).1
    have hval : rowCellVal (las.curvesOrder.map (legacyCell las nullV r)) i nullV =
        (round ((arrD.getD r 0) * 10000) : ℚ) / 10000 := by
      unfold rowCellVal
      rw [if_pos (by rw [List.length_map]; exact hilt)]
      rw [List.getD_eq_get?, List.get?_map, hi]
      rw [show ((some name).map (legacyCell las nullV r)).getD "" =
        legacyCell las nullV r name from rfl]
      rw [legacyCell_eval las nullV r name arrD ok.no_strings harrD (by omega)]
      rw [parseFloat_fmt4]
      rfl
    have hy' : arrD.getD r 0 = y := by
      rw [List.getD_eq_get?, hy]
      rfl
    rw [hval, hy'] at hx
    exact ⟨(round (y * 10000) : ℚ) / 10000, hx, rfl, round4_close y⟩

/-- A numeric one-curve document whose mnemonic is lower-case. -/
def c5Bad : LASFile :=
  { version := { vers := "2.0", wrap := "NO" },
    well := [("NULL", "-999.25")],
    curves := [{ mnemonic := "dept" }],
    curvesOrder := ["dept"],
    logs := [("dept", [(1 : ℚ)])] }

/-- Claim C5, counterexample: the curve-name set is not always preserved
by the round trip, because the curve-line regex upper-cases the mnemonic
on re-parsing (`parser.py` line 175): a document with curve `dept` reads
back with curve set `{DEPT}`, and its data is keyed under the new
name only. -/
theorem roundtrip_mnemonic_counterexample :
    ((generateLasContent c5Bad).bind readContent).map (fun p => p.1.curvesOrder) =
      some ["DEPT"] ∧
    c5Bad.curvesOrder = ["dept"] ∧
    ((generateLasContent c5Bad).bind readContent).map
      (fun p => dget? p.1.logs "dept") = some none ∧
    ((generateLasContent c5Bad).bind readContent).map
      (fun p => dget? p.1.logs "DEPT") = some (some [(1 : ℚ)]) := by
  decide

/-- Upper-case two-curve numeric document (with WRAP=YES on input) used
to witness the amended round-trip theorem. -/
def c5Doc : LASFile :=
  { version := { vers := "2.0", wrap := "YES" },
    well := [("NULL", "-999.25")],
    curves := [{ mnemonic := "DEPT" }, { mnemonic := "GR" }],
    curvesOrder := ["DEPT", "GR"],
    logs := [("DEPT", [(100 : ℚ), (200 : ℚ)]), ("GR", [(1/3 : ℚ), (3/64 : ℚ)])] }

theorem logs_len_pair {a b : String} {x y : List ℚ} {n : Nat}
    (hx : x.length = n) (hy : y.length = n) :
    ∀ name arr, dget? [(a, x), (b, y)] name = some arr → arr.length = n := by
  intro name arr h
  simp only [dget?] at h
  by_cases h1 : a = name
  · rw [if_pos h1] at h
    injection h with h
    rw [← h]
    exact hx
  · rw [if_neg h1] at h
    by_cases h2 : b = name
    · rw [if_pos h2] at h
      injection h with h
      rw [← h]
      exact hy
    · rw [if_neg h2] at h
      exact absurd h (by simp)

theorem roundtrip_amended_witness :
    ∃ ls content f,
      generateLines c5Doc = some ls ∧
      " WRAP.   NO  : ONE LINE PER DEPTH STEP" ∈ ls ∧
      generateLasContent c5Doc = some content ∧
      readContent content = some (f, []) ∧
      f.version.wrap = "NO" ∧
      f.curvesOrder = c5Doc.curvesOrder ∧
      f.logs.map Prod.fst = c5Doc.logs.map Prod.fst ∧
      ∀ i name, c5Doc.curvesOrder.get? i = some name →
        ∃ arrD arr, dget? c5Doc.logs name = some arrD ∧ dget? f.logs name = some arr ∧
          arr.length = arrD.length ∧
          ∀ r y, arrD.get? r = some y → ∃ x, arr.get? r = some x ∧
            x = (round (y * 10000) : ℚ) / 10000 ∧ |x - y| ≤ 1 / 20000 :=
  @roundtrip_amended c5Doc (-999.25 : ℚ) 2
    ⟨by decide, by decide, by decide, by decide, by decide, by decide, by decide,
     by decide, by decide,
     by
       intro p hp
       rw [List.mem_singleton.mp hp]
       unfold WellEntryOK
       decide,
     by decide, by decide,
     by
       intro c hc
       rcases List.mem_cons.mp hc with rfl | hc
       · unfold CurveOK
         decide
       · rw [List.mem_singleton.mp hc]
         unfold CurveOK
         decide,
     by decide, by decide, by decide, by decide,
     logs_len_pair (by decide) (by decide)⟩

end Pylas
